import Mathlib

/-!
# rproxy: TLS wire codec, SNI extractor and forward rules

A shallow embedding of `tls.go`, `forward_rules.go` and `https_proxy.go`.

* A Go `[]byte` (and a Go `string`, which is a byte sequence) is a `List Byte`.
* A Go function that can return an error, or stop with a run-time panic
  (index out of range, nil dereference), returns in `Go`.
* A `net.Conn` is the finite sequence of bytes its peer delivers before it
  closes, together with the bytes written to it so far.
-/

set_option autoImplicit false

namespace Rproxy

/-! ## Bytes, errors, outcomes -/

abbrev Byte := Fin 256

/-- Conversion `byte(v)` of a non-negative Go `int`. -/
def toByte (v : Nat) : Byte := ⟨v % 256, Nat.mod_lt v (by decide)⟩

/-- The error values of `common.go`, and the transport errors of a connection. -/
inductive GoError where
  | errInvaildClientHello
  | errInvalidTLSPacket
  | errInvalidTLSProtocol
  | errTargetRejected
  | EOF
  | ErrUnexpectedEOF
  | errWrite
  | errDial
  deriving DecidableEq, Repr

/-- Why a Go function did not return a value: it returned an error, it
panicked, or (in this embedding only) a loop ran out of its iteration budget. -/
inductive Stop where
  | error (e : GoError)
  | panic
  | outOfFuel
  deriving DecidableEq, Repr

abbrev Go := Except Stop

/-- Index expression `d[i]`: panics when `i` is out of range. -/
def idx (d : List Byte) (i : Nat) : Go Byte :=
  match d[i]? with
  | some b => .ok b
  | none => .error .panic

/-- Slice expression `d[lo:hi]`: panics unless `lo ≤ hi ≤ len(d)`. -/
def slice (d : List Byte) (lo hi : Nat) : Go (List Byte) :=
  if lo ≤ hi ∧ hi ≤ d.length then .ok ((d.take hi).drop lo) else .error .panic

/-- Slice expression `d[lo:]`: panics unless `lo ≤ len(d)`. -/
def sliceFrom (d : List Byte) (lo : Nat) : Go (List Byte) :=
  if lo ≤ d.length then .ok (d.drop lo) else .error .panic

/-! ## tls.go: constants -/

def tlsTypeRecordAlert : Byte := 0x15
def tlsTypeRecordChangeCiperSpec : Byte := 0x14
def tlsTypeRecordHandShake : Byte := 0x16
def tlsTypeRecordApplicationData : Byte := 0x17
def tlsTypeMessageHelloRequest : Byte := 0
def tlsTypeMessageClientHello : Byte := 1
def tlsTypeMessageServerHello : Byte := 2
def tlsTypeMessageNewSessionTicket : Byte := 4
def tlsTypeMessageEndOfEarlyData : Byte := 5
def tlsTypeMessageEncryptedExtensions : Byte := 8
def tlsTypeMessageCertificate : Byte := 0xb
def tlsTypeMessageServerKeyExchange : Byte := 0xc
def tlsTypeMessageCertificateRequest : Byte := 0xd
def tlsTypeMessageServerDone : Byte := 0xe
def tlsTypeMessageCertificateVerify : Byte := 0xf
def tlsTypeMessageClientKeyExchange : Byte := 0x10
def tlsTypeMessageFinished : Byte := 0x14
def tlsTypeMessageCertificateStatus : Byte := 22
def tlsTypeMessageKeyUpdate : Byte := 24
def tlsTypeMessageMessageHash : Byte := 254
def extensionIDServerName : Nat := 0

/-! ## tls.go: data -/

/-- A `net.Conn`: `incoming` is what the peer still delivers before it closes,
`written` what has been written to it, `writesLeft` how many more `Write`
calls succeed (`none`: all of them). -/
structure NetConn where
  incoming : List Byte
  written : List Byte
  writesLeft : Option Nat
  deriving DecidableEq, Repr

structure tlsConn where
  conn : NetConn
  readBuffer : List Byte
  versionBuffer : List Byte
  deriving DecidableEq, Repr

structure tlsMessage where
  head : List Byte
  data : List Byte
  IsHandShake : Bool
  version : List Byte
  deriving DecidableEq, Repr

/-- Big-endian value of `d`: `ret = (ret << 8) + int(c)` for each byte. The
callers pass two or three bytes, far below the width of `int`. -/
def makeNetworkInt (d : List Byte) : Nat :=
  d.foldl (fun ret c => (ret <<< 8) + c.val) 0

/-- Fills `d` from its last byte backwards with the low bytes of `v`:
`d[len(d)-1-i] = byte(v % 256); v = v >> 8` for `i` over `range d`. -/
def writeNetworkInt (d : List Byte) (v : Nat) : List Byte :=
  ((List.range d.length).foldl
    (fun (s : List Byte × Nat) i => (s.1.set (d.length - 1 - i) (toByte (s.2 % 256)), s.2 >>> 8))
    (d, v)).1

/-- Returns `nil` (`none`) when head and data do not agree. -/
def newMessage (head data : List Byte) (isHandShake : Bool) : Option tlsMessage :=
  if isHandShake then
    if head.length ≠ 4 ∨ makeNetworkInt ((head.take 4).drop 1) ≠ data.length then none
    else some { head := head, data := data, IsHandShake := isHandShake, version := [] }
  else
    if head.length ≠ 5 ∨ makeNetworkInt ((head.take 5).drop 3) ≠ data.length then none
    else some { head := head, data := data, IsHandShake := isHandShake, version := [] }

/-- Method `Type` of a message: `p.head[0]`. -/
def tlsMessage.Type (p : tlsMessage) : Go Byte := idx p.head 0

/-- Function `io.ReadFull` into a fresh buffer of `n` bytes: the error (if any), the
buffer afterwards, and the connection afterwards. A short read leaves the
bytes received at the front of the zeroed buffer. -/
def readWithlogging (c : NetConn) (n : Nat) : Option GoError × List Byte × NetConn :=
  if n ≤ c.incoming.length then
    (none, c.incoming.take n, { c with incoming := c.incoming.drop n })
  else
    (some (if c.incoming.length = 0 then .EOF else .ErrUnexpectedEOF),
      c.incoming ++ List.replicate (n - c.incoming.length) 0,
      { c with incoming := [] })

def writeWithlogging (c : NetConn) (data : List Byte) : Option GoError × NetConn :=
  match c.writesLeft with
  | some 0 => (some .errWrite, c)
  | some (k + 1) => (none, { c with written := c.written ++ data, writesLeft := some k })
  | none => (none, { c with written := c.written ++ data })

/-- The sanity check `switch c.readBuffer[0]` of `ReadMessage`: the cases, in
source order, that do not reach `default`. -/
def knownHandshakeType (t : Byte) : Bool :=
  t = tlsTypeMessageCertificate || t = tlsTypeMessageCertificateRequest
  || t = tlsTypeMessageClientHello || t = tlsTypeMessageCertificateVerify
  || t = tlsTypeMessageClientKeyExchange || t = tlsTypeMessageFinished
  || t = tlsTypeMessageHelloRequest || t = tlsTypeMessageServerDone
  || t = tlsTypeMessageServerHello || t = tlsTypeMessageServerKeyExchange
  || t = tlsTypeMessageNewSessionTicket || t = tlsTypeMessageEncryptedExtensions
  || t = tlsTypeMessageEndOfEarlyData || t = tlsTypeMessageKeyUpdate
  || t = tlsTypeMessageMessageHash || t = tlsTypeMessageCertificateStatus

/-- Second half of `ReadMessage` (from "About to parse read buffer"): takes one
handshake message off the front of `c.readBuffer`. -/
def parseReadBuffer (c : tlsConn) : Go (Option tlsMessage) × tlsConn :=
  if c.readBuffer.length < 4 then (.error (.error .errInvalidTLSPacket), c)
  else
    match idx c.readBuffer 0 with
    | .error s => (.error s, c)
    | .ok t =>
      if !knownHandshakeType t then (.error (.error .errInvalidTLSPacket), c)
      else
        match slice c.readBuffer 1 4 with
        | .error s => (.error s, c)
        | .ok lenBytes =>
          let bodylen := makeNetworkInt lenBytes
          if c.readBuffer.length < bodylen + 4 then (.error (.error .errInvalidTLSPacket), c)
          else
            match slice c.readBuffer 0 4, slice c.readBuffer 4 (4 + bodylen),
                sliceFrom c.readBuffer (4 + bodylen) with
            | .ok head, .ok body, .ok rest =>
              let c1 := { c with readBuffer := rest }
              match newMessage head body true with
              | none => (.error .panic, c1)
              | some ret => (.ok (some { ret with version := c.versionBuffer }), c1)
            | _, _, _ => (.error .panic, c)

def ReadMessage (c : tlsConn) : Go (Option tlsMessage) × tlsConn :=
  if c.readBuffer.length = 0 then
    match readWithlogging c.conn 5 with
    | (some e, _, conn) => (.error (.error e), { c with conn := conn })
    | (none, head, conn) =>
      let c1 := { c with conn := conn }
      match idx head 0, idx head 1, idx head 2, slice head 3 5 with
      | .ok h0, .ok h1, .ok h2, .ok lenBytes =>
        if h1 ≠ 3 then (.error (.error .errInvalidTLSPacket), c1)
        else
          let c2 := { c1 with versionBuffer := [h1, h2] }
          if h0 = tlsTypeRecordAlert ∨ h0 = tlsTypeRecordChangeCiperSpec
              ∨ h0 = tlsTypeRecordApplicationData then
            match readWithlogging c2.conn (makeNetworkInt lenBytes) with
            | (some e, _, conn) => (.error (.error e), { c2 with conn := conn })
            | (none, body, conn) => (.ok (newMessage head body false), { c2 with conn := conn })
          else if h0 ≠ tlsTypeRecordHandShake then (.error (.error .errInvalidTLSPacket), c2)
          else
            match readWithlogging c2.conn (makeNetworkInt lenBytes) with
            | (some e, buf, conn) =>
              (.error (.error e), { c2 with conn := conn, readBuffer := buf })
            | (none, buf, conn) => parseReadBuffer { c2 with conn := conn, readBuffer := buf }
      | _, _, _, _ => (.error .panic, c1)
  else parseReadBuffer c

def WriteMessage (c : tlsConn) (m : tlsMessage) : Option GoError × tlsConn :=
  if m.IsHandShake then
    let head0 : List Byte := List.replicate 5 0
    let head1 := head0.set 0 tlsTypeRecordHandShake
    let head2 :=
      match m.version with
      | [v0, v1] => (head1.set 1 v0).set 2 v1
      | _ => (head1.set 1 3).set 2 3
    let head :=
      head2.take 3 ++ writeNetworkInt ((head2.take 5).drop 3) (m.head.length + m.data.length)
    match writeWithlogging c.conn head with
    | (some e, conn) => (some e, { c with conn := conn })
    | (none, conn) =>
      match writeWithlogging conn m.head with
      | (some e, conn) => (some e, { c with conn := conn })
      | (none, conn) =>
        match writeWithlogging conn m.data with
        | (some e, conn) => (some e, { c with conn := conn })
        | (none, conn) => (none, { c with conn := conn })
  else
    match writeWithlogging c.conn m.head with
    | (some e, conn) => (some e, { c with conn := conn })
    | (none, conn) =>
      match writeWithlogging conn m.data with
      | (some e, conn) => (some e, { c with conn := conn })
      | (none, conn) => (none, { c with conn := conn })

/-! ## Reading and writing whole streams -/

/-- A connection as `Serve` and `RunConnection` create it: nothing buffered. -/
def newConn (incoming : List Byte) : tlsConn :=
  { conn := { incoming := incoming, written := [], writesLeft := none },
    readBuffer := [], versionBuffer := [] }

/-- Calls `ReadMessage` until nothing is left, neither on the socket nor in the
read buffer, and collects the messages; any failing call (or a `nil` message)
fails the whole read. `fuel` bounds the number of calls. -/
def readAll : Nat → tlsConn → Go (List tlsMessage)
  | 0, _ => .error .outOfFuel
  | fuel + 1, c =>
    if c.conn.incoming = [] ∧ c.readBuffer = [] then .ok []
    else
      match ReadMessage c with
      | (.error s, _) => .error s
      | (.ok none, _) => .error .panic
      | (.ok (some m), c1) =>
        match readAll fuel c1 with
        | .error s => .error s
        | .ok ms => .ok (m :: ms)

/-- Reads the byte sequence `B` as a stream of TLS records; every successful
`ReadMessage` consumes at least four bytes, so `len(B) + 1` calls suffice. -/
def readStream (B : List Byte) : Go (List tlsMessage) :=
  readAll (B.length + 1) (newConn B)

/-- Calls `WriteMessage` for each message in turn, stopping at the first error. -/
def writeAll (c : tlsConn) : List tlsMessage → Option GoError × tlsConn
  | [] => (none, c)
  | m :: ms =>
    match WriteMessage c m with
    | (some e, c1) => (some e, c1)
    | (none, c1) => writeAll c1 ms

/-- The bytes a sink holds after the messages were written to it. -/
def writeStream (ms : List tlsMessage) : List Byte :=
  (writeAll (newConn []) ms).2.conn.written

/-- The shape of every message `ReadMessage` returns on a connection that
started with an empty read buffer. -/
def WellFramed (m : tlsMessage) : Prop :=
  if m.IsHandShake then
    m.head.length = 4 ∧ knownHandshakeType (m.head.getD 0 0) = true
      ∧ makeNetworkInt (m.head.drop 1) = m.data.length ∧ m.data.length + 4 < 65536
      ∧ ∃ v, m.version = [3, v]
  else
    m.head.length = 5 ∧ m.head.getD 1 0 = 3
      ∧ (m.head.getD 0 0 = tlsTypeRecordAlert ∨ m.head.getD 0 0 = tlsTypeRecordChangeCiperSpec
          ∨ m.head.getD 0 0 = tlsTypeRecordApplicationData)
      ∧ makeNetworkInt (m.head.drop 3) = m.data.length ∧ m.version = []

/-- What is known of a connection between two calls of `ReadMessage`. -/
def BufferInv (c : tlsConn) : Prop :=
  c.readBuffer.length < 65536 ∧ (c.readBuffer ≠ [] → ∃ v, c.versionBuffer = [3, v])

/-- The bytes `WriteMessage` sends for `m` on a connection that accepts them. -/
def recordBytes (m : tlsMessage) : List Byte :=
  (WriteMessage (newConn []) m).2.conn.written

/-! ## tls.go: ExtractSNI -/

/-- A Go `string`: its bytes. -/
abbrev Str := List Byte

/-- The offset `2+31+1+sessiondIDLen+1` at which `ExtractSNI` resumes after the
session id. -/
def sessionSkip (sessiondIDLen : Nat) : Nat := 2 + 31 + 1 + sessiondIDLen + 1

/-- The loop `for i := 0; i < numNames; i++` over the entries of a server_name
list; `remaining` is `numNames - i`, `d` the unread bytes. Returns the server
name on leaving the loop (`break` on the first entry of name type 0). -/
def nameLoop : Nat → List Byte → Str → Go Str
  | 0, _, serverName => .ok serverName
  | remaining + 1, d, serverName =>
    if d.length < 3 then .error (.error .errInvaildClientHello)
    else do
      let nameType ← idx d 0
      let nameLen := makeNetworkInt (← slice d 1 3)
      let d ← sliceFrom d 3
      if d.length < nameLen then .error (.error .errInvaildClientHello)
      else if nameType = 0 then slice d 0 nameLen
      else do
        let d ← sliceFrom d nameLen
        nameLoop remaining d serverName

/-- The loop `for len(data) != 0` over the extensions; `fuel` bounds the number
of iterations. -/
def extensionLoop : Nat → List Byte → Str → Go Str
  | fuel, data, serverName =>
    if data.length = 0 then .ok serverName
    else
      match fuel with
      | 0 => .error .outOfFuel
      | fuel + 1 =>
        if data.length < 4 then .error (.error .errInvaildClientHello)
        else do
          let extension := makeNetworkInt (← slice data 0 2)
          let length := ((← idx data 2).val <<< 8) ||| (← idx data 3).val
          let data ← sliceFrom data 4
          if data.length < length then .error (.error .errInvaildClientHello)
          else do
            let serverName ←
              if extension = extensionIDServerName then
                if length < 2 then .error (.error .errInvaildClientHello)
                else do
                  let numNames := makeNetworkInt (← slice data 0 2)
                  let d ← sliceFrom data 2
                  nameLoop numNames d serverName
              else pure serverName
            let data ← sliceFrom data length
            extensionLoop fuel data serverName

/-- Method `LogForError`: in both branches the arguments of the log call are
evaluated, among them `p.Type()`, which panics on an empty head. Nothing else
of the call is followed. -/
def tlsMessage.LogForError (p : tlsMessage) : Go Unit := do
  let _ ← p.Type
  pure ()

/-- Method `ExtractSNI`: `.ok s` is the return `(s, nil)`, `.error (.error e)`
the return `("", e)`. Every pass of the extension loop removes at least four
bytes, so `len(data)` passes suffice. -/
def tlsMessage.ExtractSNI (p : tlsMessage) : Go Str :=
  if !p.IsHandShake || p.head.length ≠ 4 || p.head[0]? ≠ some tlsTypeMessageClientHello then do
    p.LogForError
    .error (.error .errInvaildClientHello)
  else
    let data := p.data
    if data.length < 2 + 32 + 1 then .error (.error .errInvaildClientHello)
    else do
      let sessiondIDLen := (← idx data (2 + 32)).val
      if sessiondIDLen > 32 ∨ data.length < 2 + 32 + 1 + sessiondIDLen then
        .error (.error .errInvaildClientHello)
      else do
        let data ← sliceFrom data (sessionSkip sessiondIDLen)
        if data.length < 2 then .error (.error .errInvaildClientHello)
        else do
          let cipherSuiteLen := makeNetworkInt (← slice data 0 2)
          if cipherSuiteLen % 2 = 1 ∨ data.length < 2 + cipherSuiteLen then
            .error (.error .errInvaildClientHello)
          else do
            let data ← sliceFrom data (2 + cipherSuiteLen)
            if data.length < 1 then .error (.error .errInvaildClientHello)
            else do
              let compressionMethodsLen := (← idx data 0).val
              if data.length < 1 + compressionMethodsLen then
                .error (.error .errInvaildClientHello)
              else do
                let data ← sliceFrom data (1 + compressionMethodsLen)
                if data.length = 0 then .ok []
                else if data.length < 2 then .error (.error .errInvaildClientHello)
                else do
                  let extensionsLength := makeNetworkInt (← slice data 0 2)
                  let data ← sliceFrom data 2
                  if extensionsLength ≠ data.length then .error (.error .errInvaildClientHello)
                  else extensionLoop data.length data []

/-! ## ClientHello wire format (RFC 5246 §7.4.1.2, RFC 6066 §3), as the data model describes it -/

/-- Two-byte big-endian encoding of a length or type below 65536. -/
def be16 (n : Nat) : List Byte := [toByte (n / 256), toByte n]

/-- One entry `{name_type:1, name_length:2, name}` of a server_name list. -/
structure ServerNameEntry where
  nameType : Byte
  name : List Byte
  deriving DecidableEq, Repr

def ServerNameEntry.encode (e : ServerNameEntry) : List Byte :=
  e.nameType :: (be16 e.name.length ++ e.name)

def encodeEntries (es : List ServerNameEntry) : List Byte :=
  (es.map ServerNameEntry.encode).flatten

/-- The value of a server_name extension: a 2-byte list length, then the entries. -/
def encodeServerNameList (es : List ServerNameEntry) : List Byte :=
  be16 (encodeEntries es).length ++ encodeEntries es

/-- One extension `{type:2, length:2, value}`. -/
structure Extension where
  type : Nat
  value : List Byte
  deriving DecidableEq, Repr

def Extension.encode (x : Extension) : List Byte :=
  be16 x.type ++ (be16 x.value.length ++ x.value)

def encodeExtensions (xs : List Extension) : List Byte :=
  (xs.map Extension.encode).flatten

/-- A ClientHello body with an extensions block. -/
structure ClientHello where
  version : List Byte
  random : List Byte
  sessionID : List Byte
  cipherSuites : List Byte
  compressionMethods : List Byte
  extensions : List Extension
  deriving DecidableEq, Repr

def ClientHello.encode (h : ClientHello) : List Byte :=
  h.version ++ (h.random ++ (toByte h.sessionID.length :: (h.sessionID
    ++ (be16 h.cipherSuites.length ++ (h.cipherSuites
    ++ (toByte h.compressionMethods.length :: (h.compressionMethods
    ++ (be16 (encodeExtensions h.extensions).length ++ encodeExtensions h.extensions))))))))

/-- The lengths of the fixed fields and the bounds that let every length
prefix hold the length it stands for. -/
def ClientHello.WellFormed (h : ClientHello) : Prop :=
  h.version.length = 2 ∧ h.random.length = 32 ∧ h.sessionID.length ≤ 32
    ∧ h.cipherSuites.length % 2 = 0 ∧ h.cipherSuites.length < 65536
    ∧ h.compressionMethods.length < 256
    ∧ (encodeExtensions h.extensions).length < 65536
    ∧ ∀ x ∈ h.extensions, x.type < 65536 ∧ x.value.length < 65536

/-- A small ClientHello: one unrelated extension, a server_name extension whose
list holds a name of type 1 and then the host name `a.b` of type 0, and one
more extension. -/
def exampleHello : ClientHello :=
  { version := [3, 3], random := List.replicate 32 7, sessionID := [1, 2, 3],
    cipherSuites := [0, 1, 0, 2], compressionMethods := [0],
    extensions := [⟨10, [1, 2]⟩,
      ⟨0, encodeServerNameList [⟨1, [9]⟩, ⟨0, [97, 46, 98]⟩, ⟨0, [99]⟩]⟩, ⟨11, []⟩] }

/-! ## Go library: `strings.ToLower`, `strings.ToUpper`, `strings.Trim`

These are not part of the repository. They are written after the Go standard
library: the ASCII fast path byte for byte, and the path through
`strings.Map` with `utf8.DecodeRuneInString` and `utf8.EncodeRune`. Of the
Unicode case tables only the entries named at `unicodeToLower` and
`unicodeToUpper` are present. -/

def RuneError : Nat := 0xFFFD

/-- What `utf8.first` says of a leading byte: ASCII, invalid, or the leader of
a sequence of `size` bytes whose second byte must lie in `lo..hi`. -/
inductive FirstByte where
  | ascii
  | invalid
  | lead (size lo hi : Nat)
  deriving DecidableEq, Repr

def utf8First (b : Byte) : FirstByte :=
  if b.val < 0x80 then .ascii
  else if b.val < 0xC2 then .invalid
  else if b.val < 0xE0 then .lead 2 0x80 0xBF
  else if b.val = 0xE0 then .lead 3 0xA0 0xBF
  else if b.val < 0xED then .lead 3 0x80 0xBF
  else if b.val = 0xED then .lead 3 0x80 0x9F
  else if b.val < 0xF0 then .lead 3 0x80 0xBF
  else if b.val = 0xF0 then .lead 4 0x90 0xBF
  else if b.val < 0xF4 then .lead 4 0x80 0xBF
  else if b.val = 0xF4 then .lead 4 0x80 0x8F
  else .invalid

/-- The part of `utf8.DecodeRuneInString` behind a leading byte `s0` of a
sequence of `sz` bytes; `t` is what follows `s0`. -/
def decodeLead (sz lo hi : Nat) (s0 : Byte) (t : List Byte) : Nat × Nat :=
  if t.length + 1 < sz then (RuneError, 1)
  else
    match t with
    | [] => (RuneError, 1)
    | s1 :: t1 =>
      if s1.val < lo ∨ hi < s1.val then (RuneError, 1)
      else if sz ≤ 2 then (((s0.val &&& 0x1F) <<< 6) ||| (s1.val &&& 0x3F), 2)
      else
        match t1 with
        | [] => (RuneError, 1)
        | s2 :: t2 =>
          if s2.val < 0x80 ∨ 0xBF < s2.val then (RuneError, 1)
          else if sz ≤ 3 then
            (((s0.val &&& 0x0F) <<< 12) ||| ((s1.val &&& 0x3F) <<< 6) ||| (s2.val &&& 0x3F), 3)
          else
            match t2 with
            | [] => (RuneError, 1)
            | s3 :: _ =>
              if s3.val < 0x80 ∨ 0xBF < s3.val then (RuneError, 1)
              else
                (((s0.val &&& 0x07) <<< 18) ||| ((s1.val &&& 0x3F) <<< 12)
                  ||| ((s2.val &&& 0x3F) <<< 6) ||| (s3.val &&& 0x3F), 4)

/-- Function `utf8.DecodeRuneInString`: the first rune of `s` and its width in
bytes; an invalid or incomplete sequence gives `(RuneError, 1)`. -/
def decodeRune (s : List Byte) : Nat × Nat :=
  match s with
  | [] => (RuneError, 0)
  | s0 :: t =>
    match utf8First s0 with
    | .ascii => (s0.val, 1)
    | .invalid => (RuneError, 1)
    | .lead sz lo hi => decodeLead sz lo hi s0 t

/-- Every multi-byte leader announces 2, 3 or 4 bytes and wants a second byte
of at least 0x80. -/
def FirstByte.Sound : FirstByte → Prop
  | .lead sz lo _ => (sz = 2 ∨ sz = 3 ∨ sz = 4) ∧ 0x80 ≤ lo
  | _ => True

instance (f : FirstByte) : Decidable f.Sound := by
  cases f <;> unfold FirstByte.Sound <;> infer_instance

/-- Function `utf8.EncodeRune` (via `Builder.WriteRune`). -/
def encodeRune (r : Nat) : List Byte :=
  if r ≤ 0x7F then [toByte r]
  else if r ≤ 0x7FF then [toByte (0xC0 ||| (r >>> 6)), toByte (0x80 ||| (r &&& 0x3F))]
  else if r > 0x10FFFF ∨ (0xD800 ≤ r ∧ r ≤ 0xDFFF) then [0xEF, 0xBF, 0xBD]
  else if r ≤ 0xFFFF then
    [toByte (0xE0 ||| (r >>> 12)), toByte (0x80 ||| ((r >>> 6) &&& 0x3F)),
      toByte (0x80 ||| (r &&& 0x3F))]
  else
    [toByte (0xF0 ||| (r >>> 18)), toByte (0x80 ||| ((r >>> 12) &&& 0x3F)),
      toByte (0x80 ||| ((r >>> 6) &&& 0x3F)), toByte (0x80 ||| (r &&& 0x3F))]

/-- The loop of `strings.Map` for a mapping that never returns a negative rune:
decode a rune, write the mapped rune, go on behind it. `fuel` bounds the number
of runes. -/
def mapRunes (mapping : Nat → Nat) : Nat → List Byte → List Byte
  | 0, _ => []
  | fuel + 1, s =>
    if s = [] then []
    else encodeRune (mapping (decodeRune s).1) ++ mapRunes mapping fuel (s.drop (decodeRune s).2)

/-- Function `strings.Map`; a string holds no more runes than bytes. -/
def stringsMap (mapping : Nat → Nat) (s : Str) : Str := mapRunes mapping s.length s

/-- Function `unicode.ToLower`. Above U+007F only the entry of U+0130 (to `i`)
is present; U+0131 and U+017F are their own lower case. -/
def unicodeToLower (r : Nat) : Nat :=
  if r ≤ 0x7F then (if 0x41 ≤ r ∧ r ≤ 0x5A then r + 0x20 else r)
  else if r = 0x130 then 0x69
  else r

/-- Function `unicode.ToUpper`. Above U+007F only the entries of U+0131 (to `I`)
and U+017F (to `S`) are present; U+0130 is its own upper case. -/
def unicodeToUpper (r : Nat) : Nat :=
  if r ≤ 0x7F then (if 0x61 ≤ r ∧ r ≤ 0x7A then r - 0x20 else r)
  else if r = 0x131 then 0x49
  else if r = 0x17F then 0x53
  else r

def isASCII (s : Str) : Bool := s.all (fun c => decide (c.val < 0x80))

def asciiLower (c : Byte) : Byte := if 0x41 ≤ c.val ∧ c.val ≤ 0x5A then toByte (c.val + 0x20) else c

def asciiUpper (c : Byte) : Byte := if 0x61 ≤ c.val ∧ c.val ≤ 0x7A then toByte (c.val - 0x20) else c

/-- Function `strings.ToLower`. -/
def ToLower (s : Str) : Str :=
  if isASCII s then s.map asciiLower else stringsMap unicodeToLower s

/-- Function `strings.ToUpper`. -/
def ToUpper (s : Str) : Str :=
  if isASCII s then s.map asciiUpper else stringsMap unicodeToUpper s

/-- Function `strings.Trim(s, cutset)` for a cutset of one ASCII byte: drops that
byte from both ends. -/
def Trim (s : Str) (c : Byte) : Str :=
  (s.dropWhile (fun b => decide (b = c))).rdropWhile (fun b => decide (b = c))

/-- The bytes of a string literal made of ASCII characters. -/
def ascii (s : String) : Str := s.toList.map (fun ch => toByte ch.toNat)

/-! ## forward_rules.go -/

/-- A Go `map[string]bool` (and the `sync.Map` cache, which holds the same kind
of entries): a list of bindings with one binding per key. -/
abbrev BoolMap := List (Str × Bool)

/-- Map read `m[k]` with the comma-ok form. -/
def BoolMap.get (m : BoolMap) (k : Str) : Option Bool := List.lookup k m

/-- Map write `m[k] = v`. -/
def BoolMap.put (m : BoolMap) (k : Str) (v : Bool) : BoolMap :=
  (k, v) :: m.filter (fun p => decide (p.1 ≠ k))

/-- The rule set. `rules` are the two `*BoolMap` slots (`none` is a nil
pointer), `index` takes the values 0 and 1 only. -/
structure ForwardRules where
  rules : Option BoolMap × Option BoolMap
  index : Fin 2
  cache : BoolMap
  passThrough : Bool
  deriving DecidableEq, Repr

/-- Array read `f.rules[i]`. -/
def ForwardRules.rulesAt (f : ForwardRules) (i : Fin 2) : Option BoolMap :=
  if i = 0 then f.rules.1 else f.rules.2

/-- Array write `f.rules[i] = r`. -/
def ForwardRules.setRulesAt (f : ForwardRules) (i : Fin 2) (r : Option BoolMap) : ForwardRules :=
  if i = 0 then { f with rules := (r, f.rules.2) } else { f with rules := (f.rules.1, r) }

def ForwardRules.setRules (f : ForwardRules) (rules : Option BoolMap) : ForwardRules :=
  let oldindex := f.index
  let useIndex : Fin 2 := if oldindex = 0 then 1 else 0
  let f := f.setRulesAt useIndex rules
  let f := { f with index := useIndex }
  let f := f.setRulesAt oldindex (some [])
  { f with cache := [] }

/-- The loop `for i := 0; i < hostlen-1; i++` of `IsHostAllowedByRule`:
`remaining` is `hostlen-1-i`. Returns the value of the first suffix behind a
`.` that the table holds. -/
def suffixScan (rules : BoolMap) (host : Str) : Nat → Nat → Option Bool
  | 0, _ => none
  | remaining + 1, i =>
    if host[i]? = some 0x2E then
      match rules.get (host.drop (i + 1)) with
      | some r => some r
      | none => suffixScan rules host remaining (i + 1)
    else suffixScan rules host remaining (i + 1)

/-- The host as `IsHostAllowedByRule` looks it up:
`strings.Trim(strings.ToLower(host), ".")`. -/
def normalizeHost (host : Str) : Str := Trim (ToLower host) 0x2E

/-- Method `IsHostAllowedByRule`: the result (a panic when the active slot is a
nil pointer) and the rule set afterwards. -/
def ForwardRules.IsHostAllowedByRule (f : ForwardRules) (host : Str) : Go Bool × ForwardRules :=
  let host := normalizeHost host
  match f.cache.get host with
  | some r => (.ok r, f)
  | none =>
    match f.rulesAt f.index with
    | none => (.error .panic, f)
    | some rules =>
      match rules.get host with
      | some r => (.ok r, { f with cache := f.cache.put host r })
      | none =>
        match suffixScan rules host (host.length - 1) 0 with
        | some r => (.ok r, { f with cache := f.cache.put host r })
        | none => (.ok false, f)

/-- Method `PutJson`, from the point where `json.Unmarshal` has produced the
map `test` (`.error` carries its error): the error returned and the rule set
afterwards. -/
def ForwardRules.PutJson (f : ForwardRules) (decoded : Except GoError (List (Str × Str))) :
    Option GoError × ForwardRules :=
  match decoded with
  | .error err => (some err, f)
  | .ok test =>
    let rules : BoolMap := test.foldl (fun rules kv => rules.put (ToLower kv.1) true) []
    (none, f.setRules (some rules))

def ForwardRules.IsHostAllowed (f : ForwardRules) (remoteHost : Str) : Go Bool × ForwardRules :=
  if f.passThrough then (.ok true, f) else f.IsHostAllowedByRule remoteHost

/-- The table part of `IsHostAllowedByRule` on a host that is normalized
already: the exact entry, else the first suffix entry the loop finds. -/
def tableMatch (rules : BoolMap) (host : Str) : Option Bool :=
  match rules.get host with
  | some r => some r
  | none => suffixScan rules host (host.length - 1) 0

/-- The rule set after the lookups `xs`, made one after the other. -/
def lookups (f : ForwardRules) (xs : List Str) : ForwardRules :=
  xs.foldl (fun f x => (f.IsHostAllowedByRule x).2) f

/-- What a lookup of `x` returns on the table `T` when nothing is cached: a
panic on a nil table, else the table's answer, `false` when it has none. -/
def freshLookup (T : Option BoolMap) (x : Str) : Go Bool :=
  match T with
  | none => .error .panic
  | some t => .ok ((tableMatch t (normalizeHost x)).getD false)

/-! ## https_proxy.go -/

/-- The network as `RunConnection` uses it: whether `net.SplitHostPort` accepts
an address, what `net.JoinHostPort` makes of a host and a port, and what
`dialer.Dial` returns for an address. -/
structure Net where
  splitHostPortOk : Str → Bool
  joinHostPort : Str → Str → Str
  dial : Str → Except GoError NetConn

/-- How far `RunConnection` got: the dial failed, writing the pending message
failed, or both copy loops were started on the two connections (they run
concurrently and are not followed here). -/
inductive RunStage where
  | dialFailed (err : GoError)
  | writeFailed (err : GoError) (serverConn : tlsConn)
  | splicing (clientConn serverConn : tlsConn)

/-- What `RunConnection` did: the address it dialed, and how far it got. -/
structure RunResult where
  dialed : Str
  stage : RunStage

def HTTPSProxy.RunConnection (net : Net) (HTTPSProxyConn : tlsConn) (remoteHost : Str)
    (pendingMessage : tlsMessage) : RunResult :=
  let remoteHost :=
    if net.splitHostPortOk remoteHost then remoteHost
    else net.joinHostPort remoteHost (ascii "443")
  match net.dial remoteHost with
  | .error err => { dialed := remoteHost, stage := .dialFailed err }
  | .ok conn =>
    let serverConn : tlsConn := { conn := conn, readBuffer := [], versionBuffer := [] }
    match WriteMessage serverConn pendingMessage with
    | (some err, serverConn) => { dialed := remoteHost, stage := .writeFailed err serverConn }
    | (none, serverConn) => { dialed := remoteHost, stage := .splicing HTTPSProxyConn serverConn }

/-- How `Serve` ends: it returns an error of its own, it panics, or it returns
what `RunConnection` returns, and only `RunConnection` dials. -/
inductive ServeResult where
  | returned (err : GoError)
  | panicked
  | ranOut
  | forwarded (run : RunResult)

/-- Method `Serve` of `HTTPSProxy`, with the rule set `c.rules` in the state
`rules`: how it ends, and the rule set afterwards. -/
def HTTPSProxy.Serve (net : Net) (rules : ForwardRules) (conn : NetConn) :
    ServeResult × ForwardRules :=
  let clientConn : tlsConn := { conn := conn, readBuffer := [], versionBuffer := [] }
  match ReadMessage clientConn with
  | (.error (.error err), _) => (.returned err, rules)
  | (.error .panic, _) => (.panicked, rules)
  | (.error .outOfFuel, _) => (.ranOut, rules)
  | (.ok none, _) => (.panicked, rules)
  | (.ok (some p), clientConn) =>
    match p.Type with
    | .error _ => (.panicked, rules)
    | .ok type =>
      if p.IsHandShake && type = tlsTypeMessageClientHello then
        match p.ExtractSNI with
        | .error (.error err) => (.returned err, rules)
        | .error .panic => (.panicked, rules)
        | .error .outOfFuel => (.ranOut, rules)
        | .ok serverName =>
          match rules.IsHostAllowed serverName with
          | (.error _, rules) => (.panicked, rules)
          | (.ok false, rules) => (.returned .errTargetRejected, rules)
          | (.ok true, rules) =>
            (.forwarded (HTTPSProxy.RunConnection net clientConn serverName p), rules)
      else (.returned .errInvalidTLSProtocol, rules)

/-! ## Auxiliary predicates and examples -/

/-- The two ways `ExtractSNI` ends: with a name and no error, or with
`errInvaildClientHello`. -/
def Clean (r : Go Str) : Prop :=
  (∃ s, r = .ok s) ∨ r = .error (.error .errInvaildClientHello)

/-- The record a client sends first: one Handshake record holding `exampleHello`. -/
def exampleRecord : List Byte :=
  [0x16, 3, 1] ++ be16 (4 + exampleHello.encode.length)
    ++ ([1, 0] ++ be16 exampleHello.encode.length ++ exampleHello.encode)

/-- A network in which every address has no port yet, `JoinHostPort` appends
`:` and the port, and every dial reaches a peer that sends nothing. -/
def exampleNet : Net :=
  { splitHostPortOk := fun _ => false,
    joinHostPort := fun host port => host ++ ascii ":" ++ port,
    dial := fun _ => .ok { incoming := [], written := [], writesLeft := none } }

/-- A rule set whose active table allows `a.b`. -/
def exampleRules : ForwardRules :=
  { rules := (some [(ascii "a.b", true)], some []), index := 0, cache := [],
    passThrough := false }

/-! ## tls.go: the later stages of ExtractSNI, named -/

/-- The statements of `ExtractSNI` from `serverName := ""` to its end: `data` is
what follows the compression methods. -/
def extensionsBlock (data : List Byte) : Go Str :=
  if data.length = 0 then .ok []
  else if data.length < 2 then .error (.error .errInvaildClientHello)
  else do
    let extensionsLength := makeNetworkInt (← slice data 0 2)
    let data ← sliceFrom data 2
    if extensionsLength ≠ data.length then .error (.error .errInvaildClientHello)
    else extensionLoop data.length data []

/-- The statements of `ExtractSNI` after `data = data[2+31+1+sessiondIDLen+1:]`:
`data` is what follows the session id. -/
def afterSessionID (data : List Byte) : Go Str :=
  if data.length < 2 then .error (.error .errInvaildClientHello)
  else do
    let cipherSuiteLen := makeNetworkInt (← slice data 0 2)
    if cipherSuiteLen % 2 = 1 ∨ data.length < 2 + cipherSuiteLen then
      .error (.error .errInvaildClientHello)
    else do
      let data ← sliceFrom data (2 + cipherSuiteLen)
      if data.length < 1 then .error (.error .errInvaildClientHello)
      else do
        let compressionMethodsLen := (← idx data 0).val
        if data.length < 1 + compressionMethodsLen then
          .error (.error .errInvaildClientHello)
        else do
          let data ← sliceFrom data (1 + compressionMethodsLen)
          extensionsBlock data

/-! ## ClientHello examples for the server_name walk -/

/-- A ClientHello whose last extension is a server_name extension listing one
entry, of name type 1: no entry of name type 0 anywhere. -/
def helloOtherNameType : ClientHello :=
  { exampleHello with
    extensions := [⟨10, [1, 2]⟩, ⟨0, encodeServerNameList [⟨1, [120]⟩]⟩] }

/-- A ClientHello whose server_name extension declares a value of six bytes:
list length 4, then one entry of name type 0 whose name_len is 5 although a
single name byte (`a`) is left in the value. The next extension has type
0x2e62, length 2 and value `cd`. -/
def helloOverrunningName : ClientHello :=
  { exampleHello with
    extensions := [⟨0, [0, 4, 0, 0, 5, 97]⟩, ⟨0x2e62, [99, 100]⟩] }

/-! ## forward_rules.go: a lookup as its reads followed by its write

Between the statements of `IsHostAllowedByRule` that read the shared rule set
(`f.cache.Load`, `f.rules[f.index]`, the map reads on the table it loaded) and
the `f.cache.Store` it ends with, another goroutine may run. The table a lookup
loaded is never written again: `setRules` replaces the slot's pointer and does
not touch the map behind the old one. -/

/-- What a call of `IsHostAllowedByRule` holds once its reads are done: the
value it is going to return, and the entry it is going to store in the cache
(`none` when it returns without a `Store`). -/
structure PendingLookup where
  result : Go Bool
  store : Option (Str × Bool)
  deriving Repr

/-- The statements of `IsHostAllowedByRule` up to the `f.cache.Store` or the
`return` they lead to. -/
def ForwardRules.lookupReads (f : ForwardRules) (host : Str) : PendingLookup :=
  let host := normalizeHost host
  match f.cache.get host with
  | some r => ⟨.ok r, none⟩
  | none =>
    match f.rulesAt f.index with
    | none => ⟨.error .panic, none⟩
    | some rules =>
      match rules.get host with
      | some r => ⟨.ok r, some (host, r)⟩
      | none =>
        match suffixScan rules host (host.length - 1) 0 with
        | some r => ⟨.ok r, some (host, r)⟩
        | none => ⟨.ok false, none⟩

/-- The `f.cache.Store(host, r)` of a lookup whose reads are done, on the rule
set as it is when the statement runs. -/
def ForwardRules.lookupStore (f : ForwardRules) (p : PendingLookup) : ForwardRules :=
  match p.store with
  | none => f
  | some (k, v) => { f with cache := f.cache.put k v }

/-- A rule set whose active table allows `example.com`, as `PutJson` installs it. -/
def rulesWithExample : ForwardRules :=
  ((⟨(none, none), 0, [], false⟩ : ForwardRules).PutJson
    (.ok [(ascii "example.com", ascii "")])).2

/-! ## tls.go: the drain loop of copyConn -/

/-- How the `for` loop at the head of `copyConn` ends: `return err`, or `break`
towards `io.Copy`; a panic; or (in this embedding only) the iteration budget
used up. -/
inductive DrainEnd where
  | returned (err : GoError)
  | rawCopy
  | panicked
  | outOfFuel
  deriving DecidableEq, Repr

/-- The state when the loop ends: the source and destination connections, and
the arguments of the `c.WriteMessage(p)` calls made, in order. -/
structure DrainResult where
  outcome : DrainEnd
  src : tlsConn
  dst : tlsConn
  calls : List tlsMessage
  deriving DecidableEq, Repr

/-- The loop `for { if len(srcConn.readBuffer) == 0 { break } ... }` of
`copyConn`; `dst` is the receiver `c`, `fuel` bounds the number of iterations.
A `nil` message (which `ReadMessage` never returns with a `nil` error on a
non-empty read buffer) would make `WriteMessage` dereference `nil`. -/
def drainLoop : Nat → tlsConn → tlsConn → List tlsMessage → DrainResult
  | fuel, src, dst, calls =>
    if src.readBuffer.length = 0 then ⟨.rawCopy, src, dst, calls⟩
    else
      match fuel with
      | 0 => ⟨.outOfFuel, src, dst, calls⟩
      | fuel + 1 =>
        match ReadMessage src with
        | (.error (.error err), src1) => ⟨.returned err, src1, dst, calls⟩
        | (.error _, src1) => ⟨.panicked, src1, dst, calls⟩
        | (.ok none, src1) => ⟨.panicked, src1, dst, calls⟩
        | (.ok (some p), src1) =>
          match WriteMessage dst p with
          | (some err, dst1) => ⟨.returned err, src1, dst1, calls ++ [p]⟩
          | (none, dst1) => drainLoop fuel src1 dst1 (calls ++ [p])

/-- The drain loop from the start of `copyConn`. Every iteration that goes on
takes at least four bytes off the read buffer, so `len(srcConn.readBuffer)`
iterations suffice. -/
def drain (src dst : tlsConn) : DrainResult :=
  drainLoop src.readBuffer.length src dst []

/-- A handshake message as it lies in the read buffer: header, then body. -/
def messageBytes (m : tlsMessage) : List Byte := m.head ++ m.data

/-- A complete handshake message of a known type, carrying the version `vb`. -/
def CompleteHandshake (vb : List Byte) (m : tlsMessage) : Prop :=
  m.IsHandShake = true ∧ m.head.length = 4 ∧ knownHandshakeType (m.head.getD 0 0) = true
    ∧ makeNetworkInt (m.head.drop 1) = m.data.length ∧ m.version = vb

/-! ## forward_rules.go: the rule set before any table is installed -/

/-- The rule set as `NewForwardRules` leaves it when `Load` finds no file name
(`fn == ""`, so `PutJson` is not called) and `client.passthrough` is false:
both slots of `rules` are nil pointers, `index` is 0, nothing is cached. -/
def rulesWithoutFile : ForwardRules :=
  { rules := (none, none), index := 0, cache := [], passThrough := false }

/-! ## Wire codec: lemmas -/

set_option maxRecDepth 100000 in
theorem knownHandshakeType_iff (t : Byte) :
    knownHandshakeType t = true ↔
      t ∈ ([0, 1, 2, 4, 5, 8, 11, 12, 13, 14, 15, 16, 20, 22, 24, 254] : List Byte) := by
  revert t; decide

theorem slice_eq_ok {d : List Byte} {lo hi : Nat} (h1 : lo ≤ hi) (h2 : hi ≤ d.length) :
    slice d lo hi = .ok ((d.take hi).drop lo) := by
  simp [slice, h1, h2]

theorem sliceFrom_eq_ok {d : List Byte} {lo : Nat} (h : lo ≤ d.length) :
    sliceFrom d lo = .ok (d.drop lo) := by
  simp [sliceFrom, h]

theorem idx_eq_ok {d : List Byte} {i : Nat} (h : i < d.length) :
    idx d i = .ok (d.getD i 0) := by
  simp [idx, List.getD, List.getElem?_eq_getElem h]

theorem parseReadBuffer_eq (c : tlsConn) :
    parseReadBuffer c =
      if c.readBuffer.length < 4 ∨ knownHandshakeType (c.readBuffer.getD 0 0) = false
          ∨ c.readBuffer.length < makeNetworkInt ((c.readBuffer.take 4).drop 1) + 4 then
        (.error (.error .errInvalidTLSPacket), c)
      else
        (.ok (some { head := c.readBuffer.take 4,
                     data := (c.readBuffer.take (4 + makeNetworkInt ((c.readBuffer.take 4).drop 1))).drop 4,
                     IsHandShake := true,
                     version := c.versionBuffer }),
         { c with readBuffer := c.readBuffer.drop (4 + makeNetworkInt ((c.readBuffer.take 4).drop 1)) }) := by
  by_cases h4 : c.readBuffer.length < 4
  · simp [parseReadBuffer, h4]
  · have h4' : 4 ≤ c.readBuffer.length := by omega
    have e1 := @idx_eq_ok c.readBuffer 0 (by omega)
    have e2 := @slice_eq_ok c.readBuffer 1 (4) (by omega) h4'
    have hl : makeNetworkInt (List.drop 1 (List.take 4 (List.take 4 c.readBuffer)))
        = makeNetworkInt ((c.readBuffer.take 4).drop 1) := by
      rw [List.take_take, Nat.min_self]
    simp only [parseReadBuffer, e1, e2, if_neg h4, false_or]
    generalize makeNetworkInt ((c.readBuffer.take 4).drop 1) = n at hl ⊢
    by_cases hk : knownHandshakeType (c.readBuffer.getD 0 0) = false
    · simp only [hk, Bool.not_false, if_true, true_or, or_true]
    · have hk' : knownHandshakeType (c.readBuffer.getD 0 0) = true := by simpa using hk
      by_cases hb : c.readBuffer.length < n + 4
      · simp only [hk', hb, Bool.not_true, if_true, or_true, Bool.false_eq_true, if_false]
      · have e3 := @slice_eq_ok c.readBuffer 0 (4) (by omega) h4'
        have e4 := @slice_eq_ok c.readBuffer 4 (4 + n) (by omega) (by omega)
        have e5 := @sliceFrom_eq_ok c.readBuffer (4 + n) (by omega)
        have hlen : (List.drop 4 (List.take (4 + n) c.readBuffer)).length = n := by
          rw [List.length_drop, List.length_take]; omega
        have hlen4 : (List.take 4 c.readBuffer).length = 4 := by
          rw [List.length_take]; omega
        have hn : newMessage (List.drop 0 (List.take 4 c.readBuffer))
            (List.drop 4 (List.take (4 + n) c.readBuffer)) true
            = some { head := c.readBuffer.take 4,
                     data := (c.readBuffer.take (4 + n)).drop 4,
                     IsHandShake := true, version := [] } := by
          simp only [newMessage, if_true, hl, hlen, hlen4, List.drop_zero, ne_eq,
            not_true_eq_false, or_self, if_false]
        simp only [e3, e4, e5, hn, hk', hb, Bool.not_true, Bool.false_eq_true, if_false, or_self]
        rw [if_neg (by simp [h4])]

theorem makeNetworkInt_pair (a b : Byte) : makeNetworkInt [a, b] = a.val * 256 + b.val := by
  simp [makeNetworkInt, Nat.shiftLeft_eq]

theorem makeNetworkInt_triple (a b c : Byte) :
    makeNetworkInt [a, b, c] = (a.val * 256 + b.val) * 256 + c.val := by
  simp [makeNetworkInt, Nat.shiftLeft_eq]

/-- What `ReadMessage` does on an empty read buffer when the peer delivers at
least a record header. -/
theorem ReadMessage_header (conn : NetConn) (vb : List Byte) (h0 h1 h2 h3 h4 : Byte)
    (rest : List Byte) (hin : conn.incoming = h0 :: h1 :: h2 :: h3 :: h4 :: rest) :
    ReadMessage ⟨conn, [], vb⟩ =
      if h1 ≠ 3 then
        (.error (.error .errInvalidTLSPacket), ⟨{ conn with incoming := rest }, [], vb⟩)
      else if h0 = tlsTypeRecordAlert ∨ h0 = tlsTypeRecordChangeCiperSpec
          ∨ h0 = tlsTypeRecordApplicationData then
        match readWithlogging { conn with incoming := rest } (makeNetworkInt [h3, h4]) with
        | (some e, _, conn1) => (.error (.error e), ⟨conn1, [], [h1, h2]⟩)
        | (none, body, conn1) =>
          (.ok (newMessage [h0, h1, h2, h3, h4] body false), ⟨conn1, [], [h1, h2]⟩)
      else if h0 ≠ tlsTypeRecordHandShake then
        (.error (.error .errInvalidTLSPacket), ⟨{ conn with incoming := rest }, [], [h1, h2]⟩)
      else
        match readWithlogging { conn with incoming := rest } (makeNetworkInt [h3, h4]) with
        | (some e, buf, conn1) => (.error (.error e), ⟨conn1, buf, [h1, h2]⟩)
        | (none, buf, conn1) => parseReadBuffer ⟨conn1, buf, [h1, h2]⟩ := by
  simp only [ReadMessage, readWithlogging, hin, idx, slice]
  simp

/-- On an empty read buffer, fewer than five incoming bytes make `ReadMessage`
return the transport error. -/
theorem ReadMessage_short (conn : NetConn) (vb : List Byte) (h : conn.incoming.length < 5) :
    ∃ e c', ReadMessage ⟨conn, [], vb⟩ = (.error (.error e), c') := by
  have h' : ¬ (5 ≤ conn.incoming.length) := by omega
  simp [ReadMessage, readWithlogging, h']

theorem parseReadBuffer_toBool (c : tlsConn) (vb : List Byte) :
    (parseReadBuffer { c with versionBuffer := vb }).1.toBool = (parseReadBuffer c).1.toBool := by
  rw [parseReadBuffer_eq, parseReadBuffer_eq]
  dsimp only
  split_ifs <;> rfl

/-- C7: on an empty Peek Buffer, a record header whose second byte is not 3 is
rejected with InvalidTLSPacket, so is a header whose content type is none of
0x14, 0x15, 0x16, 0x17, and the third header byte has no influence on whether
the call succeeds. -/
theorem C7_record_header_checks (c : tlsConn) (h0 h1 h2 h3 h4 : Byte) (rest : List Byte)
    (hbuf : c.readBuffer = []) (hin : c.conn.incoming = h0 :: h1 :: h2 :: h3 :: h4 :: rest) :
    (h1 ≠ 3 → (ReadMessage c).1 = .error (.error .errInvalidTLSPacket))
    ∧ (h1 = 3 → h0 ∉ ([0x14, 0x15, 0x16, 0x17] : List Byte) →
        (ReadMessage c).1 = .error (.error .errInvalidTLSPacket))
    ∧ (∀ b : Byte,
        (ReadMessage { c with conn := { c.conn with
            incoming := h0 :: h1 :: b :: h3 :: h4 :: rest } }).1.toBool
          = (ReadMessage c).1.toBool) := by
  obtain ⟨conn, rb, vb⟩ := c
  simp only at hbuf hin
  subst hbuf
  refine ⟨?_, ?_, ?_⟩
  · intro h
    rw [ReadMessage_header conn vb h0 h1 h2 h3 h4 rest hin, if_pos h]
  · intro h hty
    simp only [List.mem_cons, List.mem_singleton, List.not_mem_nil, or_false, not_or] at hty
    rw [ReadMessage_header conn vb h0 h1 h2 h3 h4 rest hin]
    simp [h, hty, tlsTypeRecordAlert, tlsTypeRecordChangeCiperSpec,
      tlsTypeRecordApplicationData, tlsTypeRecordHandShake]
  · intro b
    rw [ReadMessage_header conn vb h0 h1 h2 h3 h4 rest hin,
      ReadMessage_header { conn with incoming := h0 :: h1 :: b :: h3 :: h4 :: rest } vb
        h0 h1 b h3 h4 rest rfl]
    by_cases e1 : h1 ≠ 3
    · simp [e1]
    · simp only [e1, if_false]
      by_cases e2 : h0 = tlsTypeRecordAlert ∨ h0 = tlsTypeRecordChangeCiperSpec
          ∨ h0 = tlsTypeRecordApplicationData
      · simp only [e2, if_true, readWithlogging]
        split_ifs <;> simp [newMessage, Except.toBool]
      · simp only [e2, if_false]
        by_cases e3 : h0 ≠ tlsTypeRecordHandShake
        · simp [e3]
        · simp only [e3, if_false, readWithlogging]
          split_ifs
          · exact (parseReadBuffer_toBool ⟨_, _, [h1, h2]⟩ [h1, b])
          · rfl
          · rfl

theorem C7_record_header_checks_witness :
    (⟨⟨[0x18, 3, 1, 0, 0], [], none⟩, [], []⟩ : tlsConn).readBuffer = []
    ∧ (ReadMessage ⟨⟨[0x18, 3, 1, 0, 0], [], none⟩, [], []⟩).1
        = .error (.error .errInvalidTLSPacket)
    ∧ (ReadMessage ⟨⟨[0x18, 3, 2, 0, 0], [], none⟩, [], []⟩).1.toBool
        = (ReadMessage ⟨⟨[0x18, 3, 1, 0, 0], [], none⟩, [], []⟩).1.toBool :=
  ⟨rfl,
    (C7_record_header_checks ⟨⟨[0x18, 3, 1, 0, 0], [], none⟩, [], []⟩ 0x18 3 1 0 0 [] rfl rfl).2.1
      rfl (by decide),
    (C7_record_header_checks ⟨⟨[0x18, 3, 1, 0, 0], [], none⟩, [], []⟩ 0x18 3 1 0 0 [] rfl rfl).2.2
      2⟩

/-! ## Wire codec: claims -/

/-- C8: on a non-empty pending handshake byte sequence `buf` (the Peek Buffer,
or the non-empty fragment of a Handshake record just read), `ReadMessage` fails
with InvalidTLSPacket exactly when `buf` has fewer than 4 bytes, or its first
byte is not a known handshake type, or the declared body does not fit; in
every other case it returns the handshake message with `head = buf[0..4]` and
`data = buf[4..4+body_len]`. -/
theorem C8_handshake_parse (conn : NetConn) (vb buf : List Byte) (hne : buf ≠ []) :
    -- the Peek Buffer holds `buf`
    (((ReadMessage ⟨conn, buf, vb⟩).1 = .error (.error .errInvalidTLSPacket) ↔
        (buf.length < 4
          ∨ buf.getD 0 0 ∉ ([0, 1, 2, 4, 5, 8, 11, 12, 13, 14, 15, 16, 20, 22, 24, 254] : List Byte)
          ∨ 4 + makeNetworkInt ((buf.take 4).drop 1) > buf.length))
      ∧ (¬ (buf.length < 4
          ∨ buf.getD 0 0 ∉ ([0, 1, 2, 4, 5, 8, 11, 12, 13, 14, 15, 16, 20, 22, 24, 254] : List Byte)
          ∨ 4 + makeNetworkInt ((buf.take 4).drop 1) > buf.length) →
        (ReadMessage ⟨conn, buf, vb⟩).1 =
          .ok (some { head := buf.take 4,
                      data := (buf.drop 4).take (makeNetworkInt ((buf.take 4).drop 1)),
                      IsHandShake := true, version := vb })))
    -- the Peek Buffer is empty and `buf` is the fragment of the next Handshake record
    ∧ (∀ (v l1 l0 : Byte) (rest : List Byte),
        conn.incoming = 0x16 :: 3 :: v :: l1 :: l0 :: (buf ++ rest) →
        makeNetworkInt [l1, l0] = buf.length →
        (((ReadMessage ⟨conn, [], vb⟩).1 = .error (.error .errInvalidTLSPacket) ↔
          (buf.length < 4
            ∨ buf.getD 0 0 ∉ ([0, 1, 2, 4, 5, 8, 11, 12, 13, 14, 15, 16, 20, 22, 24, 254] : List Byte)
            ∨ 4 + makeNetworkInt ((buf.take 4).drop 1) > buf.length))
        ∧ (¬ (buf.length < 4
            ∨ buf.getD 0 0 ∉ ([0, 1, 2, 4, 5, 8, 11, 12, 13, 14, 15, 16, 20, 22, 24, 254] : List Byte)
            ∨ 4 + makeNetworkInt ((buf.take 4).drop 1) > buf.length) →
          (ReadMessage ⟨conn, [], vb⟩).1 =
            .ok (some { head := buf.take 4,
                        data := (buf.drop 4).take (makeNetworkInt ((buf.take 4).drop 1)),
                        IsHandShake := true, version := [3, v] })))) := by
  have key : ∀ (cn : NetConn) (w : List Byte),
      ((parseReadBuffer ⟨cn, buf, w⟩).1 = .error (.error .errInvalidTLSPacket) ↔
        (buf.length < 4
          ∨ buf.getD 0 0 ∉ ([0, 1, 2, 4, 5, 8, 11, 12, 13, 14, 15, 16, 20, 22, 24, 254] : List Byte)
          ∨ 4 + makeNetworkInt ((buf.take 4).drop 1) > buf.length))
      ∧ (¬ (buf.length < 4
          ∨ buf.getD 0 0 ∉ ([0, 1, 2, 4, 5, 8, 11, 12, 13, 14, 15, 16, 20, 22, 24, 254] : List Byte)
          ∨ 4 + makeNetworkInt ((buf.take 4).drop 1) > buf.length) →
        (parseReadBuffer ⟨cn, buf, w⟩).1 =
          .ok (some { head := buf.take 4,
                      data := (buf.drop 4).take (makeNetworkInt ((buf.take 4).drop 1)),
                      IsHandShake := true, version := w })) := by
    intro cn w
    have hcond : (buf.length < 4 ∨ knownHandshakeType (buf.getD 0 0) = false
          ∨ buf.length < makeNetworkInt ((buf.take 4).drop 1) + 4) ↔
        (buf.length < 4
          ∨ buf.getD 0 0 ∉ ([0, 1, 2, 4, 5, 8, 11, 12, 13, 14, 15, 16, 20, 22, 24, 254] : List Byte)
          ∨ 4 + makeNetworkInt ((buf.take 4).drop 1) > buf.length) := by
      rw [← knownHandshakeType_iff, Bool.not_eq_true]
      exact or_congr Iff.rfl (or_congr Iff.rfl ⟨fun h => by omega, fun h => by omega⟩)
    rw [parseReadBuffer_eq]
    dsimp only
    rw [← hcond]
    constructor
    · constructor
      · intro h
        by_contra hc
        rw [if_neg hc] at h
        cases h
      · intro h
        rw [if_pos h]
    · intro h
      rw [if_neg h, List.take_drop]
  refine ⟨?_, ?_⟩
  · have hlen : ¬ (buf.length = 0) := by
      intro h; exact hne (List.length_eq_zero.mp h)
    have : ReadMessage ⟨conn, buf, vb⟩ = parseReadBuffer ⟨conn, buf, vb⟩ := by
      simp only [ReadMessage, if_neg hlen]
    rw [this]
    exact key conn vb
  · intro v l1 l0 rest hin hl
    have hrd : readWithlogging { conn with incoming := buf ++ rest } (makeNetworkInt [l1, l0])
        = (none, buf, { conn with incoming := rest }) := by
      simp [readWithlogging, hl]
    rw [ReadMessage_header conn vb 0x16 3 v l1 l0 (buf ++ rest) hin]
    simp only [hrd, tlsTypeRecordAlert, tlsTypeRecordChangeCiperSpec,
      tlsTypeRecordApplicationData, tlsTypeRecordHandShake]
    simp only [ne_eq, not_true_eq_false, if_false, Fin.reduceEq, or_self]
    exact key _ _

theorem C8_handshake_parse_witness :
    (([1, 0, 0, 1, 7, 9] : List Byte) ≠ []) ∧
    (ReadMessage ⟨⟨[], [], none⟩, [1, 0, 0, 1, 7, 9], [3, 3]⟩).1 =
      .ok (some { head := [1, 0, 0, 1], data := [7], IsHandShake := true, version := [3, 3] }) :=
  ⟨by decide,
    ((C8_handshake_parse ⟨[], [], none⟩ [3, 3] [1, 0, 0, 1, 7, 9] (by decide)).1).2 (by decide)⟩

theorem writeNetworkInt_two (a b : Byte) (v : Nat) :
    writeNetworkInt [a, b] v = [toByte ((v >>> 8) % 256), toByte (v % 256)] := by
  simp [writeNetworkInt, List.range_succ]

theorem makeNetworkInt_writeNetworkInt_two (a b : Byte) (v : Nat) :
    makeNetworkInt (writeNetworkInt [a, b] v) = v % 65536 := by
  rw [writeNetworkInt_two, makeNetworkInt_pair]
  simp only [toByte, Nat.shiftRight_eq_div_pow]
  omega

/-- The record header that `WriteMessage` synthesises for a handshake message. -/
theorem WriteMessage_handshake (c : tlsConn) (m : tlsMessage) (hm : m.IsHandShake = true)
    (hw : c.conn.writesLeft = none) :
    WriteMessage c m =
      (none, { c with conn := { c.conn with written :=
        c.conn.written ++
          ([0x16, (match m.version with | [v0, _] => v0 | _ => 3),
                  (match m.version with | [_, v1] => v1 | _ => 3)]
            ++ writeNetworkInt [0, 0] (m.head.length + m.data.length))
          ++ m.head ++ m.data } }) := by
  obtain ⟨⟨inc, wr, wl⟩, rb, vb⟩ := c
  simp only at hw
  subst hw
  simp only [WriteMessage, hm, if_true, writeWithlogging]
  split <;> simp [tlsTypeRecordHandShake]

theorem WriteMessage_handshake_written (c : tlsConn) (m : tlsMessage) (hm : m.IsHandShake = true)
    (hw : ∀ k, c.conn.writesLeft = some k → 3 ≤ k) :
    (WriteMessage c m).1 = none ∧
    (WriteMessage c m).2.conn.written =
        c.conn.written ++
          ([0x16, (match m.version with | [v0, _] => v0 | _ => 3),
                  (match m.version with | [_, v1] => v1 | _ => 3)]
            ++ writeNetworkInt [0, 0] (m.head.length + m.data.length))
          ++ m.head ++ m.data := by
  obtain ⟨⟨inc, wr, wl⟩, rb, vb⟩ := c
  rcases wl with _ | k
  · rw [WriteMessage_handshake _ m hm rfl]
    exact ⟨rfl, rfl⟩
  · have hk := hw k rfl
    obtain ⟨j, rfl⟩ : ∃ j, k = j + 3 := ⟨k - 3, by omega⟩
    simp only [WriteMessage, hm, if_true, writeWithlogging]
    split <;> simp [tlsTypeRecordHandShake]

/-- C9 (amended): for every handshake message `m` and every sink that accepts
the three writes, `WriteMessage` reports no error and writes exactly
`[0x16, v0, v1, L_hi, L_lo] ++ m.head ++ m.data`, where `(v0, v1)` is
`m.version` when that has length 2 and `(3, 3)` otherwise; the field
`(L_hi, L_lo)` decodes to `len(m.head) + len(m.data)` modulo 65536, hence to
the sum itself whenever the sum is below 65536. -/
theorem C9_handshake_record_frame (c : tlsConn) (m : tlsMessage) (hm : m.IsHandShake = true)
    (hw : ∀ k, c.conn.writesLeft = some k → 3 ≤ k) :
    ∃ v0 v1 Lhi Llo : Byte,
      (WriteMessage c m).1 = none
      ∧ (WriteMessage c m).2.conn.written
          = c.conn.written ++ [0x16, v0, v1, Lhi, Llo] ++ m.head ++ m.data
      ∧ (m.version.length = 2 → m.version = [v0, v1])
      ∧ (m.version.length ≠ 2 → v0 = 3 ∧ v1 = 3)
      ∧ makeNetworkInt [Lhi, Llo] = (m.head.length + m.data.length) % 65536
      ∧ (m.head.length + m.data.length < 65536 →
          makeNetworkInt [Lhi, Llo] = m.head.length + m.data.length) := by
  obtain ⟨h1, h2⟩ := WriteMessage_handshake_written c m hm hw
  have hL := makeNetworkInt_writeNetworkInt_two 0 0 (m.head.length + m.data.length)
  rw [writeNetworkInt_two] at hL h2
  refine ⟨(match m.version with | [v0, _] => v0 | _ => 3),
    (match m.version with | [_, v1] => v1 | _ => 3), _, _, h1, ?_, ?_, ?_, hL, ?_⟩
  · rw [h2]; simp
  · intro hv
    match m.version, hv with
    | [a, b], _ => rfl
  · intro hv
    match m.version, hv with
    | [], _ => exact ⟨rfl, rfl⟩
    | [_], _ => exact ⟨rfl, rfl⟩
    | [a, b], h => exact absurd rfl h
    | _ :: _ :: _ :: _, _ => exact ⟨rfl, rfl⟩
  · intro hlt
    rw [hL, Nat.mod_eq_of_lt hlt]

theorem C9_handshake_record_frame_witness :
    ∃ v0 v1 Lhi Llo : Byte,
      (WriteMessage ⟨⟨[], [], none⟩, [], []⟩ ⟨[1, 0, 0, 1], [7], true, [3, 1]⟩).1 = none
      ∧ (WriteMessage ⟨⟨[], [], none⟩, [], []⟩ ⟨[1, 0, 0, 1], [7], true, [3, 1]⟩).2.conn.written
          = [] ++ [0x16, v0, v1, Lhi, Llo] ++ [1, 0, 0, 1] ++ [7]
      ∧ (([3, 1] : List Byte).length = 2 → ([3, 1] : List Byte) = [v0, v1])
      ∧ (([3, 1] : List Byte).length ≠ 2 → v0 = 3 ∧ v1 = 3)
      ∧ makeNetworkInt [Lhi, Llo]
          = (([1, 0, 0, 1] : List Byte).length + ([7] : List Byte).length) % 65536
      ∧ (([1, 0, 0, 1] : List Byte).length + ([7] : List Byte).length < 65536 →
          makeNetworkInt [Lhi, Llo]
            = ([1, 0, 0, 1] : List Byte).length + ([7] : List Byte).length) :=
  C9_handshake_record_frame ⟨⟨[], [], none⟩, [], []⟩ ⟨[1, 0, 0, 1], [7], true, [3, 1]⟩ rfl
    (by intro k h; cases h)

theorem WriteMessage_oversized (d : List Byte) (hd : d.length = 65532) :
    (WriteMessage ⟨⟨[], [], none⟩, [], []⟩ ⟨[1, 0, 255, 252], d, true, [3, 3]⟩).2.conn.written
      = [0x16, 3, 3, 0, 0] ++ [1, 0, 255, 252] ++ d
    ∧ makeNetworkInt [0, 0] ≠ ([1, 0, 255, 252] : List Byte).length + d.length := by
  constructor
  · rw [WriteMessage_handshake _ _ rfl rfl, writeNetworkInt_two]
    simp [toByte, hd]
  · simp [makeNetworkInt, hd]

/-- C9 as stated fails for a handshake message of 65536 bytes: the length field
written is `[0, 0]`, which decodes to 0. -/
theorem C9_length_field_counterexample :
    (WriteMessage ⟨⟨[], [], none⟩, [], []⟩
        ⟨[1, 0, 255, 252], List.replicate 65532 0, true, [3, 3]⟩).2.conn.written
      = [0x16, 3, 3, 0, 0] ++ [1, 0, 255, 252] ++ List.replicate 65532 0
    ∧ makeNetworkInt [0, 0]
      ≠ ([1, 0, 255, 252] : List Byte).length + (List.replicate 65532 (0 : Byte)).length :=
  WriteMessage_oversized (List.replicate 65532 0) (List.length_replicate 65532 0)

theorem parseReadBuffer_conserves (c c' : tlsConn) (m : tlsMessage)
    (h : parseReadBuffer c = (.ok (some m), c')) :
    c'.conn = c.conn ∧ c'.versionBuffer = c.versionBuffer ∧ m.IsHandShake = true
      ∧ m.head ++ m.data ++ c'.readBuffer = c.readBuffer := by
  rw [parseReadBuffer_eq] at h
  split_ifs at h with hc
  · cases h
  · simp only [Prod.mk.injEq, Except.ok.injEq, Option.some.injEq] at h
    obtain ⟨rfl, rfl⟩ := h
    refine ⟨rfl, rfl, rfl, ?_⟩
    simp only
    generalize makeNetworkInt (List.drop 1 (List.take 4 c.readBuffer)) = n
    have e : List.take 4 c.readBuffer = List.take 4 (List.take (4 + n) c.readBuffer) := by
      rw [List.take_take]; congr 1; omega
    rw [e, List.take_append_drop, List.take_append_drop]

/-- C10: a successful `ReadMessage` that returns a handshake message `m` reads
nothing from the socket when the Peek Buffer was non-empty, and then
`m.head ++ m.data ++ (Peek Buffer after)` is the Peek Buffer before; when the
Peek Buffer was empty it reads exactly one record, a 5-byte header and the
fragment of the length the header declares, and `m.head ++ m.data ++ (Peek
Buffer after)` is that fragment. -/
theorem C10_handshake_bytes_conserved (c c' : tlsConn) (m : tlsMessage)
    (h : ReadMessage c = (.ok (some m), c')) (hm : m.IsHandShake = true) :
    (c.readBuffer ≠ [] →
        c'.conn = c.conn ∧ m.head ++ m.data ++ c'.readBuffer = c.readBuffer)
    ∧ (c.readBuffer = [] →
        ∃ hdr frag : List Byte,
          hdr.length = 5 ∧ frag.length = makeNetworkInt (hdr.drop 3)
          ∧ c.conn.incoming = hdr ++ frag ++ c'.conn.incoming
          ∧ c'.conn.written = c.conn.written ∧ c'.conn.writesLeft = c.conn.writesLeft
          ∧ m.head ++ m.data ++ c'.readBuffer = frag) := by
  obtain ⟨conn, rb, vb⟩ := c
  constructor
  · intro hne
    have hlen : ¬ (rb.length = 0) := fun h0 => hne (List.length_eq_zero.mp h0)
    simp only [ReadMessage, if_neg hlen] at h
    obtain ⟨h1, -, -, h4⟩ := parseReadBuffer_conserves _ _ _ h
    exact ⟨h1, h4⟩
  · intro he
    simp only at he
    subst he
    by_cases hs : conn.incoming.length < 5
    · obtain ⟨e, c2, h2⟩ := ReadMessage_short conn vb hs
      rw [h2] at h
      cases h
    · obtain ⟨h0, h1, h2, h3, h4, rest, hin⟩ :
          ∃ h0 h1 h2 h3 h4 rest, conn.incoming = h0 :: h1 :: h2 :: h3 :: h4 :: rest := by
        match hi : conn.incoming with
        | [] | [_] | [_, _] | [_, _, _] | [_, _, _, _] => simp [hi] at hs
        | a :: b :: c :: d :: e :: r => exact ⟨a, b, c, d, e, r, rfl⟩
      rw [ReadMessage_header conn vb h0 h1 h2 h3 h4 rest hin] at h
      split_ifs at h with e1 e2 e3
      · cases h
      · simp only [readWithlogging] at h
        split_ifs at h
        · simp only [Prod.mk.injEq, Except.ok.injEq] at h
          have hnm := h.1
          simp only [newMessage, Bool.false_eq_true, if_false] at hnm
          split_ifs at hnm
          simp only [Option.some.injEq] at hnm
          rw [← hnm] at hm
          cases hm
        · cases h
        · cases h
      · cases h
      · simp only [readWithlogging] at h
        split_ifs at h with hl
        · obtain ⟨p1, p2, p3, p4⟩ := parseReadBuffer_conserves _ _ _ h
          simp only at p1 p4
          refine ⟨[h0, h1, h2, h3, h4], List.take (makeNetworkInt [h3, h4]) rest, rfl, ?_, ?_,
            ?_, ?_, p4⟩
          · simp [List.length_take, hl]
          · rw [hin, p1]
            simp
          · rw [p1]
          · rw [p1]
        · cases h
        · cases h

theorem C10_handshake_bytes_conserved_witness :
    ReadMessage ⟨⟨[0x16, 3, 1, 0, 6, 1, 0, 0, 1, 7, 9], [], none⟩, [], []⟩
      = (.ok (some ⟨[1, 0, 0, 1], [7], true, [3, 1]⟩), ⟨⟨[], [], none⟩, [9], [3, 1]⟩)
    ∧ ∃ hdr frag : List Byte,
        hdr.length = 5 ∧ frag.length = makeNetworkInt (hdr.drop 3)
        ∧ [0x16, 3, 1, 0, 6, 1, 0, 0, 1, 7, 9] = hdr ++ frag ++ []
        ∧ ([] : List Byte) = [] ∧ (none : Option Nat) = none
        ∧ [1, 0, 0, 1] ++ [7] ++ [9] = frag :=
  ⟨by rfl, (C10_handshake_bytes_conserved
    ⟨⟨[0x16, 3, 1, 0, 6, 1, 0, 0, 1, 7, 9], [], none⟩, [], []⟩
    ⟨⟨[], [], none⟩, [9], [3, 1]⟩
    ⟨[1, 0, 0, 1], [7], true, [3, 1]⟩ (by rfl) rfl).2 rfl⟩

/-! ## Round trip of a record stream -/

theorem makeNetworkInt_pair_lt (a b : Byte) : makeNetworkInt [a, b] < 65536 := by
  rw [makeNetworkInt_pair]; omega

theorem parseReadBuffer_wellFramed (c c' : tlsConn) (m : tlsMessage)
    (h : parseReadBuffer c = (.ok (some m), c')) (hi : c.readBuffer.length < 65536)
    (hv : ∃ v, c.versionBuffer = [3, v]) :
    WellFramed m ∧ c'.readBuffer.length + 4 ≤ c.readBuffer.length := by
  rw [parseReadBuffer_eq] at h
  split_ifs at h with hc
  · cases h
  · simp only [Prod.mk.injEq, Except.ok.injEq, Option.some.injEq] at h
    obtain ⟨rfl, rfl⟩ := h
    simp only [not_or, not_lt, Bool.not_eq_false] at hc
    obtain ⟨h4, hk, hb⟩ := hc
    generalize hn : makeNetworkInt (List.drop 1 (List.take 4 c.readBuffer)) = n at hb ⊢
    refine ⟨?_, ?_⟩
    · simp only [WellFramed, if_true]
      refine ⟨?_, ?_, ?_, ?_, hv⟩
      · rw [List.length_take]; omega
      · rw [← hk]; congr 1
        match hr : c.readBuffer with
        | [] => simp [hr] at h4
        | a :: r => rfl
      · rw [hn, List.length_drop, List.length_take]; omega
      · rw [List.length_drop, List.length_take]; omega
    · simp only [List.length_drop]; omega

theorem incoming_five (conn : NetConn) (hs : ¬ conn.incoming.length < 5) :
    ∃ h0 h1 h2 h3 h4 rest, conn.incoming = h0 :: h1 :: h2 :: h3 :: h4 :: rest := by
  match hi : conn.incoming with
  | [] | [_] | [_, _] | [_, _, _] | [_, _, _, _] => simp [hi] at hs
  | a :: b :: c :: d :: e :: r => exact ⟨a, b, c, d, e, r, rfl⟩

/-- One successful `ReadMessage`: the message is well framed, the invariant is
kept, and at least four bytes leave the socket and the read buffer together. -/
theorem ReadMessage_step (c c' : tlsConn) (m : tlsMessage)
    (h : ReadMessage c = (.ok (some m), c')) (hinv : BufferInv c) :
    WellFramed m ∧ BufferInv c'
      ∧ c'.conn.incoming.length + c'.readBuffer.length + 4
          ≤ c.conn.incoming.length + c.readBuffer.length := by
  obtain ⟨conn, rb, vb⟩ := c
  by_cases hrb : rb = []
  · subst hrb
    by_cases hs : conn.incoming.length < 5
    · obtain ⟨e, c2, h2⟩ := ReadMessage_short conn vb hs
      rw [h2] at h
      cases h
    · obtain ⟨h0, h1, h2, h3, h4, rest, hin⟩ := incoming_five conn hs
      have hlt := makeNetworkInt_pair_lt h3 h4
      rw [ReadMessage_header conn vb h0 h1 h2 h3 h4 rest hin] at h
      split_ifs at h with e1 e2 e3
      · cases h
      · simp only [readWithlogging] at h
        split_ifs at h with hl
        · simp only [Prod.mk.injEq, Except.ok.injEq] at h
          obtain ⟨hnm, rfl⟩ := h
          simp only [newMessage, Bool.false_eq_true, if_false] at hnm
          split_ifs at hnm with hcond
          simp only [Option.some.injEq] at hnm
          subst hnm
          simp only [ne_eq, Decidable.not_not] at e1
          refine ⟨?_, ?_, ?_⟩
          · unfold WellFramed
            rw [if_neg (by simp)]
            refine ⟨rfl, e1, e2, ?_, rfl⟩
            simp [List.length_take, hl]
          · exact ⟨by simp, fun hne => absurd rfl hne⟩
          · simp only [hin, List.length_drop, List.length_cons, List.length_nil]
            omega
        · cases h
        · cases h
      · cases h
      · simp only [readWithlogging] at h
        split_ifs at h with hl
        · have hlen : (List.take (makeNetworkInt [h3, h4]) rest).length < 65536 := by
            rw [List.length_take]; omega
          simp only [ne_eq, Decidable.not_not] at e1
          obtain ⟨w1, w2⟩ := parseReadBuffer_wellFramed _ _ _ h hlen ⟨h2, by simp [e1]⟩
          obtain ⟨p1, p2, -, -⟩ := parseReadBuffer_conserves _ _ _ h
          simp only at w2 p1 p2
          refine ⟨w1, ⟨?_, ?_⟩, ?_⟩
          · omega
          · intro _
            exact ⟨h2, by rw [p2, e1]⟩
          · rw [p1]
            simp only [hin, List.length_drop, List.length_cons, List.length_nil]
            rw [List.length_take] at w2
            omega
        · cases h
        · cases h
  · have hlen : ¬ (rb.length = 0) := fun h0 => hrb (List.length_eq_zero.mp h0)
    simp only [ReadMessage, if_neg hlen] at h
    obtain ⟨w1, w2⟩ := parseReadBuffer_wellFramed _ _ _ h hinv.1 (hinv.2 hrb)
    obtain ⟨p1, p2, -, -⟩ := parseReadBuffer_conserves _ _ _ h
    simp only at w2 p1 p2
    refine ⟨w1, ⟨by have := hinv.1; simp only at this; omega, fun _ => ?_⟩, ?_⟩
    · rw [p2]; exact hinv.2 hrb
    · rw [p1]; simp only; omega

theorem readAll_wellFramed (fuel : Nat) :
    ∀ (c : tlsConn) (ms : List tlsMessage), readAll fuel c = .ok ms → BufferInv c →
      ∀ m ∈ ms, WellFramed m := by
  induction fuel with
  | zero => intro c ms h; simp [readAll] at h
  | succ n ih =>
    intro c ms h hinv
    simp only [readAll] at h
    split_ifs at h with he
    · cases h; simp
    · split at h
      · cases h
      · cases h
      · rename_i m c1 hrm
        split at h
        · cases h
        · rename_i ms1 hra
          cases h
          obtain ⟨w, i, -⟩ := ReadMessage_step c c1 m hrm hinv
          intro x hx
          rcases List.mem_cons.mp hx with rfl | hx
          · exact w
          · exact ih c1 ms1 hra i x hx

theorem recordBytes_handshake (m : tlsMessage) (hm : m.IsHandShake = true) :
    recordBytes m =
      [0x16, (match m.version with | [v0, _] => v0 | _ => 3),
             (match m.version with | [_, v1] => v1 | _ => 3)]
        ++ writeNetworkInt [0, 0] (m.head.length + m.data.length) ++ m.head ++ m.data := by
  rw [recordBytes, WriteMessage_handshake (newConn []) m hm rfl]
  simp [newConn]

theorem recordBytes_plain (m : tlsMessage) (hm : m.IsHandShake = false) :
    recordBytes m = m.head ++ m.data := by
  simp [recordBytes, newConn, WriteMessage, hm, writeWithlogging]

theorem WriteMessage_eq (c : tlsConn) (m : tlsMessage) (hw : c.conn.writesLeft = none) :
    WriteMessage c m =
      (none, { c with conn := { c.conn with written := c.conn.written ++ recordBytes m } }) := by
  cases hm : m.IsHandShake
  · rw [recordBytes_plain m hm]
    obtain ⟨⟨inc, wr, wl⟩, rb, vb⟩ := c
    simp only at hw
    subst hw
    simp [WriteMessage, hm, writeWithlogging]
  · rw [recordBytes_handshake m hm, WriteMessage_handshake c m hm hw]
    simp

theorem writeAll_eq (ms : List tlsMessage) :
    ∀ c : tlsConn, c.conn.writesLeft = none →
      writeAll c ms =
        (none, { c with conn := { c.conn with
          written := c.conn.written ++ (ms.map recordBytes).flatten } }) := by
  induction ms with
  | nil => intro c _; simp [writeAll]
  | cons m ms ih =>
    intro c hw
    simp only [writeAll, WriteMessage_eq c m hw]
    rw [ih]
    · simp
    · exact hw

theorem writeStream_eq (ms : List tlsMessage) :
    writeStream ms = (ms.map recordBytes).flatten := by
  rw [writeStream, writeAll_eq ms (newConn []) rfl]
  simp [newConn]

/-- Reading back the record that `WriteMessage` made of a well-framed message
returns that message and leaves the read buffer empty. -/
theorem ReadMessage_recordBytes (m : tlsMessage) (hw : WellFramed m) (conn : NetConn)
    (vb rest : List Byte) (hin : conn.incoming = recordBytes m ++ rest) :
    ∃ vb', ReadMessage ⟨conn, [], vb⟩ = (.ok (some m), ⟨{ conn with incoming := rest }, [], vb'⟩) := by
  obtain ⟨head, data, hs, version⟩ := m
  cases hs
  · simp only [WellFramed, Bool.false_eq_true, if_false] at hw
    obtain ⟨h5, h1, h0, hlen, hv⟩ := hw
    subst hv
    rw [recordBytes_plain _ rfl] at hin
    match head, h5 with
    | [a, b, c, d, e], _ =>
      simp only [List.getD_cons_succ, List.getD_cons_zero] at h1 h0
      simp only [List.drop_succ_cons, List.drop_zero] at hlen
      simp only [List.cons_append, List.nil_append, List.append_assoc] at hin
      rw [ReadMessage_header conn vb a b c d e (data ++ rest) hin]
      subst h1
      refine ⟨[3, c], ?_⟩
      simp [h0, readWithlogging, hlen, newMessage]
  · simp only [WellFramed, if_true] at hw
    obtain ⟨h4, hk, hlen, hlt, v, hv⟩ := hw
    subst hv
    rw [recordBytes_handshake _ rfl, writeNetworkInt_two] at hin
    have hL : makeNetworkInt [toByte ((head.length + data.length) >>> 8 % 256),
        toByte ((head.length + data.length) % 256)] = head.length + data.length := by
      rw [← writeNetworkInt_two 0 0, makeNetworkInt_writeNetworkInt_two]
      exact Nat.mod_eq_of_lt (by omega)
    simp only [List.cons_append, List.nil_append, List.append_assoc] at hin
    rw [ReadMessage_header conn vb 0x16 3 v _ _ _ hin]
    refine ⟨[3, v], ?_⟩
    have hrd : readWithlogging { conn with incoming := head ++ (data ++ rest) }
        (makeNetworkInt [toByte ((head.length + data.length) >>> 8 % 256),
          toByte ((head.length + data.length) % 256)])
        = (none, head ++ data, { conn with incoming := rest }) := by
      rw [hL]
      simp only [readWithlogging]
      rw [if_pos (by simp)]
      simp only [← List.append_assoc]
      rw [List.take_left' (by simp), List.drop_left' (by simp)]
    simp only [hrd, tlsTypeRecordAlert, tlsTypeRecordChangeCiperSpec,
      tlsTypeRecordApplicationData, tlsTypeRecordHandShake]
    simp only [ne_eq, not_true_eq_false, if_false, Fin.reduceEq, or_self]
    rw [parseReadBuffer_eq]
    match head, h4 with
    | [a, b, c, d], _ =>
      simp only [List.getD_cons_zero] at hk
      simp only [List.drop_succ_cons, List.drop_zero] at hlen
      have e1 : List.take (4 + data.length) (a :: b :: c :: d :: data)
          = a :: b :: c :: d :: data := List.take_of_length_le (by simp; omega)
      have e2 : List.drop (4 + data.length) (a :: b :: c :: d :: data) = [] :=
        List.drop_of_length_le (by simp; omega)
      have e3 : ¬ (data.length + 1 + 1 + 1 + 1 < 4) := by omega
      simp [hk, hlen, e1, e2, e3]

theorem recordBytes_length (m : tlsMessage) (hw : WellFramed m) : 5 ≤ (recordBytes m).length := by
  cases hm : m.IsHandShake
  · simp only [WellFramed, hm, Bool.false_eq_true, if_false] at hw
    rw [recordBytes_plain m hm, List.length_append]
    omega
  · rw [recordBytes_handshake m hm, writeNetworkInt_two]
    simp

theorem readAll_recordBytes (ms : List tlsMessage) :
    ∀ (fuel : Nat) (conn : NetConn) (vb : List Byte), (∀ m ∈ ms, WellFramed m) →
      ms.length + 1 ≤ fuel → conn.incoming = (ms.map recordBytes).flatten →
      readAll fuel ⟨conn, [], vb⟩ = .ok ms := by
  induction ms with
  | nil =>
    intro fuel conn vb _ hf hin
    obtain ⟨n, rfl⟩ : ∃ n, fuel = n + 1 := ⟨fuel - 1, by simp at hf; omega⟩
    simp only [List.map_nil, List.flatten_nil] at hin
    simp [readAll, hin]
  | cons m ms ih =>
    intro fuel conn vb hw hf hin
    obtain ⟨n, rfl⟩ : ∃ n, fuel = n + 1 := ⟨fuel - 1, by simp at hf; omega⟩
    have hwm := hw m (List.mem_cons_self m ms)
    simp only [List.map_cons, List.flatten_cons] at hin
    obtain ⟨vb', hr⟩ := ReadMessage_recordBytes m hwm conn vb _ hin
    have hne : ¬ (conn.incoming = []) := by
      intro h
      have h5 := recordBytes_length m hwm
      have := congrArg List.length hin
      rw [h, List.length_append] at this
      simp only [List.length_nil] at this
      omega
    have hrec := ih n { conn with incoming := (List.map recordBytes ms).flatten } vb'
      (fun x hx => hw x (List.mem_cons_of_mem m hx))
      (by simp only [List.length_cons] at hf; omega) rfl
    simp only [readAll, hne, false_and, if_false, hr, hrec]

theorem length_le_flatten_recordBytes (ms : List tlsMessage) (hw : ∀ m ∈ ms, WellFramed m) :
    ms.length ≤ ((ms.map recordBytes).flatten).length := by
  induction ms with
  | nil => simp
  | cons m ms ih =>
    have h5 := recordBytes_length m (hw m (List.mem_cons_self m ms))
    have := ih (fun x hx => hw x (List.mem_cons_of_mem m hx))
    simp only [List.map_cons, List.flatten_cons, List.length_append, List.length_cons]
    omega

theorem ReadMessage_plain_record (c c' : tlsConn) (m : tlsMessage)
    (h : ReadMessage c = (.ok (some m), c')) (hm : m.IsHandShake = false) :
    m.head.length = 5 ∧ c.conn.incoming = m.head ++ m.data ++ c'.conn.incoming := by
  obtain ⟨conn, rb, vb⟩ := c
  by_cases hrb : rb = []
  · subst hrb
    by_cases hs : conn.incoming.length < 5
    · obtain ⟨e, c2, h2⟩ := ReadMessage_short conn vb hs
      rw [h2] at h
      cases h
    · obtain ⟨h0, h1, h2, h3, h4, rest, hin⟩ := incoming_five conn hs
      rw [ReadMessage_header conn vb h0 h1 h2 h3 h4 rest hin] at h
      split_ifs at h with e1 e2 e3
      · cases h
      · simp only [readWithlogging] at h
        split_ifs at h with hl
        · simp only [Prod.mk.injEq, Except.ok.injEq] at h
          obtain ⟨hnm, rfl⟩ := h
          simp only [newMessage, Bool.false_eq_true, if_false] at hnm
          split_ifs at hnm with hcond
          simp only [Option.some.injEq] at hnm
          subst hnm
          refine ⟨rfl, ?_⟩
          simp [hin]
        · cases h
        · cases h
      · cases h
      · simp only [readWithlogging] at h
        split_ifs at h with hl
        · obtain ⟨-, -, p3, -⟩ := parseReadBuffer_conserves _ _ _ h
          rw [hm] at p3
          cases p3
        · cases h
        · cases h
  · have hlen : ¬ (rb.length = 0) := fun h0 => hrb (List.length_eq_zero.mp h0)
    simp only [ReadMessage, if_neg hlen] at h
    obtain ⟨-, -, p3, -⟩ := parseReadBuffer_conserves _ _ _ h
    rw [hm] at p3
    cases p3

/-- C3: if the byte sequence `B` reads as the messages `ms` (every `ReadMessage`
succeeds until `B` is exhausted), then writing `ms` with `WriteMessage` to a
sink succeeds, and the bytes the sink then holds read back as the same
messages `ms`; and every non-handshake message that any `ReadMessage` returns
is one whole record of the input, a 5-byte header followed by the fragment,
that `WriteMessage` emits byte for byte. -/
theorem C3_read_write_roundtrip (B : List Byte) (ms : List tlsMessage)
    (h : readStream B = .ok ms) :
    (writeAll (newConn []) ms).1 = none
    ∧ readStream (writeStream ms) = .ok ms
    ∧ (∀ (c c' : tlsConn) (m : tlsMessage),
        ReadMessage c = (.ok (some m), c') → m.IsHandShake = false →
          m.head.length = 5
          ∧ c.conn.incoming = m.head ++ m.data ++ c'.conn.incoming
          ∧ recordBytes m = m.head ++ m.data) := by
  have hw : ∀ m ∈ ms, WellFramed m :=
    readAll_wellFramed _ _ _ h ⟨by simp [newConn], fun hne => absurd rfl hne⟩
  refine ⟨?_, ?_, ?_⟩
  · rw [writeAll_eq ms (newConn []) rfl]
  · rw [readStream, writeStream_eq]
    exact readAll_recordBytes ms _ _ _ hw
      (by have := length_le_flatten_recordBytes ms hw; omega) rfl
  · intro c c' m hr hm
    obtain ⟨p1, p2⟩ := ReadMessage_plain_record c c' m hr hm
    exact ⟨p1, p2, recordBytes_plain m hm⟩

theorem C3_read_write_roundtrip_witness :
    readStream [0x16, 3, 1, 0, 12, 1, 0, 0, 1, 7, 2, 0, 0, 3, 8, 8, 8, 0x17, 3, 3, 0, 2, 5, 6]
      = .ok [⟨[1, 0, 0, 1], [7], true, [3, 1]⟩, ⟨[2, 0, 0, 3], [8, 8, 8], true, [3, 1]⟩,
             ⟨[0x17, 3, 3, 0, 2], [5, 6], false, []⟩]
    ∧ readStream (writeStream [⟨[1, 0, 0, 1], [7], true, [3, 1]⟩,
        ⟨[2, 0, 0, 3], [8, 8, 8], true, [3, 1]⟩, ⟨[0x17, 3, 3, 0, 2], [5, 6], false, []⟩])
      = .ok [⟨[1, 0, 0, 1], [7], true, [3, 1]⟩, ⟨[2, 0, 0, 3], [8, 8, 8], true, [3, 1]⟩,
             ⟨[0x17, 3, 3, 0, 2], [5, 6], false, []⟩] :=
  ⟨by rfl, (C3_read_write_roundtrip
    [0x16, 3, 1, 0, 12, 1, 0, 0, 1, 7, 2, 0, 0, 3, 8, 8, 8, 0x17, 3, 3, 0, 2, 5, 6] _
    (by rfl)).2.1⟩

/-! ## ExtractSNI: lemmas -/

theorem sliceFrom_append (a b : List Byte) (n : Nat) (h : a.length = n) :
    sliceFrom (a ++ b) n = .ok b := by
  subst h
  simp [sliceFrom]

theorem slice_append (a b : List Byte) (n : Nat) (h : a.length = n) :
    slice (a ++ b) 0 n = .ok a := by
  subst h
  simp [slice]

theorem idx_append (a : List Byte) (x : Byte) (b : List Byte) (n : Nat) (h : a.length = n) :
    idx (a ++ x :: b) n = .ok x := by
  subst h
  unfold idx
  rw [List.getElem?_append_right (Nat.le_refl _)]
  simp

theorem toByte_val_of_lt (n : Nat) (h : n < 256) : (toByte n).val = n := by
  simp [toByte, Nat.mod_eq_of_lt h]

theorem makeNetworkInt_be16 (n : Nat) (h : n < 65536) : makeNetworkInt (be16 n) = n := by
  rw [be16, makeNetworkInt_pair]
  simp only [toByte]
  omega

theorem be16_length (n : Nat) : (be16 n).length = 2 := rfl

theorem shift_or_be16 (n : Nat) (h : n < 65536) :
    ((toByte (n / 256)).val <<< 8) ||| (toByte n).val = n := by
  have h2 : (toByte n).val < 2 ^ 8 := (toByte n).isLt
  rw [Nat.shiftLeft_eq, Nat.mul_comm, ← Nat.mul_add_lt_is_or h2]
  simp only [toByte]
  omega

theorem nameLoop_entry (k : Nat) (t a b : Byte) (name tail : List Byte) (s : Str)
    (h : makeNetworkInt [a, b] = name.length) :
    nameLoop (k + 1) (t :: a :: b :: (name ++ tail)) s
      = if t = 0 then .ok name else nameLoop k tail s := by
  simp only [nameLoop, idx, slice, sliceFrom, bind, Except.bind]
  simp [h]

/-- The name loop finds the first entry of name type 0. -/
theorem nameLoop_finds (before : List ServerNameEntry) :
    ∀ (k : Nat) (n tail : List Byte) (s : Str),
      (∀ e ∈ before, e.nameType ≠ 0 ∧ e.name.length < 65536) → n.length < 65536 →
      before.length < k →
      nameLoop k (encodeEntries before ++ ((⟨0, n⟩ : ServerNameEntry).encode ++ tail)) s
        = .ok n := by
  induction before with
  | nil =>
    intro k n tail s _ hn hk
    obtain ⟨j, rfl⟩ : ∃ j, k = j + 1 := ⟨k - 1, by simp at hk; omega⟩
    simp only [encodeEntries, List.map_nil, List.flatten_nil, List.nil_append,
      ServerNameEntry.encode, List.cons_append, List.append_assoc, be16]
    rw [nameLoop_entry j 0 _ _ n tail s (makeNetworkInt_be16 _ hn), if_pos rfl]
  | cons e es ih =>
    intro k n tail s hb hn hk
    obtain ⟨j, rfl⟩ : ∃ j, k = j + 1 := ⟨k - 1, by simp at hk; omega⟩
    obtain ⟨he0, hel⟩ := hb e (List.mem_cons_self e es)
    have hrec := ih j n tail s (fun x hx => hb x (List.mem_cons_of_mem e hx)) hn
      (by simp at hk; omega)
    simp only [encodeEntries, List.map_cons, List.flatten_cons, List.append_assoc,
      ServerNameEntry.encode, List.cons_append] at hrec ⊢
    simp only [be16, List.cons_append, List.nil_append] at hrec ⊢
    rw [nameLoop_entry j e.nameType _ _ e.name _ s (makeNetworkInt_be16 _ hel), if_neg he0]
    exact hrec

theorem extensionLoop_nil (fuel : Nat) (s : Str) : extensionLoop fuel [] s = .ok s := by
  rw [extensionLoop.eq_def]; simp

/-- One pass of the extension loop over an extension that is not server_name. -/
theorem extensionLoop_other (fuel : Nat) (t1 t0 l1 l0 : Byte) (value rest : List Byte) (s : Str)
    (ht : makeNetworkInt [t1, t0] ≠ 0) (hl : ((l1.val <<< 8) ||| l0.val) = value.length) :
    extensionLoop (fuel + 1) (t1 :: t0 :: l1 :: l0 :: (value ++ rest)) s
      = extensionLoop fuel rest s := by
  rw [extensionLoop]
  simp only [idx, slice, sliceFrom, bind, Except.bind, extensionIDServerName]
  simp [hl, ht]
  rw [if_neg (by omega)]
  rfl

/-- One pass of the extension loop over a server_name extension. -/
theorem extensionLoop_serverName (fuel : Nat) (t1 t0 l1 l0 n1 n0 : Byte)
    (entries rest : List Byte) (s : Str)
    (ht : makeNetworkInt [t1, t0] = 0)
    (hl : ((l1.val <<< 8) ||| l0.val) = (n1 :: n0 :: entries).length) :
    extensionLoop (fuel + 1) (t1 :: t0 :: l1 :: l0 :: n1 :: n0 :: (entries ++ rest)) s
      = (nameLoop (makeNetworkInt [n1, n0]) (entries ++ rest) s).bind
          (fun s' => extensionLoop fuel rest s') := by
  rw [extensionLoop]
  simp only [idx, slice, sliceFrom, bind, Except.bind, extensionIDServerName]
  simp [hl, ht]
  cases nameLoop (makeNetworkInt [n1, n0]) (entries ++ rest) s <;>
    (simp only [Except.bind]; rw [if_neg (by omega), if_neg (by omega)])

theorem extensionLoop_others (xs : List Extension) :
    ∀ (f : Nat) (rest : List Byte) (s : Str),
      (∀ x ∈ xs, x.type ≠ 0 ∧ x.type < 65536 ∧ x.value.length < 65536) →
      extensionLoop (xs.length + f) (encodeExtensions xs ++ rest) s = extensionLoop f rest s := by
  induction xs with
  | nil => intro f rest s _; simp [encodeExtensions]
  | cons x xs ih =>
    intro f rest s hx
    obtain ⟨h0, ht, hl⟩ := hx x (List.mem_cons_self x xs)
    have e : (x :: xs).length + f = (xs.length + f) + 1 := by simp only [List.length_cons]; omega
    rw [e]
    simp only [encodeExtensions, List.map_cons, List.flatten_cons, Extension.encode, be16,
      List.cons_append, List.nil_append, List.append_assoc]
    rw [extensionLoop_other _ _ _ _ _ x.value _ s
      (by rw [← be16, makeNetworkInt_be16 _ ht]; exact h0) (shift_or_be16 _ hl)]
    exact ih f rest s (fun y hy => hx y (List.mem_cons_of_mem x hy))

theorem length_le_encodeExtensions (xs : List Extension) :
    xs.length ≤ (encodeExtensions xs).length := by
  induction xs with
  | nil => simp
  | cons x xs ih =>
    simp only [encodeExtensions, List.map_cons, List.flatten_cons, Extension.encode, be16,
      List.length_append, List.length_cons, List.length_nil] at ih ⊢
    omega

/-- The extension walk over a block that holds one server_name extension whose
list has an entry of name type 0. -/
theorem extensionLoop_sni (pre post : List Extension) (before after : List ServerNameEntry)
    (n : List Byte) (fuel : Nat)
    (hpre : ∀ x ∈ pre, x.type ≠ 0 ∧ x.type < 65536 ∧ x.value.length < 65536)
    (hpost : ∀ x ∈ post, x.type ≠ 0 ∧ x.type < 65536 ∧ x.value.length < 65536)
    (hbefore : ∀ e ∈ before, e.nameType ≠ 0 ∧ e.name.length < 65536)
    (hn : n.length < 65536)
    (hlist : (encodeServerNameList (before ++ ⟨0, n⟩ :: after)).length < 65536)
    (hfuel : (pre ++ ⟨0, encodeServerNameList (before ++ ⟨0, n⟩ :: after)⟩ :: post).length ≤ fuel) :
    extensionLoop fuel
      (encodeExtensions (pre ++ ⟨0, encodeServerNameList (before ++ ⟨0, n⟩ :: after)⟩ :: post)) []
      = .ok n := by
  obtain ⟨f, rfl⟩ : ∃ f, fuel = pre.length + ((post.length + f) + 1) :=
    ⟨fuel - pre.length - post.length - 1, by
      simp only [List.length_append, List.length_cons] at hfuel; omega⟩
  have e1 : encodeExtensions (pre ++ ⟨0, encodeServerNameList (before ++ ⟨0, n⟩ :: after)⟩ :: post)
      = encodeExtensions pre
        ++ ((⟨0, encodeServerNameList (before ++ ⟨0, n⟩ :: after)⟩ : Extension).encode
          ++ (encodeExtensions post ++ [])) := by
    simp [encodeExtensions]
  rw [e1, extensionLoop_others pre _ _ _ hpre]
  have hlen2 : (encodeEntries (before ++ ⟨0, n⟩ :: after)).length < 65536 := by
    simp only [encodeServerNameList, List.length_append, be16_length] at hlist; omega
  have e2 : encodeEntries (before ++ ⟨0, n⟩ :: after)
      = encodeEntries before ++ ((⟨0, n⟩ : ServerNameEntry).encode ++ encodeEntries after) := by
    simp [encodeEntries]
  have hcount : before.length < (encodeEntries (before ++ ⟨0, n⟩ :: after)).length := by
    rw [e2]
    have : ∀ es : List ServerNameEntry, es.length ≤ (encodeEntries es).length := by
      intro es
      induction es with
      | nil => simp
      | cons y ys ih =>
        simp only [encodeEntries, List.map_cons, List.flatten_cons, ServerNameEntry.encode,
          List.length_append, List.length_cons] at ih ⊢
        omega
    have := this before
    simp only [List.length_append, ServerNameEntry.encode, List.length_cons]
    omega
  simp only [Extension.encode, encodeServerNameList]
  simp only [be16, List.cons_append, List.nil_append, List.append_assoc]
  rw [extensionLoop_serverName _ _ _ _ _ _ _ (encodeEntries (before ++ ⟨0, n⟩ :: after)) _ []
    (by rw [← be16, makeNetworkInt_be16 _ (by omega)])
    (by
      have := shift_or_be16 _ hlist
      simp only [encodeServerNameList, be16, List.cons_append, List.nil_append] at this
      exact this)]
  rw [← be16, makeNetworkInt_be16 _ hlen2]
  rw [e2] at hcount ⊢
  rw [List.append_assoc, List.append_assoc,
    nameLoop_finds before _ n _ [] hbefore hn hcount]
  simp only [Except.bind]
  rw [extensionLoop_others post f [] n hpost, extensionLoop_nil]

/-- On a well-formed ClientHello prefix, `ExtractSNI` reaches the extension
walk with exactly the bytes of the extensions block. -/
theorem ExtractSNI_reaches_walk (a b c : Byte) (v version random sid cs cm E : List Byte)
    (hv : version.length = 2) (hr : random.length = 32) (hs : sid.length ≤ 32)
    (hce : cs.length % 2 = 0) (hcl : cs.length < 65536) (hm : cm.length < 256)
    (hE : E.length < 65536) :
    tlsMessage.ExtractSNI
        ⟨[1, a, b, c],
          version ++ (random ++ (toByte sid.length :: (sid ++ (be16 cs.length ++ (cs
            ++ (toByte cm.length :: (cm ++ (be16 E.length ++ E)))))))),
          true, v⟩
      = extensionLoop E.length E [] := by
  have hsv : (toByte sid.length).val = sid.length := toByte_val_of_lt _ (by omega)
  have hmv : (toByte cm.length).val = cm.length := toByte_val_of_lt _ hm
  have i1 := idx_append (version ++ random) (toByte sid.length) (sid ++ (be16 cs.length ++ (cs ++ (toByte cm.length :: (cm ++ (be16 E.length ++ E))))))
    (2 + 32) (by simp [hv, hr])
  have i2 := sliceFrom_append (version ++ random ++ [toByte sid.length] ++ sid) (be16 cs.length ++ (cs ++ (toByte cm.length :: (cm ++ (be16 E.length ++ E)))))
    (sessionSkip sid.length) (by simp [hv, hr, sessionSkip]; omega)
  have i3 := slice_append (be16 cs.length) (cs ++ (toByte cm.length :: (cm ++ (be16 E.length ++ E)))) 2 rfl
  have i4 := sliceFrom_append (be16 cs.length ++ cs) (toByte cm.length :: (cm ++ (be16 E.length ++ E))) (2 + cs.length)
    (by simp [be16_length])
  have i5 := idx_append [] (toByte cm.length) (cm ++ (be16 E.length ++ E)) 0 rfl
  have i6 := sliceFrom_append (toByte cm.length :: cm) (be16 E.length ++ E) (1 + cm.length)
    (by simp; omega)
  have i7 := slice_append (be16 E.length) E 2 rfl
  have i8 := sliceFrom_append (be16 E.length) E 2 rfl
  simp only [List.append_assoc, List.cons_append, List.nil_append] at i1 i2 i4 i5 i6
  have l1 : ¬ ((version ++ (random ++ (toByte sid.length :: (sid ++ (be16 cs.length ++ (cs ++ (toByte cm.length :: (cm ++ (be16 E.length ++ E))))))))).length < 2 + 32 + 1) := by
    simp [hv, hr]; omega
  have l2 : ¬ (sid.length > 32 ∨ (version ++ (random ++ (toByte sid.length :: (sid ++ (be16 cs.length ++ (cs ++ (toByte cm.length :: (cm ++ (be16 E.length ++ E))))))))).length < 2 + 32 + 1 + sid.length) := by
    simp [hv, hr]; omega
  have l3 : ¬ ((be16 cs.length ++ (cs ++ (toByte cm.length :: (cm ++ (be16 E.length ++ E))))).length < 2) := by
    simp [be16_length]
  have l4 : ¬ (cs.length % 2 = 1 ∨ (be16 cs.length ++ (cs ++ (toByte cm.length :: (cm ++ (be16 E.length ++ E))))).length < 2 + cs.length) := by
    simp [be16_length]; omega
  have l5 : ¬ ((toByte cm.length :: (cm ++ (be16 E.length ++ E))).length < 1) := by simp
  have l6 : ¬ ((toByte cm.length :: (cm ++ (be16 E.length ++ E))).length < 1 + cm.length) := by
    simp; omega
  have l7 : ¬ ((be16 E.length ++ E).length = 0) := by simp [be16_length]
  have l8 : ¬ ((be16 E.length ++ E).length < 2) := by simp [be16_length]
  simp only [tlsMessage.ExtractSNI, bind, Except.bind, i1, hsv, l1, l2, i2, l3, i3,
    makeNetworkInt_be16 _ hcl, l4, i4, l5, i5, hmv, l6, i6, l7, l8, i7, i8,
    makeNetworkInt_be16 _ hE, if_false]
  simp [tlsTypeMessageClientHello]

theorem name_length_le_encodeEntries (es : List ServerNameEntry) (e : ServerNameEntry)
    (he : e ∈ es) : e.name.length + 3 ≤ (encodeEntries es).length := by
  induction es with
  | nil => cases he
  | cons y ys ih =>
    simp only [encodeEntries, List.map_cons, List.flatten_cons, ServerNameEntry.encode,
      List.length_append, List.length_cons, be16_length] at ih ⊢
    rcases List.mem_cons.mp he with rfl | h
    · omega
    · have := ih h
      omega

/-- C1: for a ClientHello whose body is well formed and whose extensions block
holds exactly one server_name extension (type 0), in whose list the first entry
of name type 0 carries the name `n`, `ExtractSNI` returns `(n, nil)`; the offset
`2+31+1+session_id_len+1` it skips is `2+32+1+session_id_len`, and the two
bytes found there are the cipher_suites length. -/
theorem C1_extract_sni (h : ClientHello) (l2 l1 l0 : Byte) (v : List Byte)
    (pre post : List Extension) (before after : List ServerNameEntry) (n : List Byte)
    (hwf : h.WellFormed)
    (hexts : h.extensions
      = pre ++ ⟨0, encodeServerNameList (before ++ ⟨0, n⟩ :: after)⟩ :: post)
    (hone : ∀ x ∈ pre ++ post, x.type ≠ 0)
    (hfirst : ∀ e ∈ before, e.nameType ≠ 0) :
    tlsMessage.ExtractSNI ⟨[tlsTypeMessageClientHello, l2, l1, l0], h.encode, true, v⟩ = .ok n
    ∧ sessionSkip h.sessionID.length = 2 + 32 + 1 + h.sessionID.length
    ∧ (h.encode.drop (sessionSkip h.sessionID.length)).take 2 = be16 h.cipherSuites.length := by
  obtain ⟨hv, hr, hs, hce, hcl, hm, hE, hx⟩ := hwf
  have hsni := hx ⟨0, encodeServerNameList (before ++ ⟨0, n⟩ :: after)⟩
    (by rw [hexts]; simp)
  have hlist : (encodeServerNameList (before ++ ⟨0, n⟩ :: after)).length < 65536 := hsni.2
  have hent : (encodeEntries (before ++ ⟨0, n⟩ :: after)).length < 65536 := by
    simp only [encodeServerNameList, List.length_append, be16_length] at hlist; omega
  refine ⟨?_, ?_, ?_⟩
  · simp only [ClientHello.encode, tlsTypeMessageClientHello]
    rw [ExtractSNI_reaches_walk l2 l1 l0 v _ _ _ _ _ _ hv hr hs hce hcl hm hE, hexts]
    refine extensionLoop_sni pre post before after n _ ?_ ?_ ?_ ?_ hlist ?_
    · intro x hxm
      have := hx x (by rw [hexts]; simp [hxm])
      exact ⟨hone x (by simp [hxm]), this.1, this.2⟩
    · intro x hxm
      have := hx x (by rw [hexts]; simp [hxm])
      exact ⟨hone x (by simp [hxm]), this.1, this.2⟩
    · intro e he
      have := name_length_le_encodeEntries (before ++ ⟨0, n⟩ :: after) e (by simp [he])
      exact ⟨hfirst e he, by omega⟩
    · have := name_length_le_encodeEntries (before ++ ⟨0, n⟩ :: after) ⟨0, n⟩ (by simp)
      simp only at this
      omega
    · exact length_le_encodeExtensions _
  · simp only [sessionSkip]; omega
  · have e := @List.drop_left' _
      (h.version ++ h.random ++ [toByte h.sessionID.length] ++ h.sessionID)
      (be16 h.cipherSuites.length ++ (h.cipherSuites
        ++ (toByte h.compressionMethods.length :: (h.compressionMethods
        ++ (be16 (encodeExtensions h.extensions).length ++ encodeExtensions h.extensions)))))
      (sessionSkip h.sessionID.length) (by simp [hv, hr, sessionSkip]; omega)
    simp only [List.append_assoc, List.cons_append, List.nil_append] at e
    simp only [ClientHello.encode]
    rw [e]
    rfl

theorem C1_extract_sni_witness :
    tlsMessage.ExtractSNI ⟨[tlsTypeMessageClientHello, 0, 0, 92], exampleHello.encode, true, [3, 1]⟩
      = .ok [97, 46, 98]
    ∧ sessionSkip exampleHello.sessionID.length = 2 + 32 + 1 + exampleHello.sessionID.length
    ∧ (exampleHello.encode.drop (sessionSkip exampleHello.sessionID.length)).take 2
      = be16 exampleHello.cipherSuites.length :=
  C1_extract_sni exampleHello 0 0 92 [3, 1] [⟨10, [1, 2]⟩] [⟨11, []⟩] [⟨1, [9]⟩] [⟨0, [99]⟩]
    [97, 46, 98]
    (by
      refine ⟨rfl, rfl, by decide, rfl, by decide, by decide, by decide, ?_⟩
      intro x hx
      simp only [exampleHello, List.mem_cons, List.mem_singleton, List.not_mem_nil, or_false] at hx
      rcases hx with rfl | rfl | rfl <;> exact ⟨by decide, by decide⟩)
    rfl (by decide) (by decide)

/-! ## Rule set: lemmas -/

theorem BoolMap.get_put (m : BoolMap) (k k' : Str) (v : Bool) :
    BoolMap.get (BoolMap.put m k v) k' = if k' = k then some v else BoolMap.get m k' := by
  unfold BoolMap.get BoolMap.put
  by_cases h : k' = k
  · subst h; simp
  · rw [if_neg h, List.lookup_cons]
    have : (k' == k) = false := by simpa using h
    rw [this]
    simp only
    induction m with
    | nil => simp
    | cons p ps ih =>
      by_cases hp : p.1 = k
      · have hk : (k' == p.1) = false := by rw [hp]; exact this
        rw [List.filter_cons_of_neg (by simpa using hp), ih]
        obtain ⟨a, b⟩ := p
        simp only [List.lookup_cons] at hk ⊢
        rw [hk]
      · rw [List.filter_cons_of_pos (by simpa using hp)]
        obtain ⟨a, b⟩ := p
        simp only [List.lookup_cons, ih]

/-- The table that `PutJson` builds maps exactly the lower-cased keys, each to `true`. -/
theorem putJson_table_get (test : List (Str × Str)) (k : Str) :
    ∀ m0 : BoolMap,
      BoolMap.get (test.foldl (fun rules kv => BoolMap.put rules (ToLower kv.1) true) m0) k
        = if k ∈ test.map (fun kv => ToLower kv.1) then some true else BoolMap.get m0 k := by
  induction test with
  | nil => intro m0; simp
  | cons kv rest ih =>
    intro m0
    simp only [List.foldl_cons, List.map_cons, List.mem_cons]
    rw [ih, BoolMap.get_put]
    by_cases h1 : k ∈ rest.map (fun kv => ToLower kv.1)
    · simp [h1]
    · by_cases h2 : k = ToLower kv.1
      · simp [h2]
      · simp [h1, h2]

/-- What the suffix loop returns: the value at the first `.` whose suffix the
table holds, among the positions `i, …, i + remaining - 1`. -/
theorem suffixScan_eq_none (rules : BoolMap) (host : Str) (remaining : Nat) :
    ∀ i, suffixScan rules host remaining i = none ↔
      ∀ j, i ≤ j → j < i + remaining → host[j]? = some 0x2E →
        rules.get (host.drop (j + 1)) = none := by
  induction remaining with
  | zero => intro i; simp [suffixScan]; intro j h1 h2; omega
  | succ r ih =>
    intro i
    simp only [suffixScan]
    constructor
    · intro h j h1 h2 hj
      by_cases hij : j = i
      · subst hij
        rw [if_pos hj] at h
        cases hg : rules.get (host.drop (j + 1)) with
        | none => rfl
        | some v => rw [hg] at h; cases h
      · have hrest : suffixScan rules host r (i + 1) = none := by
          split_ifs at h with hd
          · cases hg : rules.get (host.drop (i + 1)) with
            | none => rw [hg] at h; exact h
            | some v => rw [hg] at h; cases h
          · exact h
        exact (ih (i + 1)).mp hrest j (by omega) (by omega) hj
    · intro h
      have hrest : suffixScan rules host r (i + 1) = none :=
        (ih (i + 1)).mpr (fun j h1 h2 hj => h j (by omega) (by omega) hj)
      split_ifs with hd
      · rw [h i (Nat.le_refl i) (by omega) hd]
        exact hrest
      · exact hrest

theorem suffixScan_eq_some (rules : BoolMap) (host : Str) (remaining : Nat) (v : Bool) :
    ∀ i, suffixScan rules host remaining i = some v →
      ∃ j, i ≤ j ∧ j < i + remaining ∧ host[j]? = some 0x2E
        ∧ rules.get (host.drop (j + 1)) = some v := by
  induction remaining with
  | zero => intro i h; simp [suffixScan] at h
  | succ r ih =>
    intro i h
    simp only [suffixScan] at h
    split_ifs at h with hd
    · cases hg : rules.get (host.drop (i + 1)) with
      | none =>
        rw [hg] at h
        obtain ⟨j, h1, h2, h3, h4⟩ := ih (i + 1) h
        exact ⟨j, by omega, by omega, h3, h4⟩
      | some w =>
        rw [hg] at h
        simp only [Option.some.injEq] at h
        subst h
        exact ⟨i, Nat.le_refl i, by omega, hd, hg⟩
    · obtain ⟨j, h1, h2, h3, h4⟩ := ih (i + 1) h
      exact ⟨j, by omega, by omega, h3, h4⟩

/-- A normalized host does not end in `.`. -/
theorem normalizeHost_not_dot_suffix (x p : Str) : normalizeHost x ≠ p ++ [0x2E] := by
  intro h
  have hne : (List.rdropWhile (fun b => decide (b = (0x2E : Byte)))
      (List.dropWhile (fun b => decide (b = (0x2E : Byte))) (ToLower x))) ≠ [] := by
    have : normalizeHost x ≠ [] := by rw [h]; simp
    exact this
  have := List.rdropWhile_last_not (fun b => decide (b = (0x2E : Byte))) _ hne
  apply this
  have h' : List.rdropWhile (fun b => decide (b = (0x2E : Byte)))
      (List.dropWhile (fun b => decide (b = (0x2E : Byte))) (ToLower x)) = p ++ [0x2E] := h
  simp [h']

theorem IsHostAllowedByRule_eq (f : ForwardRules) (x : Str) :
    f.IsHostAllowedByRule x =
      match f.cache.get (normalizeHost x) with
      | some r => (.ok r, f)
      | none =>
        match f.rulesAt f.index with
        | none => (.error .panic, f)
        | some rules =>
          match tableMatch rules (normalizeHost x) with
          | some r => (.ok r, { f with cache := f.cache.put (normalizeHost x) r })
          | none => (.ok false, f) := by
  simp only [ForwardRules.IsHostAllowedByRule, tableMatch]
  generalize f.cache.get (normalizeHost x) = c
  cases c with
  | some r => rfl
  | none =>
    generalize f.rulesAt f.index = a
    cases a with
    | none => rfl
    | some rules =>
      simp only
      generalize rules.get (normalizeHost x) = g
      cases g with
      | some r => rfl
      | none => rfl

theorem setRules_cache (f : ForwardRules) (T : Option BoolMap) : (f.setRules T).cache = [] := rfl

theorem setRules_active (f : ForwardRules) (T : Option BoolMap) :
    (f.setRules T).rulesAt (f.setRules T).index = T := by
  obtain ⟨⟨r0, r1⟩, i, c, p⟩ := f
  have hi : i = 0 ∨ i = 1 := by omega
  rcases hi with rfl | rfl <;> rfl

/-- When every value of the table is `true`: the table part of the lookup finds
something exactly when the host, or what follows one of its dots, is a key. -/
theorem tableMatch_iff (rules : BoolMap) (keys : List Str) (n : Str)
    (hget : ∀ k, rules.get k = if k ∈ keys then some true else none)
    (hdot : ∀ p, n ≠ p ++ [0x2E]) :
    (tableMatch rules n = some true ↔ ∃ k ∈ keys, n = k ∨ ∃ p, n = p ++ 0x2E :: k)
    ∧ (tableMatch rules n = some true ∨ tableMatch rules n = none) := by
  have hval : ∀ k v, rules.get k = some v → v = true ∧ k ∈ keys := by
    intro k v h
    rw [hget] at h
    split_ifs at h with hk
    simp only [Option.some.injEq] at h
    exact ⟨h.symm, hk⟩
  constructor
  · constructor
    · intro h
      simp only [tableMatch] at h
      cases hg : rules.get n with
      | some r =>
        exact ⟨n, (hval n r hg).2, Or.inl rfl⟩
      | none =>
        rw [hg] at h
        obtain ⟨j, -, h2, h3, h4⟩ := suffixScan_eq_some rules n _ true 0 h
        refine ⟨n.drop (j + 1), (hval _ _ h4).2, Or.inr ⟨n.take j, ?_⟩⟩
        have hj : j < n.length := by
          by_contra hc
          rw [List.getElem?_eq_none (by omega)] at h3
          cases h3
        rw [List.getElem?_eq_getElem hj] at h3
        simp only [Option.some.injEq] at h3
        rw [← h3, List.getElem_cons_drop n j hj, List.take_append_drop]
    · rintro ⟨k, hk, rfl | ⟨p, rfl⟩⟩
      · simp only [tableMatch, hget, if_pos hk]
      · simp only [tableMatch]
        cases hg : rules.get (p ++ 0x2E :: k) with
        | some r => rw [(hval _ _ hg).1]
        | none =>
          simp only
          cases hs : suffixScan rules (p ++ 0x2E :: k) ((p ++ 0x2E :: k).length - 1) 0 with
          | some v =>
            obtain ⟨j, -, -, -, h4⟩ := suffixScan_eq_some rules _ _ v 0 hs
            rw [(hval _ _ h4).1]
          | none =>
            exfalso
            have hk0 : k ≠ [] := by
              rintro rfl
              exact hdot p rfl
            have hkl : 0 < k.length := List.length_pos.mpr hk0
            have := (suffixScan_eq_none rules _ _ 0).mp hs p.length (Nat.zero_le _)
              (by simp only [List.length_append, List.length_cons]; omega)
              (by rw [List.getElem?_append_right (Nat.le_refl _)]; simp)
            rw [List.drop_append_eq_append_drop] at this
            simp only [Nat.add_sub_cancel_left, List.drop_succ_cons, List.drop_zero,
              List.drop_of_length_le (Nat.le_succ p.length), List.nil_append] at this
            rw [hget, if_pos hk] at this
            cases this
  · simp only [tableMatch]
    cases hg : rules.get n with
    | some r => left; rw [(hval _ _ hg).1]
    | none =>
      simp only
      cases hs : suffixScan rules n (n.length - 1) 0 with
      | some v =>
        obtain ⟨j, -, -, -, h4⟩ := suffixScan_eq_some rules _ _ v 0 hs
        left; rw [(hval _ _ h4).1]
      | none => right; rfl

/-- A lookup on a rule set whose cache agrees with the active table `t` answers
as the table does, and leaves such a rule set. -/
theorem IsHostAllowedByRule_coherent (f : ForwardRules) (t : BoolMap) (x : Str)
    (hact : f.rulesAt f.index = some t)
    (hcoh : ∀ k v, f.cache.get k = some v → tableMatch t k = some v) :
    (f.IsHostAllowedByRule x).1 = freshLookup (some t) x
    ∧ (f.IsHostAllowedByRule x).2.rulesAt (f.IsHostAllowedByRule x).2.index = some t
    ∧ ∀ k v, (f.IsHostAllowedByRule x).2.cache.get k = some v → tableMatch t k = some v := by
  rw [IsHostAllowedByRule_eq]
  simp only [freshLookup, hact]
  cases hc : f.cache.get (normalizeHost x) with
  | some r =>
    simp only
    rw [hcoh _ _ hc]
    exact ⟨rfl, hact, hcoh⟩
  | none =>
    simp only
    cases hm : tableMatch t (normalizeHost x) with
    | none => exact ⟨rfl, hact, hcoh⟩
    | some r =>
      refine ⟨rfl, hact, ?_⟩
      intro k v hk
      simp only [BoolMap.get_put] at hk
      split_ifs at hk with hkn
      · simp only [Option.some.injEq] at hk
        rw [hkn, hm, hk]
      · exact hcoh k v hk

theorem lookups_coherent (xs : List Str) :
    ∀ (f : ForwardRules) (t : BoolMap), f.rulesAt f.index = some t →
      (∀ k v, f.cache.get k = some v → tableMatch t k = some v) →
      (lookups f xs).rulesAt (lookups f xs).index = some t
      ∧ ∀ k v, (lookups f xs).cache.get k = some v → tableMatch t k = some v := by
  induction xs with
  | nil => intro f t h1 h2; exact ⟨h1, h2⟩
  | cons x xs ih =>
    intro f t h1 h2
    obtain ⟨-, h3, h4⟩ := IsHostAllowedByRule_coherent f t x h1 h2
    exact ih _ t h3 h4

theorem lookups_nil_table (xs : List Str) :
    ∀ f : ForwardRules, f.rulesAt f.index = none → f.cache = [] → lookups f xs = f := by
  induction xs with
  | nil => intro f _ _; rfl
  | cons x xs ih =>
    intro f h1 h2
    have : (f.IsHostAllowedByRule x).2 = f := by
      rw [IsHostAllowedByRule_eq, h1, h2]
      rfl
    simp only [lookups, List.foldl_cons, this]
    exact ih f h1 h2

/-- What the code compares: after `PutJson` installed an allow-list, and after
any lookups `xs` made since, `IsHostAllowedByRule(x)` returns true exactly when
the normalized query `n = Trim(ToLower(x), ".")` equals `ToLower(h)` for some
key `h` of the list or ends in `"." + ToLower(h)`. The keys are lower-cased but
not trimmed. -/
theorem lookup_after_PutJson (f : ForwardRules) (test : List (Str × Str))
    (xs : List Str) (x : Str) :
    ((∃ kv ∈ test, normalizeHost x = ToLower kv.1
          ∨ ∃ p, normalizeHost x = p ++ 0x2E :: ToLower kv.1) →
        ((lookups (f.PutJson (.ok test)).2 xs).IsHostAllowedByRule x).1 = .ok true)
    ∧ (¬ (∃ kv ∈ test, normalizeHost x = ToLower kv.1
          ∨ ∃ p, normalizeHost x = p ++ 0x2E :: ToLower kv.1) →
        ((lookups (f.PutJson (.ok test)).2 xs).IsHostAllowedByRule x).1 = .ok false) := by
  have hget : ∀ k, BoolMap.get
      (test.foldl (fun rules kv => BoolMap.put rules (ToLower kv.1) true) []) k
        = if k ∈ test.map (fun kv => ToLower kv.1) then some true else none := by
    intro k
    rw [putJson_table_get test k []]
    rfl
  obtain ⟨hiff, hor⟩ := tableMatch_iff _ (test.map (fun kv => ToLower kv.1)) (normalizeHost x)
    hget (normalizeHost_not_dot_suffix x)
  have hres : ((lookups (f.PutJson (.ok test)).2 xs).IsHostAllowedByRule x).1
      = .ok ((tableMatch (test.foldl (fun rules kv => BoolMap.put rules (ToLower kv.1) true) [])
          (normalizeHost x)).getD false) := by
    simp only [ForwardRules.PutJson]
    obtain ⟨h1, h2⟩ := lookups_coherent xs (f.setRules (some
      (test.foldl (fun rules kv => BoolMap.put rules (ToLower kv.1) true) []))) _
      (setRules_active f _) (by intro k v h; rw [setRules_cache] at h; cases h)
    exact (IsHostAllowedByRule_coherent _ _ x h1 h2).1
  have hex : (∃ kv ∈ test, normalizeHost x = ToLower kv.1
        ∨ ∃ p, normalizeHost x = p ++ 0x2E :: ToLower kv.1)
      ↔ ∃ k ∈ test.map (fun kv => ToLower kv.1), normalizeHost x = k
        ∨ ∃ p, normalizeHost x = p ++ 0x2E :: k := by
    constructor
    · rintro ⟨kv, hkv, h⟩
      exact ⟨ToLower kv.1, List.mem_map.mpr ⟨kv, hkv, rfl⟩, h⟩
    · rintro ⟨k, hk, h⟩
      obtain ⟨kv, hkv, rfl⟩ := List.mem_map.mp hk
      exact ⟨kv, hkv, h⟩
  rw [hres, hex, ← hiff]
  constructor
  · intro h; rw [h]; rfl
  · intro h
    rcases hor with h1 | h1
    · exact absurd h1 h
    · rw [h1]; rfl

theorem lookup_after_PutJson_example :
    (∃ kv ∈ [(ascii "example.com", ascii "")],
        normalizeHost (ascii "a.Example.com.") = ToLower kv.1
          ∨ ∃ p, normalizeHost (ascii "a.Example.com.") = p ++ 0x2E :: ToLower kv.1)
    ∧ ((lookups ((⟨(none, none), 0, [], false⟩ : ForwardRules).PutJson
          (.ok [(ascii "example.com", ascii "")])).2 [ascii "b.com"]).IsHostAllowedByRule
        (ascii "a.Example.com.")).1 = .ok true :=
  have h : ∃ kv ∈ [(ascii "example.com", ascii "")],
      normalizeHost (ascii "a.Example.com.") = ToLower kv.1
        ∨ ∃ p, normalizeHost (ascii "a.Example.com.") = p ++ 0x2E :: ToLower kv.1 :=
    ⟨(ascii "example.com", ascii ""), List.mem_singleton.mpr rfl,
      Or.inr ⟨ascii "a", by rfl⟩⟩
  ⟨h, (lookup_after_PutJson ⟨(none, none), 0, [], false⟩ [(ascii "example.com", ascii "")]
    [ascii "b.com"] (ascii "a.Example.com.")).1 h⟩

/-- Matching is case-insensitive: with the allow-list `{"example.com"}` the
query `"EXAMPLE.COM"` is allowed. -/
theorem lookup_upper_case_example :
    (((⟨(none, none), 0, [], false⟩ : ForwardRules).PutJson
        (.ok [(ascii "example.com", ascii "")])).2.IsHostAllowedByRule (ascii "EXAMPLE.COM")).1
      = .ok true := by
  rfl

/-- C2: the claim fails on the code at the allow-list `{"example.com.": ""}`.
For `x = "example.com."`, which is the key `h` itself, and for
`x = "www.example.com."`, which ends in `"." + h`, the claim has true and
`IsHostAllowedByRule(x)` returns false: the lookup trims the dots of the query
(`example.com`, `www.example.com`), `PutJson` stored the key with its dot. -/
theorem C2_dotted_key_not_matched :
    ((⟨(none, none), 0, [], false⟩ : ForwardRules).PutJson
        (.ok [(ascii "example.com.", ascii "")])).1 = none
    ∧ (((⟨(none, none), 0, [], false⟩ : ForwardRules).PutJson
        (.ok [(ascii "example.com.", ascii "")])).2.IsHostAllowedByRule
          (ascii "example.com.")).1 = .ok false
    ∧ ascii ".example.com." <:+ ascii "www.example.com."
    ∧ (((⟨(none, none), 0, [], false⟩ : ForwardRules).PutJson
        (.ok [(ascii "example.com.", ascii "")])).2.IsHostAllowedByRule
          (ascii "www.example.com.")).1 = .ok false := by
  refine ⟨by rfl, by rfl, by decide, by rfl⟩

/-- C5: in the sequential model, after `setRules` installed the table `T` the
cache is empty, and every later lookup of any `x`, after any sequence `xs` of
lookups in between, returns what matching `x` against `T` with nothing cached
returns. -/
theorem C5_cache_coherent_after_update (f : ForwardRules) (T : Option BoolMap)
    (xs : List Str) (x : Str) :
    (f.setRules T).cache = []
    ∧ ((lookups (f.setRules T) xs).IsHostAllowedByRule x).1 = freshLookup T x
    ∧ freshLookup T x
      = (({ rules := (T, none), index := 0, cache := [], passThrough := f.passThrough }
          : ForwardRules).IsHostAllowedByRule x).1 := by
  refine ⟨rfl, ?_, ?_⟩
  · cases T with
    | none =>
      rw [lookups_nil_table xs _ (setRules_active f none) rfl, IsHostAllowedByRule_eq,
        setRules_active, setRules_cache]
      rfl
    | some t =>
      obtain ⟨h1, h2⟩ := lookups_coherent xs (f.setRules (some t)) t (setRules_active f _)
        (by intro k v h; rw [setRules_cache] at h; cases h)
      exact (IsHostAllowedByRule_coherent _ t x h1 h2).1
  · rw [IsHostAllowedByRule_eq]
    cases T with
    | none => rfl
    | some t =>
      simp only [freshLookup, BoolMap.get, List.lookup_nil, ForwardRules.rulesAt, if_true]
      cases tableMatch t (normalizeHost x) <;> rfl

/-! ## Normalization: lemmas on the string functions -/

set_option maxRecDepth 100000 in
theorem utf8First_sound (b : Byte) : (utf8First b).Sound := by
  revert b; decide

theorem decodeLead_width (sz lo hi : Nat) (s0 : Byte) (t : List Byte)
    (hsz : sz = 2 ∨ sz = 3 ∨ sz = 4) :
    1 ≤ (decodeLead sz lo hi s0 t).2 ∧ (decodeLead sz lo hi s0 t).2 ≤ t.length + 1 := by
  rcases hsz with rfl | rfl | rfl <;>
    rcases t with _ | ⟨s1, _ | ⟨s2, _ | ⟨s3, t3⟩⟩⟩ <;>
    simp only [decodeLead, List.length_cons, List.length_nil] <;>
    split_ifs <;> simp

theorem decodeRune_cons (s0 : Byte) (t : List Byte) :
    decodeRune (s0 :: t) =
      match utf8First s0 with
      | .ascii => (s0.val, 1)
      | .invalid => (RuneError, 1)
      | .lead sz lo hi => decodeLead sz lo hi s0 t := rfl

theorem decodeRune_width (s : List Byte) (hs : s ≠ []) :
    1 ≤ (decodeRune s).2 ∧ (decodeRune s).2 ≤ s.length := by
  match s, hs with
  | s0 :: t, _ =>
    have hsound := utf8First_sound s0
    rw [decodeRune_cons]
    split
    · simp
    · simp
    · rename_i sz lo hi heq
      rw [heq] at hsound
      exact decodeLead_width sz lo hi s0 t hsound.1

theorem ite_congr_neg {α : Type} (c1 c2 : Prop) [Decidable c1] [Decidable c2] (x y : α)
    (h1 : ¬ c1) (h2 : ¬ c2) : (if c1 then x else y) = (if c2 then x else y) := by
  rw [if_neg h1, if_neg h2]

theorem decodeLead_append_dot (sz lo hi : Nat) (s0 : Byte) (t : List Byte)
    (hsz : sz = 2 ∨ sz = 3 ∨ sz = 4) (hlo : 0x80 ≤ lo) :
    decodeLead sz lo hi s0 (t ++ [0x2E]) = decodeLead sz lo hi s0 t := by
  have hdot : ((0x2E : Byte)).val = 46 := rfl
  have h46 : 46 < lo := by omega
  rcases t with _ | ⟨s1, _ | ⟨s2, _ | ⟨s3, t3⟩⟩⟩
  · rcases hsz with rfl | rfl | rfl <;> simp [decodeLead, hdot, h46]
  · rcases hsz with rfl | rfl | rfl <;> simp [decodeLead, hdot, h46]
  · rcases hsz with rfl | rfl | rfl <;> simp [decodeLead, hdot, h46]
  · rcases hsz with rfl | rfl | rfl <;>
      (simp only [decodeLead, List.cons_append, List.length_cons, List.length_append,
        List.length_nil]
       exact ite_congr_neg _ _ _ _ (by omega) (by omega))

theorem decodeRune_append_dot (s : List Byte) (hs : s ≠ []) :
    decodeRune (s ++ [0x2E]) = decodeRune s := by
  match s, hs with
  | s0 :: t, _ =>
    have hsound := utf8First_sound s0
    rw [List.cons_append, decodeRune_cons, decodeRune_cons]
    split
    · rfl
    · rfl
    · rename_i sz lo hi heq
      rw [heq] at hsound
      exact decodeLead_append_dot sz lo hi s0 t hsound.1 hsound.2

theorem mapRunes_nil (mapping : Nat → Nat) (fuel : Nat) : mapRunes mapping fuel [] = [] := by
  cases fuel <;> simp [mapRunes]

/-- More fuel than bytes changes nothing. -/
theorem mapRunes_fuel (mapping : Nat → Nat) (fuel : Nat) :
    ∀ (s : List Byte) (extra : Nat), s.length ≤ fuel →
      mapRunes mapping (fuel + extra) s = mapRunes mapping fuel s := by
  induction fuel with
  | zero =>
    intro s extra h
    have : s = [] := List.length_eq_zero.mp (by omega)
    subst this
    rw [mapRunes_nil, mapRunes_nil]
  | succ n ih =>
    intro s extra h
    by_cases hs : s = []
    · subst hs; rw [mapRunes_nil, mapRunes_nil]
    · have hw := decodeRune_width s hs
      have e : n + 1 + extra = (n + extra) + 1 := by omega
      rw [e]
      simp only [mapRunes, if_neg hs]
      rw [ih _ extra (by rw [List.length_drop]; omega)]

theorem stringsMap_cons_dot (mapping : Nat → Nat) (s : Str) :
    stringsMap mapping (0x2E :: s) = encodeRune (mapping 0x2E) ++ stringsMap mapping s := by
  simp only [stringsMap, List.length_cons, mapRunes]
  rfl

theorem decodeRune_dot (t : List Byte) : decodeRune (0x2E :: t) = (46, 1) := rfl

theorem dot_val : ((0x2E : Byte)).val = 46 := rfl

theorem mapRunes_append_dot (mapping : Nat → Nat) (fuel : Nat) :
    ∀ s : List Byte, s.length ≤ fuel →
      mapRunes mapping (fuel + 1) (s ++ [0x2E])
        = mapRunes mapping fuel s ++ encodeRune (mapping 0x2E) := by
  induction fuel with
  | zero =>
    intro s h
    have : s = [] := List.length_eq_zero.mp (by omega)
    subst this
    simp [mapRunes, decodeRune_dot]
  | succ n ih =>
    intro s h
    by_cases hs : s = []
    · subst hs
      simp [mapRunes, decodeRune_dot, mapRunes_nil]
    · have hw := decodeRune_width s hs
      have hne : s ++ [0x2E] ≠ [] := by simp
      rw [mapRunes, if_neg hne, decodeRune_append_dot s hs,
        List.drop_append_of_le_length hw.2, ih _ (by rw [List.length_drop]; omega)]
      conv_rhs => rw [mapRunes, if_neg hs]
      rw [List.append_assoc]

theorem stringsMap_append_dot (mapping : Nat → Nat) (s : Str) :
    stringsMap mapping (s ++ [0x2E]) = stringsMap mapping s ++ encodeRune (mapping 0x2E) := by
  simp only [stringsMap, List.length_append, List.length_cons, List.length_nil]
  exact mapRunes_append_dot mapping s.length s (Nat.le_refl _)

theorem ToLower_cons_dot (s : Str) : ToLower (0x2E :: s) = 0x2E :: ToLower s := by
  unfold ToLower
  have hi : isASCII (0x2E :: s) = isASCII s := by simp [isASCII, dot_val]
  rw [hi]
  split_ifs
  · rfl
  · rw [stringsMap_cons_dot]; rfl

theorem ToLower_append_dot (s : Str) : ToLower (s ++ [0x2E]) = ToLower s ++ [0x2E] := by
  unfold ToLower
  have hi : isASCII (s ++ [0x2E]) = isASCII s := by simp [isASCII, dot_val]
  rw [hi]
  split_ifs
  · simp [asciiLower, dot_val]
  · rw [stringsMap_append_dot]; rfl

theorem Trim_cons (s : Str) (c : Byte) : Trim (c :: s) c = Trim s c := by
  simp [Trim]

theorem Trim_append (s : Str) (c : Byte) : Trim (s ++ [c]) c = Trim s c := by
  unfold Trim
  induction s with
  | nil => simp [List.rdropWhile]
  | cons a t ih =>
    by_cases ha : a = c
    · subst ha
      simpa using ih
    · simp only [List.cons_append, List.dropWhile_cons, ha, decide_False, Bool.false_eq_true,
        if_false]
      rw [← List.cons_append, List.rdropWhile_concat_pos _ _ _ (by simp)]

theorem normalizeHost_cons_dot (h : Str) : normalizeHost (0x2E :: h) = normalizeHost h := by
  rw [normalizeHost, ToLower_cons_dot, Trim_cons, normalizeHost]

theorem normalizeHost_append_dot (h : Str) : normalizeHost (h ++ [0x2E]) = normalizeHost h := by
  rw [normalizeHost, ToLower_append_dot, Trim_append, normalizeHost]

set_option maxRecDepth 100000 in
theorem asciiLower_asciiUpper (c : Byte) : asciiLower (asciiUpper c) = asciiLower c := by
  revert c; decide

set_option maxRecDepth 100000 in
theorem asciiUpper_lt (c : Byte) : c.val < 0x80 → (asciiUpper c).val < 0x80 := by
  revert c; decide

theorem ToLower_ToUpper_ascii (h : Str) (ha : isASCII h = true) :
    ToLower (ToUpper h) = ToLower h := by
  have hu : isASCII (h.map asciiUpper) = true := by
    simp only [isASCII, List.all_eq_true, decide_eq_true_eq, List.mem_map] at ha ⊢
    rintro x ⟨y, hy, rfl⟩
    exact asciiUpper_lt y (ha y hy)
  simp only [ToLower, ToUpper, ha, hu, if_true, List.map_map]
  apply List.map_congr_left
  intro c _
  exact asciiLower_asciiUpper c

theorem IsHostAllowedByRule_congr (f : ForwardRules) (x y : Str)
    (h : normalizeHost y = normalizeHost x) :
    f.IsHostAllowedByRule y = f.IsHostAllowedByRule x := by
  rw [IsHostAllowedByRule_eq, IsHostAllowedByRule_eq, h]

/-- A second lookup of the same normalized host, right after the first,
returns what the first returned. -/
theorem IsHostAllowedByRule_again (f : ForwardRules) (x y : Str)
    (h : normalizeHost y = normalizeHost x) :
    ((f.IsHostAllowedByRule x).2.IsHostAllowedByRule y).1 = (f.IsHostAllowedByRule x).1 := by
  rw [IsHostAllowedByRule_congr _ x y h]
  rw [IsHostAllowedByRule_eq f x]
  cases hc : f.cache.get (normalizeHost x) with
  | some r =>
    simp only
    rw [IsHostAllowedByRule_eq, hc]
  | none =>
    simp only
    cases ha : f.rulesAt f.index with
    | none =>
      simp only
      rw [IsHostAllowedByRule_eq, hc, ha]
    | some t =>
      simp only
      cases hm : tableMatch t (normalizeHost x) with
      | none =>
        simp only
        rw [IsHostAllowedByRule_eq, hc, ha]
        simp only [hm]
      | some r =>
        simp only
        rw [IsHostAllowedByRule_eq]
        simp only [BoolMap.get_put, if_true]

/-- C6 (amended): on every rule-set state and for every string `h`, the lookups
of `h`, of `h + "."` and of `"." + h` return the same result, whether made on
the same state or one after the other; and when `h` is ASCII, so does the
lookup of `ToUpper(h)`. -/
theorem C6_normalization (f : ForwardRules) (h : Str) :
    (f.IsHostAllowedByRule (h ++ [0x2E])).1 = (f.IsHostAllowedByRule h).1
    ∧ (f.IsHostAllowedByRule (0x2E :: h)).1 = (f.IsHostAllowedByRule h).1
    ∧ ((f.IsHostAllowedByRule h).2.IsHostAllowedByRule (h ++ [0x2E])).1
        = (f.IsHostAllowedByRule h).1
    ∧ (((f.IsHostAllowedByRule h).2.IsHostAllowedByRule (h ++ [0x2E])).2.IsHostAllowedByRule
          (0x2E :: h)).1 = (f.IsHostAllowedByRule h).1
    ∧ (isASCII h = true →
        (f.IsHostAllowedByRule (ToUpper h)).1 = (f.IsHostAllowedByRule h).1
        ∧ ((f.IsHostAllowedByRule h).2.IsHostAllowedByRule (ToUpper h)).1
            = (f.IsHostAllowedByRule h).1) := by
  have e1 := normalizeHost_append_dot h
  have e2 := normalizeHost_cons_dot h
  refine ⟨?_, ?_, ?_, ?_, ?_⟩
  · rw [IsHostAllowedByRule_congr f h _ e1]
  · rw [IsHostAllowedByRule_congr f h _ e2]
  · exact IsHostAllowedByRule_again f h _ e1
  · rw [IsHostAllowedByRule_again _ (h ++ [0x2E]) (0x2E :: h) (by rw [e1, e2])]
    exact IsHostAllowedByRule_again f h _ e1
  · intro ha
    have e3 : normalizeHost (ToUpper h) = normalizeHost h := by
      rw [normalizeHost, ToLower_ToUpper_ascii h ha, normalizeHost]
    exact ⟨by rw [IsHostAllowedByRule_congr f h _ e3], IsHostAllowedByRule_again f h _ e3⟩

theorem C6_normalization_witness :
    isASCII (ascii "a.Example.com") = true
    ∧ (((⟨(none, none), 0, [], false⟩ : ForwardRules).PutJson
          (.ok [(ascii "example.com", ascii "")])).2.IsHostAllowedByRule
        (ToUpper (ascii "a.Example.com"))).1
      = (((⟨(none, none), 0, [], false⟩ : ForwardRules).PutJson
          (.ok [(ascii "example.com", ascii "")])).2.IsHostAllowedByRule
        (ascii "a.Example.com")).1 :=
  ⟨by decide,
    ((C6_normalization (((⟨(none, none), 0, [], false⟩ : ForwardRules).PutJson
          (.ok [(ascii "example.com", ascii "")])).2) (ascii "a.Example.com")).2.2.2.2
      (by decide)).1⟩

/-- C6 as stated fails on a non-ASCII string: with the allow-list `{"s"}` the
lookup of `"ſ"` (U+017F, bytes C5 BF) returns false, while the lookup of
`ToUpper("ſ") = "S"` returns true. -/
theorem C6_toUpper_counterexample :
    ToUpper [0xC5, 0xBF] = ascii "S"
    ∧ (((⟨(none, none), 0, [], false⟩ : ForwardRules).PutJson
          (.ok [(ascii "s", ascii "")])).2.IsHostAllowedByRule [0xC5, 0xBF]).1 = .ok false
    ∧ (((⟨(none, none), 0, [], false⟩ : ForwardRules).PutJson
          (.ok [(ascii "s", ascii "")])).2.IsHostAllowedByRule (ToUpper [0xC5, 0xBF])).1
        = .ok true := by
  refine ⟨by rfl, by rfl, by rfl⟩

/-! ## ExtractSNI on a message with a non-empty head: no panic, budget never used up -/

theorem nameLoop_clean (k : Nat) : ∀ (d : List Byte) (s : Str), Clean (nameLoop k d s) := by
  induction k with
  | zero => intro d s; exact Or.inl ⟨s, rfl⟩
  | succ n ih =>
    intro d s
    by_cases h3 : d.length < 3
    · right; simp [nameLoop, h3]
    · have e1 := @idx_eq_ok d 0 (by omega)
      have e2 := @slice_eq_ok d 1 3 (by omega) (by omega)
      have e3 := @sliceFrom_eq_ok d 3 (by omega)
      simp only [nameLoop, if_neg h3, bind, Except.bind, e1, e2, e3]
      by_cases hl : (List.drop 3 d).length < makeNetworkInt (List.drop 1 (List.take 3 d))
      · right; simp only [if_pos hl]
      · simp only [if_neg hl]
        by_cases ht : d.getD 0 0 = 0
        · left
          simp only [if_pos ht]
          exact ⟨_, @slice_eq_ok (List.drop 3 d) 0 _ (Nat.zero_le _) (by omega)⟩
        · simp only [if_neg ht]
          rw [@sliceFrom_eq_ok (List.drop 3 d) _ (by omega)]
          exact ih _ s

theorem extensionLoop_clean (fuel : Nat) :
    ∀ (data : List Byte) (s : Str), data.length ≤ fuel → Clean (extensionLoop fuel data s) := by
  induction fuel with
  | zero =>
    intro data s h
    left
    rw [extensionLoop.eq_def]
    exact ⟨s, by simp only [if_pos (show data.length = 0 by omega)]⟩
  | succ n ih =>
    intro data s h
    rw [extensionLoop.eq_def]
    by_cases h0 : data.length = 0
    · left; exact ⟨s, by simp only [if_pos h0]⟩
    · by_cases h4 : data.length < 4
      · right; simp only [if_neg h0, if_pos h4]
      · have e1 := @slice_eq_ok data 0 2 (by omega) (by omega)
        have e2 := @idx_eq_ok data 2 (by omega)
        have e3 := @idx_eq_ok data 3 (by omega)
        have e4 := @sliceFrom_eq_ok data 4 (by omega)
        simp only [if_neg h0, if_neg h4, bind, Except.bind, e1, e2, e3, e4]
        generalize ((data.getD 2 0).val <<< 8 ||| (data.getD 3 0).val) = length
        by_cases hl : (List.drop 4 data).length < length
        · right; simp only [if_pos hl]
        · simp only [if_neg hl]
          have hlen : (List.drop 4 data).length = data.length - 4 := List.length_drop 4 data
          have e5 := @sliceFrom_eq_ok (List.drop 4 data) length (by omega)
          have hrec : ∀ s', Clean (extensionLoop n (List.drop length (List.drop 4 data)) s') :=
            fun s' => ih _ s' (by rw [List.length_drop, hlen]; omega)
          by_cases hx : makeNetworkInt (List.drop 0 (List.take 2 data)) = extensionIDServerName
          · simp only [if_pos hx]
            by_cases h2 : length < 2
            · right; simp only [if_pos h2]
            · have e6 := @slice_eq_ok (List.drop 4 data) 0 2 (by omega) (by omega)
              have e7 := @sliceFrom_eq_ok (List.drop 4 data) 2 (by omega)
              simp only [if_neg h2, e6, e7]
              rcases nameLoop_clean (makeNetworkInt (List.drop 0 (List.take 2 (List.drop 4 data))))
                (List.drop 2 (List.drop 4 data)) s with ⟨s', hs'⟩ | herr
              · simp only [hs', e5]
                exact hrec s'
              · right; simp only [herr]
          · simp only [if_neg hx, pure, Except.pure, e5]
            exact hrec s

/-- The log call of the first guard of `ExtractSNI` returns on a non-empty head. -/
theorem LogForError_eq_ok (p : tlsMessage) (hh : p.head ≠ []) : p.LogForError = .ok () := by
  match hp : p.head, hh with
  | a :: t, _ => simp [tlsMessage.LogForError, tlsMessage.Type, idx, hp, bind, Except.bind, pure,
      Except.pure]

theorem head_ne_nil_of_Type (p : tlsMessage) (t : Byte) (h : p.Type = .ok t) : p.head ≠ [] := by
  intro e
  rw [tlsMessage.Type, e] at h
  cases h

/-- Method `ExtractSNI` ends in one of its two ways on every message with a
non-empty head: no panic, and the budget of the extension walk is never used
up. -/
theorem ExtractSNI_clean (p : tlsMessage) (hh : p.head ≠ []) : Clean p.ExtractSNI := by
  unfold tlsMessage.ExtractSNI
  split
  · right
    simp only [LogForError_eq_ok p hh, bind, Except.bind]
  · simp only
    by_cases h35 : p.data.length < 2 + 32 + 1
    · right; simp only [if_pos h35]
    · have e1 := @idx_eq_ok p.data (2 + 32) (by omega)
      simp only [if_neg h35, bind, Except.bind, e1]
      generalize (p.data.getD (2 + 32) 0).val = sid
      by_cases hs : sid > 32 ∨ p.data.length < 2 + 32 + 1 + sid
      · right; simp only [if_pos hs]
      · have e2 := @sliceFrom_eq_ok p.data (sessionSkip sid) (by simp only [sessionSkip]; omega)
        simp only [if_neg hs, e2]
        generalize List.drop (sessionSkip sid) p.data = d1
        by_cases h2 : d1.length < 2
        · right; simp only [if_pos h2]
        · have e3 := @slice_eq_ok d1 0 2 (by omega) (by omega)
          simp only [if_neg h2, e3]
          generalize makeNetworkInt (List.drop 0 (List.take 2 d1)) = cs
          by_cases hc : cs % 2 = 1 ∨ d1.length < 2 + cs
          · right; simp only [if_pos hc]
          · have e4 := @sliceFrom_eq_ok d1 (2 + cs) (by omega)
            simp only [if_neg hc, e4]
            generalize List.drop (2 + cs) d1 = d2
            by_cases h1 : d2.length < 1
            · right; simp only [if_pos h1]
            · have e5 := @idx_eq_ok d2 0 (by omega)
              simp only [if_neg h1, e5]
              generalize (d2.getD 0 0).val = cm
              by_cases hm : d2.length < 1 + cm
              · right; simp only [if_pos hm]
              · have e6 := @sliceFrom_eq_ok d2 (1 + cm) (by omega)
                simp only [if_neg hm, e6]
                generalize List.drop (1 + cm) d2 = d3
                by_cases hz : d3.length = 0
                · left; exact ⟨[], by simp only [if_pos hz]⟩
                · by_cases hd : d3.length < 2
                  · right; simp only [if_neg hz, if_pos hd]
                  · have e7 := @slice_eq_ok d3 0 2 (by omega) (by omega)
                    have e8 := @sliceFrom_eq_ok d3 2 (by omega)
                    simp only [if_neg hz, if_neg hd, e7, e8]
                    split_ifs with hx
                    · right; rfl
                    · exact extensionLoop_clean _ _ _ (Nat.le_refl _)

/-! ## HTTPS splicer -/

/-- Method `ReadMessage` returns an error or a message with a head of 4 or 5 bytes; it
never panics and never returns a nil message without an error. -/
theorem ReadMessage_outcome (c : tlsConn) :
    (∃ e, (ReadMessage c).1 = .error (.error e))
    ∨ (∃ m, (ReadMessage c).1 = .ok (some m) ∧ 4 ≤ m.head.length) := by
  have hparse : ∀ c : tlsConn, (∃ e, (parseReadBuffer c).1 = .error (.error e))
      ∨ (∃ m, (parseReadBuffer c).1 = .ok (some m) ∧ 4 ≤ m.head.length) := by
    intro c
    rw [parseReadBuffer_eq]
    split_ifs with h
    · exact Or.inl ⟨_, rfl⟩
    · refine Or.inr ⟨_, rfl, ?_⟩
      simp only [not_or, not_lt] at h
      simp only [List.length_take]
      omega
  obtain ⟨conn, rb, vb⟩ := c
  by_cases hrb : rb = []
  · subst hrb
    by_cases hs : conn.incoming.length < 5
    · obtain ⟨e, c2, h2⟩ := ReadMessage_short conn vb hs
      exact Or.inl ⟨e, by rw [h2]⟩
    · obtain ⟨h0, h1, h2, h3, h4, rest, hin⟩ := incoming_five conn hs
      rw [ReadMessage_header conn vb h0 h1 h2 h3 h4 rest hin]
      split_ifs with e1 e2 e3
      · exact Or.inl ⟨_, rfl⟩
      · simp only [readWithlogging]
        split_ifs with hl
        · right
          have : newMessage [h0, h1, h2, h3, h4] (List.take (makeNetworkInt [h3, h4]) rest) false
              = some ⟨[h0, h1, h2, h3, h4], List.take (makeNetworkInt [h3, h4]) rest, false, []⟩ := by
            simp [newMessage, List.length_take, hl]
          exact ⟨⟨[h0, h1, h2, h3, h4], List.take (makeNetworkInt [h3, h4]) rest, false, []⟩,
            by simp only [this], by simp⟩
        · exact Or.inl ⟨_, rfl⟩
        · exact Or.inl ⟨_, rfl⟩
      · exact Or.inl ⟨_, rfl⟩
      · simp only [readWithlogging]
        split_ifs with hl
        · exact hparse _
        · exact Or.inl ⟨_, rfl⟩
        · exact Or.inl ⟨_, rfl⟩
  · have hlen : ¬ (rb.length = 0) := fun h0 => hrb (List.length_eq_zero.mp h0)
    simp only [ReadMessage, if_neg hlen]
    exact hparse _

theorem IsHostAllowed_no_panic (rules : ForwardRules) (s : Str)
    (h : rules.passThrough = true ∨ (rules.rulesAt rules.index).isSome = true) :
    ∃ b, (rules.IsHostAllowed s).1 = .ok b := by
  unfold ForwardRules.IsHostAllowed
  by_cases hp : rules.passThrough = true
  · exact ⟨true, by simp only [hp, if_true]⟩
  · rcases h with h | h
    · exact absurd h hp
    · simp only [hp, Bool.false_eq_true, if_false]
      rw [IsHostAllowedByRule_eq]
      cases hc : rules.cache.get (normalizeHost s) with
      | some r => exact ⟨r, rfl⟩
      | none =>
        cases ha : rules.rulesAt rules.index with
        | none => rw [ha] at h; cases h
        | some t =>
          simp only
          cases tableMatch t (normalizeHost s) with
          | none => exact ⟨false, rfl⟩
          | some r => exact ⟨r, rfl⟩

/-- What `Serve` does once the first `ReadMessage` has returned `p`. -/
theorem Serve_after_read (net : Net) (rules : ForwardRules) (conn : NetConn) (p : tlsMessage)
    (c1 : tlsConn) (hr : ReadMessage ⟨conn, [], []⟩ = (.ok (some p), c1)) :
    HTTPSProxy.Serve net rules conn =
      match p.Type with
      | .error _ => (.panicked, rules)
      | .ok type =>
        if p.IsHandShake && type = tlsTypeMessageClientHello then
          match p.ExtractSNI with
          | .error (.error err) => (.returned err, rules)
          | .error .panic => (.panicked, rules)
          | .error .outOfFuel => (.ranOut, rules)
          | .ok serverName =>
            match rules.IsHostAllowed serverName with
            | (.error _, rules) => (.panicked, rules)
            | (.ok false, rules) => (.returned .errTargetRejected, rules)
            | (.ok true, rules) =>
              (.forwarded (HTTPSProxy.RunConnection net c1 serverName p), rules)
        else (.returned .errInvalidTLSProtocol, rules) := by
  simp only [HTTPSProxy.Serve, hr]

/-- Method `Serve` reaches `RunConnection`, the only place that dials and writes
upstream, only if the first `ReadMessage` returned a handshake message of type
ClientHello, `ExtractSNI` returned a name `s` without error, and
`IsHostAllowed(s)` is true. If `ReadMessage` fails, `Serve` returns its error;
if the first message is not a handshake ClientHello, InvalidTLSProtocol; if
`ExtractSNI` returns no name, InvalidClientHello; if the host is not allowed,
TargetRejected. With a rule set that has an active table (or passes
everything through), these are all the ways in which `Serve` ends. -/
theorem Serve_dials_only_when_allowed (net : Net) (rules : ForwardRules) (conn : NetConn) :
    (∀ run, (HTTPSProxy.Serve net rules conn).1 = .forwarded run →
      ∃ p c1 s, ReadMessage ⟨conn, [], []⟩ = (.ok (some p), c1)
        ∧ p.IsHandShake = true ∧ p.Type = .ok tlsTypeMessageClientHello
        ∧ p.ExtractSNI = .ok s ∧ (rules.IsHostAllowed s).1 = .ok true
        ∧ run = HTTPSProxy.RunConnection net c1 s p)
    ∧ (∀ e c1, ReadMessage ⟨conn, [], []⟩ = (.error (.error e), c1) →
        (HTTPSProxy.Serve net rules conn).1 = .returned e)
    ∧ (∀ p c1, ReadMessage ⟨conn, [], []⟩ = (.ok (some p), c1) →
        ¬ (p.IsHandShake = true ∧ p.Type = .ok tlsTypeMessageClientHello) →
        (HTTPSProxy.Serve net rules conn).1 = .returned .errInvalidTLSProtocol)
    ∧ (∀ p c1, ReadMessage ⟨conn, [], []⟩ = (.ok (some p), c1) →
        p.IsHandShake = true → p.Type = .ok tlsTypeMessageClientHello →
        (∀ s, p.ExtractSNI ≠ .ok s) →
        (HTTPSProxy.Serve net rules conn).1 = .returned .errInvaildClientHello)
    ∧ (∀ p c1 s, ReadMessage ⟨conn, [], []⟩ = (.ok (some p), c1) →
        p.IsHandShake = true → p.Type = .ok tlsTypeMessageClientHello →
        p.ExtractSNI = .ok s → (rules.IsHostAllowed s).1 = .ok false →
        (HTTPSProxy.Serve net rules conn).1 = .returned .errTargetRejected)
    ∧ (rules.passThrough = true ∨ (rules.rulesAt rules.index).isSome = true →
        (∃ run, (HTTPSProxy.Serve net rules conn).1 = .forwarded run)
        ∨ (∃ e, (HTTPSProxy.Serve net rules conn).1 = .returned e)) := by
  refine ⟨?_, ?_, ?_, ?_, ?_, ?_⟩
  · intro run h
    rcases ReadMessage_outcome ⟨conn, [], []⟩ with ⟨e, he⟩ | ⟨p, hp, hlen⟩
    · exfalso
      cases hr : ReadMessage ⟨conn, [], []⟩ with
      | mk res c1 =>
        rw [hr] at he
        simp only at he
        subst he
        simp only [HTTPSProxy.Serve, hr] at h
        cases h
    · cases hr : ReadMessage ⟨conn, [], []⟩ with
      | mk res c1 =>
        rw [hr] at hp
        simp only at hp
        subst hp
        rw [Serve_after_read net rules conn p c1 hr] at h
        have ht : p.Type = .ok (p.head.getD 0 0) := @idx_eq_ok p.head 0 (by omega)
        rw [ht] at h
        simp only at h
        split_ifs at h with hcond
        · simp only [Bool.and_eq_true, decide_eq_true_eq] at hcond
          rcases ExtractSNI_clean p (head_ne_nil_of_Type p _ ht) with ⟨s, hs⟩ | herr
          · rw [hs] at h
            simp only at h
            cases ha : rules.IsHostAllowed s with
            | mk res2 rules2 =>
              rw [ha] at h
              cases res2 with
              | error x => cases h
              | ok b =>
                cases b with
                | false => cases h
                | true =>
                  simp only [ServeResult.forwarded.injEq] at h
                  exact ⟨p, c1, s, rfl, hcond.1, by rw [ht, hcond.2], hs, by rw [ha], h.symm⟩
          · rw [herr] at h
            cases h
  · intro e c1 hr
    simp only [HTTPSProxy.Serve, hr]
  · intro p c1 hr hn
    rw [Serve_after_read net rules conn p c1 hr]
    cases ht : p.Type with
    | error x =>
      exfalso
      rcases ReadMessage_outcome ⟨conn, [], []⟩ with ⟨e, he⟩ | ⟨q, hq, hlen⟩
      · rw [hr] at he; cases he
      · rw [hr] at hq
        simp only [Except.ok.injEq, Option.some.injEq] at hq
        subst hq
        rw [tlsMessage.Type, @idx_eq_ok p.head 0 (by omega)] at ht
        cases ht
    | ok t =>
      simp only
      rw [if_neg]
      intro hc
      simp only [Bool.and_eq_true, decide_eq_true_eq] at hc
      exact hn ⟨hc.1, by rw [ht, hc.2]⟩
  · intro p c1 hr h1 h2 h3
    rw [Serve_after_read net rules conn p c1 hr, h2]
    simp only [h1, Bool.true_and, decide_True, if_true]
    rcases ExtractSNI_clean p (head_ne_nil_of_Type p _ h2) with ⟨s, hs⟩ | herr
    · exact absurd hs (h3 s)
    · rw [herr]
  · intro p c1 s hr h1 h2 h3 h4
    rw [Serve_after_read net rules conn p c1 hr, h2]
    simp only [h1, Bool.true_and, decide_True, if_true, h3]
    cases ha : rules.IsHostAllowed s with
    | mk res2 rules2 =>
      rw [ha] at h4
      simp only at h4
      subst h4
      rfl
  · intro hrules
    rcases ReadMessage_outcome ⟨conn, [], []⟩ with ⟨e, he⟩ | ⟨p, hp, hlen⟩
    · right
      cases hr : ReadMessage ⟨conn, [], []⟩ with
      | mk res c1 =>
        rw [hr] at he
        simp only at he
        subst he
        exact ⟨e, by simp only [HTTPSProxy.Serve, hr]⟩
    · cases hr : ReadMessage ⟨conn, [], []⟩ with
      | mk res c1 =>
        rw [hr] at hp
        simp only at hp
        subst hp
        rw [Serve_after_read net rules conn p c1 hr]
        have ht : p.Type = .ok (p.head.getD 0 0) := @idx_eq_ok p.head 0 (by omega)
        rw [ht]
        simp only
        split_ifs with hcond
        · rcases ExtractSNI_clean p (List.ne_nil_of_length_pos (by omega)) with ⟨s, hs⟩ | herr
          · rw [hs]
            simp only
            obtain ⟨b, hb⟩ := IsHostAllowed_no_panic rules s hrules
            cases ha : rules.IsHostAllowed s with
            | mk res2 rules2 =>
              rw [ha] at hb
              simp only at hb
              subst hb
              cases b with
              | false => exact Or.inr ⟨_, rfl⟩
              | true => exact Or.inl ⟨_, rfl⟩
          · rw [herr]
            exact Or.inr ⟨_, rfl⟩
        · exact Or.inr ⟨_, rfl⟩


set_option maxHeartbeats 4000000 in
theorem Serve_dials_only_when_allowed_example :
    (HTTPSProxy.Serve exampleNet exampleRules ⟨exampleRecord, [], none⟩).1
      = .forwarded (HTTPSProxy.RunConnection exampleNet ⟨⟨[], [], none⟩, [], [3, 1]⟩ [97, 46, 98]
          ⟨[1, 0] ++ be16 exampleHello.encode.length, exampleHello.encode, true, [3, 1]⟩)
    ∧ ∃ p c1 s, ReadMessage ⟨⟨exampleRecord, [], none⟩, [], []⟩ = (.ok (some p), c1)
        ∧ p.IsHandShake = true ∧ p.Type = .ok tlsTypeMessageClientHello
        ∧ p.ExtractSNI = .ok s ∧ (exampleRules.IsHostAllowed s).1 = .ok true
        ∧ HTTPSProxy.RunConnection exampleNet ⟨⟨[], [], none⟩, [], [3, 1]⟩ [97, 46, 98]
            ⟨[1, 0] ++ be16 exampleHello.encode.length, exampleHello.encode, true, [3, 1]⟩
          = HTTPSProxy.RunConnection exampleNet c1 s p :=
  have h : (HTTPSProxy.Serve exampleNet exampleRules ⟨exampleRecord, [], none⟩).1
      = .forwarded (HTTPSProxy.RunConnection exampleNet ⟨⟨[], [], none⟩, [], [3, 1]⟩ [97, 46, 98]
          ⟨[1, 0] ++ be16 exampleHello.encode.length, exampleHello.encode, true, [3, 1]⟩) := by
    rfl
  ⟨h, (Serve_dials_only_when_allowed exampleNet exampleRules ⟨exampleRecord, [], none⟩).1 _ h⟩

set_option maxHeartbeats 4000000 in
/-- C4: the claim fails on the code at `rulesWithoutFile`, the rule set
`NewForwardRules` leaves when `Load` has no file to read (both table slots nil,
`passThrough` false), and the client stream `exampleRecord`. The first
`ReadMessage` returns a handshake ClientHello, `ExtractSNI` returns the name
`a.b`, no table allows it; where the claim has the return of TargetRejected,
`Serve` panics: `IsHostAllowedByRule` dereferences the nil table. It does not
dial. -/
theorem C4_nil_table_panics :
    (ReadMessage ⟨⟨exampleRecord, [], none⟩, [], []⟩).1
      = .ok (some ⟨[1, 0] ++ be16 exampleHello.encode.length, exampleHello.encode, true, [3, 1]⟩)
    ∧ tlsMessage.ExtractSNI
        ⟨[1, 0] ++ be16 exampleHello.encode.length, exampleHello.encode, true, [3, 1]⟩
      = .ok [97, 46, 98]
    ∧ rulesWithoutFile.passThrough = false
    ∧ (rulesWithoutFile.IsHostAllowed [97, 46, 98]).1 = .error .panic
    ∧ (HTTPSProxy.Serve exampleNet rulesWithoutFile ⟨exampleRecord, [], none⟩).1 = .panicked := by
  refine ⟨by rfl, by rfl, rfl, by rfl, by rfl⟩

/-- The budget of `readAll` is never used up when it exceeds the number of
bytes on the socket and in the read buffer. -/
theorem readAll_fuel (fuel : Nat) :
    ∀ c : tlsConn, BufferInv c → c.conn.incoming.length + c.readBuffer.length < fuel →
      readAll fuel c ≠ .error .outOfFuel := by
  induction fuel with
  | zero => intro c _ h; omega
  | succ n ih =>
    intro c hinv h
    simp only [readAll]
    split_ifs with he
    · intro hc; cases hc
    · split
      · rename_i s c1 hr
        rcases ReadMessage_outcome c with ⟨e, he2⟩ | ⟨m, hm, -⟩
        · rw [hr] at he2
          simp only [Except.error.injEq] at he2
          subst he2
          intro hc; cases hc
        · rw [hr] at hm; cases hm
      · intro hc; cases hc
      · rename_i m c1 hr
        obtain ⟨-, hinv1, hdec⟩ := ReadMessage_step c c1 m hr hinv
        have := ih c1 hinv1 (by omega)
        split
        · rename_i s hs
          intro hc
          simp only [Except.error.injEq] at hc
          subst hc
          exact this hs
        · intro hc; cases hc

theorem readStream_fuel (B : List Byte) : readStream B ≠ .error .outOfFuel :=
  readAll_fuel _ (newConn B) ⟨by simp [newConn], fun hne => absurd rfl hne⟩
    (by simp [newConn])

/-! ## ExtractSNI: the stages of the parse -/

/-- Method `ExtractSNI` is its session id stage followed by `afterSessionID`. -/
theorem ExtractSNI_eq_stages (p : tlsMessage) :
    p.ExtractSNI =
      (if !p.IsHandShake || p.head.length ≠ 4 || p.head[0]? ≠ some tlsTypeMessageClientHello then do
        p.LogForError
        .error (.error .errInvaildClientHello)
      else if p.data.length < 2 + 32 + 1 then .error (.error .errInvaildClientHello)
      else do
        let sessiondIDLen := (← idx p.data (2 + 32)).val
        if sessiondIDLen > 32 ∨ p.data.length < 2 + 32 + 1 + sessiondIDLen then
          .error (.error .errInvaildClientHello)
        else do
          let data ← sliceFrom p.data (sessionSkip sessiondIDLen)
          afterSessionID data) := by
  rfl

/-- A body with a well-formed version, random and session id: `ExtractSNI`
continues with what follows the session id. -/
theorem ExtractSNI_after_sessionID (p : tlsMessage) (version random sid rest : List Byte)
    (hp : p.data = version ++ (random ++ (toByte sid.length :: (sid ++ rest))))
    (hv : version.length = 2) (hr : random.length = 32) (hs : sid.length ≤ 32) :
    p.ExtractSNI =
      if !p.IsHandShake || p.head.length ≠ 4 || p.head[0]? ≠ some tlsTypeMessageClientHello then
        p.LogForError.bind (fun _ => .error (.error .errInvaildClientHello))
      else afterSessionID rest := by
  have hsv : (toByte sid.length).val = sid.length := toByte_val_of_lt _ (by omega)
  have i1 := idx_append (version ++ random) (toByte sid.length) (sid ++ rest)
    (2 + 32) (by simp [hv, hr])
  have i2 := sliceFrom_append (version ++ random ++ [toByte sid.length] ++ sid) rest
    (sessionSkip sid.length) (by simp [hv, hr, sessionSkip]; omega)
  simp only [List.append_assoc, List.cons_append, List.nil_append] at i1 i2
  have l1 : ¬ ((version ++ (random ++ (toByte sid.length :: (sid ++ rest)))).length
      < 2 + 32 + 1) := by
    simp [hv, hr]; omega
  have l2 : ¬ (sid.length > 32 ∨ (version ++ (random ++ (toByte sid.length
      :: (sid ++ rest)))).length < 2 + 32 + 1 + sid.length) := by
    simp [hv, hr]; omega
  rw [ExtractSNI_eq_stages, hp]
  simp only [bind, Except.bind, i1, hsv, l1, l2, i2, if_false]

/-- Well-formed cipher suites and compression methods: `afterSessionID`
continues with what follows the compression methods. -/
theorem afterSessionID_after_compression (cs cm tail : List Byte)
    (hce : cs.length % 2 = 0) (hcl : cs.length < 65536) (hm : cm.length < 256) :
    afterSessionID (be16 cs.length ++ (cs ++ (toByte cm.length :: (cm ++ tail))))
      = extensionsBlock tail := by
  have hmv : (toByte cm.length).val = cm.length := toByte_val_of_lt _ hm
  have i3 := slice_append (be16 cs.length) (cs ++ (toByte cm.length :: (cm ++ tail))) 2 rfl
  have i4 := sliceFrom_append (be16 cs.length ++ cs) (toByte cm.length :: (cm ++ tail))
    (2 + cs.length) (by simp [be16_length])
  have i5 := idx_append [] (toByte cm.length) (cm ++ tail) 0 rfl
  have i6 := sliceFrom_append (toByte cm.length :: cm) tail (1 + cm.length) (by simp; omega)
  simp only [List.append_assoc, List.cons_append, List.nil_append] at i4 i5 i6
  have l3 : ¬ ((be16 cs.length ++ (cs ++ (toByte cm.length :: (cm ++ tail)))).length < 2) := by
    simp [be16_length]
  have l4 : ¬ (cs.length % 2 = 1 ∨ (be16 cs.length ++ (cs ++ (toByte cm.length
      :: (cm ++ tail)))).length < 2 + cs.length) := by
    simp [be16_length]; omega
  have l5 : ¬ ((toByte cm.length :: (cm ++ tail)).length < 1) := by simp
  have l6 : ¬ ((toByte cm.length :: (cm ++ tail)).length < 1 + cm.length) := by
    simp; omega
  simp only [afterSessionID, bind, Except.bind, l3, i3, makeNetworkInt_be16 _ hcl, l4, i4,
    l5, i5, hmv, l6, i6, if_false]

/-- An extensions block whose two length bytes are followed by `rest`. -/
theorem extensionsBlock_cons (e1 e0 : Byte) (rest : List Byte) :
    extensionsBlock (e1 :: e0 :: rest)
      = if makeNetworkInt [e1, e0] ≠ rest.length then .error (.error .errInvaildClientHello)
        else extensionLoop rest.length rest [] := by
  have i7 := slice_append [e1, e0] rest 2 rfl
  have i8 := sliceFrom_append [e1, e0] rest 2 rfl
  simp only [List.cons_append, List.nil_append] at i7 i8
  have l7 : ¬ ((e1 :: e0 :: rest).length = 0) := by simp
  have l8 : ¬ ((e1 :: e0 :: rest).length < 2) := by simp
  simp only [extensionsBlock, bind, Except.bind, l7, l8, i7, i8, if_false]

/-! ## ExtractSNI: malformed and truncated bodies (claims) -/

/-- C13: for every message with a non-empty head (a ClientHello message has
the four-byte head `[1, l2, l1, l0]`) whose body has at least 35 bytes and
whose session_id_len byte (offset 34) is greater than 32, `ExtractSNI` returns
`errInvaildClientHello`, whatever the remaining bytes. -/
theorem C13_session_id_too_long (p : tlsMessage) (b : Byte) (hh : p.head ≠ [])
    (hlen : 35 ≤ p.data.length) (hb : p.data[34]? = some b) (h : 32 < b.val) :
    p.ExtractSNI = .error (.error .errInvaildClientHello) := by
  have hi : idx p.data (2 + 32) = .ok b := by simp [idx, hb]
  have l1 : ¬ (p.data.length < 2 + 32 + 1) := by omega
  have l2 : b.val > 32 ∨ p.data.length < 2 + 32 + 1 + b.val := Or.inl h
  rw [ExtractSNI_eq_stages]
  simp only [bind, Except.bind, hi, l1, l2, if_false, if_true, LogForError_eq_ok p hh, ite_self]

theorem C13_session_id_too_long_witness :
    ([(1 : Byte), 0, 0, 37] ≠ [])
    ∧ 35 ≤ (List.replicate 34 (0 : Byte) ++ [33, 7, 7]).length
    ∧ (List.replicate 34 (0 : Byte) ++ [33, 7, 7])[34]? = some 33
    ∧ 32 < (33 : Byte).val
    ∧ tlsMessage.ExtractSNI ⟨[1, 0, 0, 37], List.replicate 34 0 ++ [33, 7, 7], true, [3, 1]⟩
      = .error (.error .errInvaildClientHello) :=
  ⟨by decide, by decide, by rfl, by decide,
    C13_session_id_too_long ⟨[1, 0, 0, 37], List.replicate 34 0 ++ [33, 7, 7], true, [3, 1]⟩ 33
      (by decide) (by decide) (by rfl) (by decide)⟩

/-- C15: for every message with a non-empty head (a ClientHello message has
the four-byte head `[1, l2, l1, l0]`) whose body has a valid version, random
and session id and whose two cipher_suites_len bytes hold an odd number,
`ExtractSNI` returns `errInvaildClientHello`. -/
theorem C15_odd_cipher_suites_len (p : tlsMessage) (version random sid : List Byte)
    (c1 c0 : Byte) (rest : List Byte) (hh : p.head ≠ [])
    (hp : p.data = version ++ (random ++ (toByte sid.length :: (sid ++ (c1 :: c0 :: rest)))))
    (hv : version.length = 2) (hr : random.length = 32) (hs : sid.length ≤ 32)
    (hodd : makeNetworkInt [c1, c0] % 2 = 1) :
    p.ExtractSNI = .error (.error .errInvaildClientHello) := by
  have i3 := slice_append [c1, c0] rest 2 rfl
  simp only [List.cons_append, List.nil_append] at i3
  have l3 : ¬ ((c1 :: c0 :: rest).length < 2) := by simp
  have l4 : makeNetworkInt [c1, c0] % 2 = 1
      ∨ (c1 :: c0 :: rest).length < 2 + makeNetworkInt [c1, c0] := Or.inl hodd
  rw [ExtractSNI_after_sessionID p version random sid _ hp hv hr hs]
  simp only [afterSessionID, bind, Except.bind, l3, i3, l4, if_false, if_true,
    LogForError_eq_ok p hh, ite_self]

theorem C15_odd_cipher_suites_len_witness :
    (⟨[1, 0, 0, 41], [3, 3] ++ (List.replicate 32 0 ++ (toByte [9].length
        :: ([9] ++ (0 :: 3 :: [0, 5, 0])))), true, [3, 1]⟩ : tlsMessage).data
      = [3, 3] ++ (List.replicate 32 0 ++ (toByte [9].length :: ([9] ++ (0 :: 3 :: [0, 5, 0]))))
    ∧ makeNetworkInt [0, 3] % 2 = 1
    ∧ tlsMessage.ExtractSNI ⟨[1, 0, 0, 41], [3, 3] ++ (List.replicate 32 0 ++ (toByte [9].length
        :: ([9] ++ (0 :: 3 :: [0, 5, 0])))), true, [3, 1]⟩
      = .error (.error .errInvaildClientHello) :=
  ⟨rfl, by decide,
    C15_odd_cipher_suites_len _ [3, 3] (List.replicate 32 0) [9] 0 3 [0, 5, 0] (by decide) rfl
      (by decide) (by decide) (by decide) (by decide)⟩

/-- C14: for every message with a non-empty head (a ClientHello message has
the four-byte head `[1, l2, l1, l0]`) whose body is well formed up to and
including compression_methods and whose two extensions_len bytes hold a number
other than the count of bytes that follow them, `ExtractSNI` returns
`errInvaildClientHello`. -/
theorem C14_extensions_len_mismatch (p : tlsMessage) (version random sid cs cm : List Byte)
    (e1 e0 : Byte) (rest : List Byte) (hh : p.head ≠ [])
    (hp : p.data = version ++ (random ++ (toByte sid.length :: (sid ++ (be16 cs.length
      ++ (cs ++ (toByte cm.length :: (cm ++ (e1 :: e0 :: rest)))))))))
    (hv : version.length = 2) (hr : random.length = 32) (hs : sid.length ≤ 32)
    (hce : cs.length % 2 = 0) (hcl : cs.length < 65536) (hm : cm.length < 256)
    (hne : makeNetworkInt [e1, e0] ≠ rest.length) :
    p.ExtractSNI = .error (.error .errInvaildClientHello) := by
  rw [ExtractSNI_after_sessionID p version random sid _ hp hv hr hs,
    afterSessionID_after_compression cs cm _ hce hcl hm, extensionsBlock_cons, if_pos hne,
    LogForError_eq_ok p hh]
  simp only [Except.bind, ite_self]

theorem C14_extensions_len_mismatch_witness :
    (⟨[1, 0, 0, 45], [3, 3] ++ (List.replicate 32 0 ++ (toByte [9].length :: ([9]
        ++ (be16 [0, 47].length ++ ([0, 47] ++ (toByte [0].length :: ([0]
        ++ (0 :: 5 :: [0, 10])))))))), true, [3, 1]⟩ : tlsMessage).data
      = [3, 3] ++ (List.replicate 32 0 ++ (toByte [9].length :: ([9]
        ++ (be16 [0, 47].length ++ ([0, 47] ++ (toByte [0].length :: ([0]
        ++ (0 :: 5 :: [0, 10]))))))))
    ∧ makeNetworkInt [0, 5] ≠ [(0 : Byte), 10].length
    ∧ tlsMessage.ExtractSNI ⟨[1, 0, 0, 45], [3, 3] ++ (List.replicate 32 0
        ++ (toByte [9].length :: ([9] ++ (be16 [0, 47].length ++ ([0, 47]
        ++ (toByte [0].length :: ([0] ++ (0 :: 5 :: [0, 10])))))))), true, [3, 1]⟩
      = .error (.error .errInvaildClientHello) :=
  ⟨rfl, by decide,
    C14_extensions_len_mismatch _ [3, 3] (List.replicate 32 0) [9] [0, 47] [0] 0 5 [0, 10]
      (by decide) rfl (by decide) (by decide) (by decide) (by decide) (by decide) (by decide) (by decide)⟩

/-- C16: for every ClientHello message whose body ends exactly after a
well-formed compression_methods field, `ExtractSNI` returns the empty string
and no error. -/
theorem C16_no_extensions_block (a b c : Byte) (v version random sid cs cm : List Byte)
    (hv : version.length = 2) (hr : random.length = 32) (hs : sid.length ≤ 32)
    (hce : cs.length % 2 = 0) (hcl : cs.length < 65536) (hm : cm.length < 256) :
    tlsMessage.ExtractSNI
        ⟨[tlsTypeMessageClientHello, a, b, c],
          version ++ (random ++ (toByte sid.length :: (sid ++ (be16 cs.length
            ++ (cs ++ (toByte cm.length :: cm)))))),
          true, v⟩
      = .ok [] := by
  have hp : (⟨[tlsTypeMessageClientHello, a, b, c],
      version ++ (random ++ (toByte sid.length :: (sid ++ (be16 cs.length
        ++ (cs ++ (toByte cm.length :: cm)))))), true, v⟩ : tlsMessage).data
      = version ++ (random ++ (toByte sid.length :: (sid ++ (be16 cs.length
        ++ (cs ++ (toByte cm.length :: (cm ++ []))))))) := by
    simp
  rw [ExtractSNI_after_sessionID _ version random sid _ hp hv hr hs,
    afterSessionID_after_compression cs cm _ hce hcl hm]
  simp [extensionsBlock]

theorem C16_no_extensions_block_witness :
    [(3 : Byte), 3].length = 2 ∧ (List.replicate 32 (0 : Byte)).length = 32
    ∧ [(9 : Byte)].length ≤ 32 ∧ [(0 : Byte), 47].length % 2 = 0
    ∧ tlsMessage.ExtractSNI
        ⟨[tlsTypeMessageClientHello, 0, 0, 41],
          [3, 3] ++ (List.replicate 32 0 ++ (toByte [9].length :: ([9] ++ (be16 [0, 47].length
            ++ ([0, 47] ++ (toByte [0].length :: [0])))))),
          true, [3, 1]⟩
      = .ok [] :=
  ⟨by decide, by decide, by decide, by decide,
    C16_no_extensions_block 0 0 41 [3, 1] [3, 3] (List.replicate 32 0) [9] [0, 47] [0]
      (by decide) (by decide) (by decide) (by decide) (by decide) (by decide)⟩

/-- A well-formed ClientHello without a server_name extension: `ExtractSNI`
returns the empty string and no error. -/
theorem ExtractSNI_no_server_name (h : ClientHello) (a b c : Byte) (v : List Byte)
    (hwf : h.WellFormed) (hnone : ∀ x ∈ h.extensions, x.type ≠ 0) :
    tlsMessage.ExtractSNI ⟨[tlsTypeMessageClientHello, a, b, c], h.encode, true, v⟩
      = .ok [] := by
  obtain ⟨hv, hr, hs, hce, hcl, hm, hE, hx⟩ := hwf
  simp only [ClientHello.encode, tlsTypeMessageClientHello]
  rw [ExtractSNI_reaches_walk a b c v _ _ _ _ _ _ hv hr hs hce hcl hm hE]
  obtain ⟨f, hf⟩ : ∃ f, (encodeExtensions h.extensions).length = h.extensions.length + f :=
    ⟨_, (Nat.add_sub_cancel' (length_le_encodeExtensions h.extensions)).symm⟩
  have e := extensionLoop_others h.extensions f [] []
    (fun x hxm => ⟨hnone x hxm, (hx x hxm).1, (hx x hxm).2⟩)
  rw [List.append_nil] at e
  rw [hf, e, extensionLoop_nil]

theorem helloOtherNameType_wellFormed : helloOtherNameType.WellFormed := by
  refine ⟨by decide, by decide, by decide, by decide, by decide, by decide, by decide, ?_⟩
  intro x hx
  simp only [helloOtherNameType, List.mem_cons, List.mem_singleton, List.not_mem_nil,
    or_false] at hx
  rcases hx with rfl | rfl <;> exact ⟨by decide, by decide⟩

/-- C12: the claim fails on the code at `helloOtherNameType`, a well-formed
ClientHello whose server_name list holds one entry of name type 1 and none of
name type 0: `ExtractSNI` returns `errInvaildClientHello` where the claim has
the empty string and no error. The name loop takes the list's byte length (4)
for the number of entries and asks for a second entry after the list's end. -/
theorem C12_other_name_type_rejected :
    helloOtherNameType.WellFormed
    ∧ helloOtherNameType.extensions
      = [⟨10, [1, 2]⟩, ⟨0, encodeServerNameList [⟨1, [120]⟩]⟩]
    ∧ tlsMessage.ExtractSNI
        ⟨[tlsTypeMessageClientHello, 0, 0, 64], helloOtherNameType.encode, true, [3, 1]⟩
      = .error (.error .errInvaildClientHello) :=
  ⟨helloOtherNameType_wellFormed, rfl, by rfl⟩

theorem helloOverrunningName_wellFormed : helloOverrunningName.WellFormed := by
  refine ⟨by decide, by decide, by decide, by decide, by decide, by decide, by decide, ?_⟩
  intro x hx
  simp only [helloOverrunningName, List.mem_cons, List.mem_singleton, List.not_mem_nil,
    or_false] at hx
  rcases hx with rfl | rfl <;> exact ⟨by decide, by decide⟩

/-- C19: the claim fails on the code at `helloOverrunningName`, a well-formed
ClientHello whose server_name extension has a six-byte value in which the one
entry (name type 0) declares name_len 5 with a single name byte left. Where the
claim has `errInvaildClientHello`, `ExtractSNI` returns no error and the name
`a` followed by the four header bytes `2e 62 00 02` of the next extension: the
name loop reads from `data[2:]`, which runs to the end of the extensions block,
not to the end of the extension's value. -/
theorem C19_name_read_past_extension :
    helloOverrunningName.WellFormed
    ∧ helloOverrunningName.extensions = [⟨0, [0, 4, 0, 0, 5, 97]⟩, ⟨0x2e62, [99, 100]⟩]
    ∧ (⟨0x2e62, [99, 100]⟩ : Extension).encode = [0x2e, 0x62, 0, 2, 99, 100]
    ∧ tlsMessage.ExtractSNI
        ⟨[tlsTypeMessageClientHello, 0, 0, 64], helloOverrunningName.encode, true, [3, 1]⟩
      = .ok [97, 0x2e, 0x62, 0, 2] :=
  ⟨helloOverrunningName_wellFormed, rfl, by rfl, by rfl⟩

/-! ## The version a handshake message carries -/

/-- A handshake message taken off the read buffer carries the connection's
version, which stays as it is. -/
theorem parseReadBuffer_version (c c' : tlsConn) (m : tlsMessage)
    (h : parseReadBuffer c = (.ok (some m), c')) :
    m.IsHandShake = true ∧ m.version = c.versionBuffer
      ∧ c'.versionBuffer = c.versionBuffer := by
  rw [parseReadBuffer_eq] at h
  split_ifs at h with hc
  · cases h
  · simp only [Prod.mk.injEq, Except.ok.injEq, Option.some.injEq] at h
    obtain ⟨rfl, rfl⟩ := h
    exact ⟨rfl, rfl, rfl⟩

/-- C11, counterexample: on a stream of two Handshake records with versions
3.1 and 3.3, the message of the second record carries 3.3, not the version 3.1
of the first record seen on the connection. -/
theorem C11_first_version_counterexample :
    readStream [0x16, 3, 1, 0, 4, 1, 0, 0, 0, 0x16, 3, 3, 0, 4, 2, 0, 0, 0]
      = .ok [⟨[1, 0, 0, 0], [], true, [3, 1]⟩, ⟨[2, 0, 0, 0], [], true, [3, 3]⟩] := by
  rfl

/-- C11, as the code has it: a call of `ReadMessage` that reads a record header
(read buffer empty) sets the connection's version to the two version bytes of
that header, whatever it was before, and a handshake message it returns
carries these bytes; a call that finds the read buffer non-empty reads no
header, returns a handshake message carrying the connection's version and
leaves that version as it is. So each handshake message carries the version of
the record its bytes arrived in. -/
theorem C11_version_of_latest_record (c c' : tlsConn) (m : tlsMessage)
    (h : ReadMessage c = (.ok (some m), c')) :
    (c.readBuffer = [] →
      ∃ h0 h2 h3 h4 rest, c.conn.incoming = h0 :: 3 :: h2 :: h3 :: h4 :: rest
        ∧ c'.versionBuffer = [3, h2]
        ∧ (m.IsHandShake = true → m.version = [3, h2]))
    ∧ (c.readBuffer ≠ [] →
        m.IsHandShake = true ∧ m.version = c.versionBuffer
          ∧ c'.versionBuffer = c.versionBuffer) := by
  obtain ⟨conn, rb, vb⟩ := c
  constructor
  · intro hrb
    simp only at hrb
    subst hrb
    by_cases hs : conn.incoming.length < 5
    · obtain ⟨e, c2, h2⟩ := ReadMessage_short conn vb hs
      rw [h2] at h
      cases h
    · obtain ⟨h0, h1, h2, h3, h4, rest, hin⟩ := incoming_five conn hs
      rw [ReadMessage_header conn vb h0 h1 h2 h3 h4 rest hin] at h
      split_ifs at h with e1 e2 e3
      · cases h
      · simp only [ne_eq, Decidable.not_not] at e1
        subst e1
        simp only [readWithlogging] at h
        split_ifs at h with hl
        · simp only [Prod.mk.injEq, Except.ok.injEq] at h
          obtain ⟨hnm, rfl⟩ := h
          simp only [newMessage, Bool.false_eq_true, if_false] at hnm
          split_ifs at hnm with hcond
          simp only [Option.some.injEq] at hnm
          subst hnm
          exact ⟨h0, h2, h3, h4, rest, hin, rfl, fun hf => by cases hf⟩
        · cases h
        · cases h
      · cases h
      · simp only [ne_eq, Decidable.not_not] at e1
        subst e1
        simp only [readWithlogging] at h
        split_ifs at h with hl
        · obtain ⟨-, p2, p3⟩ := parseReadBuffer_version _ _ _ h
          exact ⟨h0, h2, h3, h4, rest, hin, p3, fun _ => p2⟩
        · cases h
        · cases h
  · intro hrb
    simp only [ne_eq] at hrb
    have hne : ¬ (rb.length = 0) := fun h0 => hrb (List.length_eq_zero.mp h0)
    simp only [ReadMessage, if_neg hne] at h
    exact parseReadBuffer_version _ _ _ h

theorem C11_version_of_latest_record_witness :
    ReadMessage ⟨⟨[0x16, 3, 3, 0, 4, 2, 0, 0, 0], [], none⟩, [], [3, 1]⟩
      = (.ok (some ⟨[2, 0, 0, 0], [], true, [3, 3]⟩), ⟨⟨[], [], none⟩, [], [3, 3]⟩)
    ∧ ∃ h0 h2 h3 h4 rest,
        [(0x16 : Byte), 3, 3, 0, 4, 2, 0, 0, 0] = h0 :: 3 :: h2 :: h3 :: h4 :: rest
        ∧ [(3 : Byte), 3] = [3, h2] :=
  have h : ReadMessage ⟨⟨[0x16, 3, 3, 0, 4, 2, 0, 0, 0], [], none⟩, [], [3, 1]⟩
      = (.ok (some ⟨[2, 0, 0, 0], [], true, [3, 3]⟩), ⟨⟨[], [], none⟩, [], [3, 3]⟩) := by rfl
  ⟨h, by
    obtain ⟨h0, h2, h3, h4, rest, e, e2, _⟩ := (C11_version_of_latest_record _ _ _ h).1 rfl
    exact ⟨h0, h2, h3, h4, rest, e, e2⟩⟩

/-! ## Lower-cased keys -/

theorem toByte_or_high : ∀ x, x < 64 →
    0x80 ≤ (toByte (0x80 ||| x)).val ∧ 0x80 ≤ (toByte (0xC0 ||| x)).val
      ∧ 0x80 ≤ (toByte (0xE0 ||| x)).val ∧ 0x80 ≤ (toByte (0xF0 ||| x)).val := by
  decide

/-- Function `utf8.EncodeRune` writes no ASCII byte for a rune above U+007F. -/
theorem encodeRune_high (r : Nat) (h : 0x7F < r) : ∀ b ∈ encodeRune r, 0x80 ≤ b.val := by
  have a6 : r &&& 0x3F < 64 := Nat.lt_succ_of_le Nat.and_le_right
  have a12 : (r >>> 6) &&& 0x3F < 64 := Nat.lt_succ_of_le Nat.and_le_right
  have a18 : (r >>> 12) &&& 0x3F < 64 := Nat.lt_succ_of_le Nat.and_le_right
  intro b hb
  unfold encodeRune at hb
  split_ifs at hb with h1 h2 h3 h4
  · omega
  · have s6 : r >>> 6 < 64 := by rw [Nat.shiftRight_eq_div_pow]; omega
    simp only [List.mem_cons, List.mem_singleton, List.not_mem_nil, or_false] at hb
    rcases hb with rfl | rfl
    · exact (toByte_or_high _ s6).2.1
    · exact (toByte_or_high _ a6).1
  · simp only [List.mem_cons, List.mem_singleton, List.not_mem_nil, or_false] at hb
    rcases hb with rfl | rfl | rfl <;> decide
  · have s12 : r >>> 12 < 64 := by rw [Nat.shiftRight_eq_div_pow]; omega
    simp only [List.mem_cons, List.mem_singleton, List.not_mem_nil, or_false] at hb
    rcases hb with rfl | rfl | rfl
    · exact (toByte_or_high _ s12).2.2.1
    · exact (toByte_or_high _ a12).1
    · exact (toByte_or_high _ a6).1
  · have s18 : r >>> 18 < 64 := by
      rw [Nat.shiftRight_eq_div_pow]
      simp only [not_or, not_lt] at h3
      omega
    simp only [List.mem_cons, List.mem_singleton, List.not_mem_nil, or_false] at hb
    rcases hb with rfl | rfl | rfl | rfl
    · exact (toByte_or_high _ s18).2.2.2
    · exact (toByte_or_high _ a18).1
    · exact (toByte_or_high _ a12).1
    · exact (toByte_or_high _ a6).1

theorem encodeRune_unicodeToLower (r : Nat) :
    ∀ b ∈ encodeRune (unicodeToLower r), ¬ (0x41 ≤ b.val ∧ b.val ≤ 0x5A) := by
  intro b hb
  by_cases h : 0x7F < unicodeToLower r
  · have := encodeRune_high _ h b hb
    omega
  · have hle : unicodeToLower r ≤ 0x7F := by omega
    simp only [encodeRune, if_pos hle, List.mem_singleton] at hb
    subst hb
    have hv : (toByte (unicodeToLower r)).val = unicodeToLower r := toByte_val_of_lt _ (by omega)
    rw [hv]
    unfold unicodeToLower at hle ⊢
    split_ifs at hle ⊢ <;> omega

theorem mapRunes_unicodeToLower (fuel : Nat) :
    ∀ s : List Byte, ∀ b ∈ mapRunes unicodeToLower fuel s, ¬ (0x41 ≤ b.val ∧ b.val ≤ 0x5A) := by
  induction fuel with
  | zero => intro s b hb; simp [mapRunes] at hb
  | succ n ih =>
    intro s b hb
    simp only [mapRunes] at hb
    split_ifs at hb with hs
    · simp at hb
    · rcases List.mem_append.mp hb with h1 | h2
      · exact encodeRune_unicodeToLower _ b h1
      · exact ih _ b h2

set_option maxRecDepth 100000 in
theorem asciiLower_not_upper : ∀ c : Byte, ¬ (0x41 ≤ (asciiLower c).val ∧ (asciiLower c).val ≤ 0x5A) := by
  decide

/-- No byte of `strings.ToLower(s)` is an ASCII upper-case letter. -/
theorem ToLower_no_upper (s : Str) : ∀ b ∈ ToLower s, ¬ (0x41 ≤ b.val ∧ b.val ≤ 0x5A) := by
  intro b hb
  unfold ToLower at hb
  split_ifs at hb with h
  · obtain ⟨c, -, rfl⟩ := List.mem_map.mp hb
    exact asciiLower_not_upper c
  · exact mapRunes_unicodeToLower _ s b hb

/-- The keys of the table `PutJson` installs are the `ToLower` images of the
keys of the JSON object, so none holds an ASCII upper-case letter. -/
theorem PutJson_keys (f : ForwardRules) (test : List (Str × Str)) (k : Str) :
    ∃ t, (f.PutJson (.ok test)).2.rulesAt (f.PutJson (.ok test)).2.index = some t
      ∧ (t.get k = (if k ∈ test.map (fun kv => ToLower kv.1) then some true else none))
      ∧ ((t.get k).isSome → ∀ b ∈ k, ¬ (0x41 ≤ b.val ∧ b.val ≤ 0x5A)) := by
  refine ⟨_, setRules_active f _, ?_, ?_⟩
  · rw [putJson_table_get]
    rfl
  · rw [putJson_table_get]
    split_ifs with h
    · intro _
      obtain ⟨kv, -, rfl⟩ := List.mem_map.mp h
      exact ToLower_no_upper kv.1
    · intro h2
      cases h2

/-! ## Keys of the table PutJson installs -/

/-- C17: the claim fails on the code at the JSON object `{"Example.com.": ""}`.
`PutJson` succeeds and the active table holds the single key `example.com.`:
lower-cased (as every key is, `PutJson_keys`), but with its trailing `.`,
where the claim has no trailing `.`. The lookup normalizes `example.com.` to
`example.com`, so no lookup reaches the entry. -/
theorem C17_dotted_key_kept :
    ((⟨(none, none), 0, [], false⟩ : ForwardRules).PutJson
        (.ok [(ascii "Example.com.", ascii "")])).1 = none
    ∧ (((⟨(none, none), 0, [], false⟩ : ForwardRules).PutJson
        (.ok [(ascii "Example.com.", ascii "")])).2.rulesAt
          ((⟨(none, none), 0, [], false⟩ : ForwardRules).PutJson
            (.ok [(ascii "Example.com.", ascii "")])).2.index)
      = some [(ascii "example.com.", true)]
    ∧ (ascii "example.com.").getLast? = some 0x2E
    ∧ normalizeHost (ascii "example.com.") = ascii "example.com"
    ∧ (((⟨(none, none), 0, [], false⟩ : ForwardRules).PutJson
        (.ok [(ascii "Example.com.", ascii "")])).2.IsHostAllowedByRule
          (ascii "example.com.")).1 = .ok false := by
  refine ⟨by rfl, by rfl, by rfl, by rfl, by rfl⟩

/-! ## What a lookup changes -/

theorem BoolMap.put_of_get_none (m : BoolMap) (k : Str) (v : Bool)
    (h : BoolMap.get m k = none) : BoolMap.put m k v = (k, v) :: m := by
  unfold BoolMap.get at h
  unfold BoolMap.put
  congr 1
  induction m with
  | nil => rfl
  | cons p ps ih =>
    rw [List.lookup_cons] at h
    by_cases hp : k = p.1
    · have : (k == p.1) = true := by simpa using hp
      rw [this] at h
      cases h
    · have hb : (k == p.1) = false := by simpa using hp
      rw [hb] at h
      have hd : decide (p.1 ≠ k) = true := by
        simpa using fun e => hp e.symm
      rw [List.filter_cons, hd, if_pos rfl, ih h]

/-- The rule tables, the index and the pass-through flag are the same after
every lookup. -/
theorem IsHostAllowedByRule_tables (f : ForwardRules) (x : Str) :
    (f.IsHostAllowedByRule x).2.rules = f.rules
    ∧ (f.IsHostAllowedByRule x).2.index = f.index
    ∧ (f.IsHostAllowedByRule x).2.passThrough = f.passThrough := by
  rw [IsHostAllowedByRule_eq]
  generalize f.cache.get (normalizeHost x) = c
  cases c with
  | some r => exact ⟨rfl, rfl, rfl⟩
  | none =>
    generalize f.rulesAt f.index = a
    cases a with
    | none => exact ⟨rfl, rfl, rfl⟩
    | some rules =>
      simp only
      generalize tableMatch rules (normalizeHost x) = g
      cases g with
      | some r => exact ⟨rfl, rfl, rfl⟩
      | none => exact ⟨rfl, rfl, rfl⟩

/-- C20: for every rule-set state whose active slot holds a table, and every
host `x` with no cache entry for `normalizeHost x`: when the table has neither
that key nor a suffix of it, the lookup returns false and the state is the one
before; when the table has the key, or has a suffix found by the scan, with
value `v`, the lookup returns `v` and the cache afterwards is the cache before
with the single entry `normalizeHost x -> v` added, the rest of the state as
before. And for every state and host, the lookup leaves both rule tables and
the index as they were. -/
theorem C20_lookup_effects (f : ForwardRules) (x : Str) :
    (∀ t, f.rulesAt f.index = some t → f.cache.get (normalizeHost x) = none →
        t.get (normalizeHost x) = none →
        suffixScan t (normalizeHost x) ((normalizeHost x).length - 1) 0 = none →
        f.IsHostAllowedByRule x = (.ok false, f))
    ∧ (∀ t v, f.rulesAt f.index = some t → f.cache.get (normalizeHost x) = none →
        (t.get (normalizeHost x) = some v
          ∨ (t.get (normalizeHost x) = none
              ∧ suffixScan t (normalizeHost x) ((normalizeHost x).length - 1) 0 = some v)) →
        f.IsHostAllowedByRule x
          = (.ok v, { f with cache := (normalizeHost x, v) :: f.cache }))
    ∧ (f.IsHostAllowedByRule x).2.rules = f.rules
    ∧ (f.IsHostAllowedByRule x).2.index = f.index := by
  refine ⟨?_, ?_, (IsHostAllowedByRule_tables f x).1, (IsHostAllowedByRule_tables f x).2.1⟩
  · intro t ht hc hg hs
    simp only [ForwardRules.IsHostAllowedByRule, hc, ht, hg, hs]
  · intro t v ht hc hit
    rcases hit with hg | ⟨hg, hs⟩
    · simp only [ForwardRules.IsHostAllowedByRule, hc, ht, hg,
        BoolMap.put_of_get_none _ _ v hc]
    · simp only [ForwardRules.IsHostAllowedByRule, hc, ht, hg, hs,
        BoolMap.put_of_get_none _ _ v hc]

theorem C20_lookup_effects_witness :
    exampleRules.IsHostAllowedByRule (ascii "c.d") = (.ok false, exampleRules)
    ∧ exampleRules.IsHostAllowedByRule (ascii "x.A.b.")
      = (.ok true, { exampleRules with cache := [(ascii "x.a.b", true)] }) :=
  ⟨(C20_lookup_effects exampleRules (ascii "c.d")).1 [(ascii "a.b", true)]
      (by rfl) (by rfl) (by rfl) (by rfl),
   (C20_lookup_effects exampleRules (ascii "x.A.b.")).2.1 [(ascii "a.b", true)] true
      (by rfl) (by rfl) (Or.inr ⟨by rfl, by rfl⟩)⟩

/-! ## A lookup that overlaps an update -/

/-- Run without interruption, the reads and the store of a lookup make up
`IsHostAllowedByRule`. -/
theorem lookupStore_lookupReads (f : ForwardRules) (x : Str) :
    f.IsHostAllowedByRule x = ((f.lookupReads x).result, f.lookupStore (f.lookupReads x)) := by
  simp only [ForwardRules.IsHostAllowedByRule, ForwardRules.lookupReads]
  generalize f.cache.get (normalizeHost x) = c
  cases c with
  | some r => rfl
  | none =>
    generalize f.rulesAt f.index = a
    cases a with
    | none => rfl
    | some rules =>
      simp only
      generalize rules.get (normalizeHost x) = g
      cases g with
      | some r => rfl
      | none =>
        simp only
        generalize suffixScan rules (normalizeHost x) ((normalizeHost x).length - 1) 0 = s
        cases s with
        | some r => rfl
        | none => rfl

/-- C18: the claim fails on the code in this schedule. Task A's lookup of
`x.example.com` does its reads on a rule set whose table holds `example.com`
(it is going to return the pre-swap `true`); task B's `PutJson` of a table
without `example.com` then runs from start to return, flushing the cache; then
A's `f.cache.Store` runs. A lookup of the same host that starts afterwards
returns `true` from the cache, where the claim has `false`: the table then
active gives `false`, and the overlapping lookup has left a stale entry. -/
theorem C18_stale_entry_after_update :
    (rulesWithExample.lookupReads (ascii "x.example.com")).result = .ok true
    ∧ (rulesWithExample.PutJson (.ok [(ascii "other.net", ascii "")])).1 = none
    ∧ (rulesWithExample.PutJson (.ok [(ascii "other.net", ascii "")])).2.cache = []
    ∧ freshLookup
        ((rulesWithExample.PutJson (.ok [(ascii "other.net", ascii "")])).2.rulesAt
          (rulesWithExample.PutJson (.ok [(ascii "other.net", ascii "")])).2.index)
        (ascii "x.example.com") = .ok false
    ∧ (((rulesWithExample.PutJson (.ok [(ascii "other.net", ascii "")])).2.lookupStore
          (rulesWithExample.lookupReads (ascii "x.example.com"))).IsHostAllowedByRule
        (ascii "x.example.com")).1 = .ok true := by
  refine ⟨by rfl, by rfl, by rfl, by rfl, by rfl⟩

/-! ## The drain loop of copyConn -/

theorem ReadMessage_buffered (c : tlsConn) (h : c.readBuffer ≠ []) :
    ReadMessage c = parseReadBuffer c := by
  have h0 : ¬ c.readBuffer.length = 0 := fun h0 => h (List.length_eq_zero.mp h0)
  simp only [ReadMessage, if_neg h0]

/-- On a non-empty read buffer `ReadMessage` leaves the socket alone, and either
fails with `errInvalidTLSPacket` or takes a message of at least four bytes off
the buffer. -/
theorem ReadMessage_buffered_outcome (c : tlsConn) (h : c.readBuffer ≠ []) :
    ReadMessage c = (.error (.error .errInvalidTLSPacket), c)
    ∨ ∃ m c', ReadMessage c = (.ok (some m), c') ∧ c'.conn = c.conn
        ∧ c'.versionBuffer = c.versionBuffer
        ∧ c'.readBuffer.length + 4 ≤ c.readBuffer.length := by
  rw [ReadMessage_buffered c h, parseReadBuffer_eq]
  split_ifs with hc
  · exact Or.inl rfl
  · right
    simp only [not_or, not_lt] at hc
    refine ⟨_, _, rfl, rfl, rfl, ?_⟩
    simp only [List.length_drop]
    omega

theorem drainLoop_empty (fuel : Nat) (src dst : tlsConn) (calls : List tlsMessage)
    (h : src.readBuffer = []) : drainLoop fuel src dst calls = ⟨.rawCopy, src, dst, calls⟩ := by
  rw [drainLoop.eq_def]
  simp [h]

/-- One iteration of the drain loop on a non-empty read buffer: it returns an
error, or goes on with a read buffer at least four bytes shorter; the socket of
the source is as before. -/
theorem drainLoop_step (fuel : Nat) (src dst : tlsConn) (calls : List tlsMessage)
    (h : src.readBuffer ≠ []) :
    (∃ err src1 dst1 calls1,
        drainLoop (fuel + 1) src dst calls = ⟨.returned err, src1, dst1, calls1⟩
          ∧ src1.conn = src.conn)
    ∨ ∃ p src1 dst1, src1.readBuffer.length + 4 ≤ src.readBuffer.length
        ∧ src1.conn = src.conn ∧ WriteMessage dst p = (none, dst1)
        ∧ ReadMessage src = (.ok (some p), src1)
        ∧ drainLoop (fuel + 1) src dst calls = drainLoop fuel src1 dst1 (calls ++ [p]) := by
  have h0 : ¬ src.readBuffer.length = 0 := fun h0 => h (List.length_eq_zero.mp h0)
  rw [drainLoop.eq_def]
  simp only [if_neg h0]
  rcases ReadMessage_buffered_outcome src h with he | ⟨m, c', hr, hconn, -, hlen⟩
  · left
    rw [he]
    exact ⟨_, _, _, _, rfl, rfl⟩
  · rw [hr]
    simp only
    rcases hw : WriteMessage dst m with ⟨res, dst1⟩
    cases res with
    | some err => left; exact ⟨_, _, _, _, rfl, hconn⟩
    | none => right; exact ⟨m, c', dst1, hlen, hconn, hw, rfl, rfl⟩

/-- With a budget of `len(readBuffer)` iterations the drain loop ends by
returning an error or by reaching `io.Copy` with an empty read buffer, and the
socket of the source is as it was. -/
theorem drainLoop_ends (fuel : Nat) :
    ∀ (src dst : tlsConn) (calls : List tlsMessage), src.readBuffer.length ≤ fuel →
      ((∃ err, (drainLoop fuel src dst calls).outcome = .returned err)
        ∨ ((drainLoop fuel src dst calls).outcome = .rawCopy
            ∧ (drainLoop fuel src dst calls).src.readBuffer = []))
      ∧ (drainLoop fuel src dst calls).src.conn = src.conn := by
  induction fuel with
  | zero =>
    intro src dst calls h
    have he : src.readBuffer = [] := List.length_eq_zero.mp (by omega)
    rw [drainLoop_empty 0 src dst calls he]
    exact ⟨Or.inr ⟨rfl, he⟩, rfl⟩
  | succ n ih =>
    intro src dst calls h
    by_cases he : src.readBuffer = []
    · rw [drainLoop_empty _ src dst calls he]
      exact ⟨Or.inr ⟨rfl, he⟩, rfl⟩
    · rcases drainLoop_step n src dst calls he with
        ⟨err, src1, dst1, calls1, hd, hconn⟩ | ⟨p, src1, dst1, hlen, hconn, -, -, hd⟩
      · rw [hd]
        exact ⟨Or.inl ⟨err, rfl⟩, hconn⟩
      · rw [hd]
        obtain ⟨h1, h2⟩ := ih src1 dst1 (calls ++ [p]) (by omega)
        exact ⟨h1, h2.trans hconn⟩

/-- A complete handshake message at the front of the read buffer is what
`ReadMessage` returns, and the buffer loses exactly its bytes. -/
theorem ReadMessage_complete (conn : NetConn) (vb rest : List Byte) (m : tlsMessage)
    (hm : CompleteHandshake vb m) :
    ReadMessage ⟨conn, messageBytes m ++ rest, vb⟩ = (.ok (some m), ⟨conn, rest, vb⟩) := by
  obtain ⟨head, data, hs, version⟩ := m
  obtain ⟨h1, h4, hk, hlen, hv⟩ := hm
  simp only at h1 h4 hk hlen hv
  subst h1 hv
  match head, h4 with
  | [a, b, c, d], _ =>
    have hne : (⟨conn, messageBytes ⟨[a, b, c, d], data, true, version⟩ ++ rest, version⟩
        : tlsConn).readBuffer ≠ [] := by
      simp [messageBytes]
    rw [ReadMessage_buffered _ hne, parseReadBuffer_eq]
    simp only [messageBytes, List.cons_append, List.nil_append, List.take_succ_cons,
      List.take_zero, List.drop_succ_cons, List.drop_zero, List.getD_cons_zero,
      List.length_cons, List.length_append] at hk hlen ⊢
    rw [hlen]
    have hcond : ¬ (data.length + rest.length + 1 + 1 + 1 + 1 < 4
        ∨ knownHandshakeType a = false
        ∨ data.length + rest.length + 1 + 1 + 1 + 1 < data.length + 4) := by
      simp only [hk, not_or, not_lt]
      exact ⟨by omega, by simp, by omega⟩
    rw [if_neg hcond]
    have e4 : 4 + data.length = data.length + 1 + 1 + 1 + 1 := by omega
    simp only [e4, List.take_succ_cons, List.drop_succ_cons, List.take_left', List.drop_left',
      List.drop_zero]

/-- On a read buffer made of the complete handshake messages `ms`, towards a
destination that takes every write, the drain loop calls `WriteMessage` on each
message of `ms` in order and reaches `io.Copy` with an empty read buffer. -/
theorem drainLoop_messages (ms : List tlsMessage) :
    ∀ (fuel : Nat) (conn : NetConn) (vb : List Byte) (dst dst' : tlsConn)
      (calls : List tlsMessage),
      (∀ m ∈ ms, CompleteHandshake vb m) → ms.length ≤ fuel →
      writeAll dst ms = (none, dst') →
      drainLoop fuel ⟨conn, (ms.map messageBytes).flatten, vb⟩ dst calls
        = ⟨.rawCopy, ⟨conn, [], vb⟩, dst', calls ++ ms⟩ := by
  induction ms with
  | nil =>
    intro fuel conn vb dst dst' calls _ _ hw
    simp only [writeAll, Prod.mk.injEq, true_and] at hw
    subst hw
    rw [drainLoop_empty _ _ _ _ (by simp)]
    simp
  | cons m rest ih =>
    intro fuel conn vb dst dst' calls hms hfuel hw
    obtain ⟨f, rfl⟩ : ∃ f, fuel = f + 1 :=
      ⟨fuel - 1, by simp only [List.length_cons] at hfuel; omega⟩
    have hm := hms m (List.mem_cons_self m rest)
    have hne : ¬ (messageBytes m ++ (rest.map messageBytes).flatten).length = 0 := by
      have := hm.2.1
      simp only [messageBytes, List.length_append]
      omega
    rw [drainLoop.eq_def]
    simp only [List.map_cons, List.flatten_cons, if_neg hne,
      ReadMessage_complete conn vb _ m hm]
    simp only [writeAll] at hw
    rcases hwm : WriteMessage dst m with ⟨res, dst1⟩
    rw [hwm] at hw
    cases res with
    | some err => simp at hw
    | none =>
      simp only at hw ⊢
      rw [ih f conn vb dst1 dst' (calls ++ [m])
        (fun x hx => hms x (List.mem_cons_of_mem m hx))
        (by simp only [List.length_cons] at hfuel; omega) hw]
      simp

/-- The same, towards a destination that refuses a write: the loop returns the
error of the first refused `WriteMessage`. -/
theorem drainLoop_messages_refused (ms : List tlsMessage) :
    ∀ (fuel : Nat) (conn : NetConn) (vb : List Byte) (dst dst' : tlsConn)
      (calls : List tlsMessage) (err : GoError),
      (∀ m ∈ ms, CompleteHandshake vb m) → ms.length ≤ fuel →
      writeAll dst ms = (some err, dst') →
      (drainLoop fuel ⟨conn, (ms.map messageBytes).flatten, vb⟩ dst calls).outcome
          = .returned err
        ∧ (drainLoop fuel ⟨conn, (ms.map messageBytes).flatten, vb⟩ dst calls).dst = dst' := by
  induction ms with
  | nil =>
    intro fuel conn vb dst dst' calls err _ _ hw
    simp [writeAll] at hw
  | cons m rest ih =>
    intro fuel conn vb dst dst' calls err hms hfuel hw
    obtain ⟨f, rfl⟩ : ∃ f, fuel = f + 1 :=
      ⟨fuel - 1, by simp only [List.length_cons] at hfuel; omega⟩
    have hm := hms m (List.mem_cons_self m rest)
    have hne : ¬ (messageBytes m ++ (rest.map messageBytes).flatten).length = 0 := by
      have := hm.2.1
      simp only [messageBytes, List.length_append]
      omega
    rw [drainLoop.eq_def]
    simp only [List.map_cons, List.flatten_cons, if_neg hne,
      ReadMessage_complete conn vb _ m hm]
    simp only [writeAll] at hw
    rcases hwm : WriteMessage dst m with ⟨res, dst1⟩
    rw [hwm] at hw
    cases res with
    | some e =>
      simp only [Prod.mk.injEq, Option.some.injEq] at hw
      obtain ⟨rfl, rfl⟩ := hw
      exact ⟨rfl, rfl⟩
    | none =>
      simp only at hw ⊢
      exact ih f conn vb dst1 dst' (calls ++ [m]) err
        (fun x hx => hms x (List.mem_cons_of_mem m hx))
        (by simp only [List.length_cons] at hfuel; omega) hw

theorem length_le_flatten_messageBytes (vb : List Byte) (ms : List tlsMessage)
    (h : ∀ m ∈ ms, CompleteHandshake vb m) :
    ms.length ≤ ((ms.map messageBytes).flatten).length := by
  induction ms with
  | nil => simp
  | cons m rest ih =>
    have hm := (h m (List.mem_cons_self m rest)).2.1
    have := ih (fun x hx => h x (List.mem_cons_of_mem m hx))
    simp only [List.map_cons, List.flatten_cons, List.length_append, List.length_cons,
      messageBytes]
    omega

/-- C21: for every source connection, whatever bytes its read buffer holds, and
every destination, the drain loop of `copyConn` terminates, by returning an
error or by reaching `io.Copy` with an empty read buffer; the source socket is
never read (it is as before when the loop ends); each iteration on a
non-empty buffer returns an error or goes on with a buffer at least four bytes
shorter; and when the buffer is the concatenation of `k` complete handshake
messages of known type, the loop makes exactly `k` `WriteMessage` calls on the
destination, one per message and in order, and reaches `io.Copy` with an empty
buffer, unless the destination refuses a write, which is the error the loop
then returns. -/
theorem C21_drain_loop (src dst : tlsConn) :
    ((∃ err, (drain src dst).outcome = .returned err)
      ∨ ((drain src dst).outcome = .rawCopy ∧ (drain src dst).src.readBuffer = []))
    ∧ (drain src dst).src.conn = src.conn
    ∧ (∀ fuel calls, src.readBuffer ≠ [] →
        (∃ err src1 dst1 calls1,
          drainLoop (fuel + 1) src dst calls = ⟨.returned err, src1, dst1, calls1⟩)
        ∨ ∃ p src1 dst1, src1.readBuffer.length + 4 ≤ src.readBuffer.length
            ∧ src1.conn = src.conn
            ∧ drainLoop (fuel + 1) src dst calls = drainLoop fuel src1 dst1 (calls ++ [p]))
    ∧ (∀ ms dst', (∀ m ∈ ms, CompleteHandshake src.versionBuffer m) →
        src.readBuffer = (ms.map messageBytes).flatten →
        writeAll dst ms = (none, dst') →
        drain src dst = ⟨.rawCopy, { src with readBuffer := [] }, dst', ms⟩)
    ∧ (∀ ms dst' err, (∀ m ∈ ms, CompleteHandshake src.versionBuffer m) →
        src.readBuffer = (ms.map messageBytes).flatten →
        writeAll dst ms = (some err, dst') →
        (drain src dst).outcome = .returned err) := by
  refine ⟨(drainLoop_ends _ src dst [] (Nat.le_refl _)).1,
    (drainLoop_ends _ src dst [] (Nat.le_refl _)).2, ?_, ?_, ?_⟩
  · intro fuel calls hne
    rcases drainLoop_step fuel src dst calls hne with
      ⟨err, src1, dst1, calls1, hd, -⟩ | ⟨p, src1, dst1, hlen, hconn, -, -, hd⟩
    · exact Or.inl ⟨err, src1, dst1, calls1, hd⟩
    · exact Or.inr ⟨p, src1, dst1, hlen, hconn, hd⟩
  · intro ms dst' hms hbuf hw
    obtain ⟨conn, rb, vb⟩ := src
    simp only at hms hbuf
    subst hbuf
    have := drainLoop_messages ms ((ms.map messageBytes).flatten).length conn vb dst dst' []
      hms (length_le_flatten_messageBytes vb ms hms) hw
    simpa [drain] using this
  · intro ms dst' err hms hbuf hw
    obtain ⟨conn, rb, vb⟩ := src
    simp only at hms hbuf
    subst hbuf
    exact (drainLoop_messages_refused ms ((ms.map messageBytes).flatten).length conn vb dst dst'
      [] err hms (length_le_flatten_messageBytes vb ms hms) hw).1

theorem C21_drain_loop_witness :
    drain ⟨⟨[9, 9], [], none⟩, [1, 0, 0, 1, 7, 2, 0, 0, 0], [3, 1]⟩ (newConn [])
      = ⟨.rawCopy, ⟨⟨[9, 9], [], none⟩, [], [3, 1]⟩,
          ⟨⟨[], [0x16, 3, 1, 0, 5, 1, 0, 0, 1, 7, 0x16, 3, 1, 0, 4, 2, 0, 0, 0], none⟩, [], []⟩,
          [⟨[1, 0, 0, 1], [7], true, [3, 1]⟩, ⟨[2, 0, 0, 0], [], true, [3, 1]⟩]⟩ :=
  (C21_drain_loop ⟨⟨[9, 9], [], none⟩, [1, 0, 0, 1, 7, 2, 0, 0, 0], [3, 1]⟩ (newConn [])).2.2.2.1
    [⟨[1, 0, 0, 1], [7], true, [3, 1]⟩, ⟨[2, 0, 0, 0], [], true, [3, 1]⟩]
    ⟨⟨[], [0x16, 3, 1, 0, 5, 1, 0, 0, 1, 7, 0x16, 3, 1, 0, 4, 2, 0, 0, 0], none⟩, [], []⟩
    (by
      intro m hm
      simp only [List.mem_cons, List.mem_singleton, List.not_mem_nil, or_false] at hm
      rcases hm with rfl | rfl <;> exact ⟨rfl, rfl, rfl, rfl, rfl⟩)
    (by rfl) (by rfl)

/-! ## ExtractSNI is total -/

/-- One pass of the extension loop over non-empty data: it returns
`errInvaildClientHello`, or goes on with data at least four bytes shorter,
whatever the iteration budget. -/
theorem extensionLoop_step (data : List Byte) (s : Str) (hne : data ≠ []) :
    (∀ fuel, extensionLoop (fuel + 1) data s = .error (.error .errInvaildClientHello))
    ∨ ∃ data' s', data'.length + 4 ≤ data.length
        ∧ ∀ fuel, extensionLoop (fuel + 1) data s = extensionLoop fuel data' s' := by
  have h0 : ¬ data.length = 0 := fun h => hne (List.length_eq_zero.mp h)
  by_cases h4 : data.length < 4
  · left
    intro fuel
    rw [extensionLoop.eq_def]
    simp only [if_neg h0, if_pos h4]
  · have e1 := @slice_eq_ok data 0 2 (by omega) (by omega)
    have e2 := @idx_eq_ok data 2 (by omega)
    have e3 := @idx_eq_ok data 3 (by omega)
    have e4 := @sliceFrom_eq_ok data 4 (by omega)
    have hlen : (List.drop 4 data).length = data.length - 4 := List.length_drop 4 data
    by_cases hl : (List.drop 4 data).length
        < ((data.getD 2 0).val <<< 8 ||| (data.getD 3 0).val)
    · left
      intro fuel
      rw [extensionLoop.eq_def]
      simp only [if_neg h0, if_neg h4, bind, Except.bind, e1, e2, e3, e4, if_pos hl]
    · have e5 := @sliceFrom_eq_ok (List.drop 4 data)
        ((data.getD 2 0).val <<< 8 ||| (data.getD 3 0).val) (by omega)
      have hshort : (List.drop ((data.getD 2 0).val <<< 8 ||| (data.getD 3 0).val)
          (List.drop 4 data)).length + 4 ≤ data.length := by
        rw [List.length_drop, hlen]; omega
      by_cases hx : makeNetworkInt (List.drop 0 (List.take 2 data)) = extensionIDServerName
      · by_cases h2 : ((data.getD 2 0).val <<< 8 ||| (data.getD 3 0).val) < 2
        · left
          intro fuel
          rw [extensionLoop.eq_def]
          simp only [if_neg h0, if_neg h4, bind, Except.bind, e1, e2, e3, e4, if_neg hl,
            if_pos hx, if_pos h2]
        · have e6 := @slice_eq_ok (List.drop 4 data) 0 2 (by omega) (by omega)
          have e7 := @sliceFrom_eq_ok (List.drop 4 data) 2 (by omega)
          rcases nameLoop_clean (makeNetworkInt (List.drop 0 (List.take 2 (List.drop 4 data))))
            (List.drop 2 (List.drop 4 data)) s with ⟨s', hs'⟩ | herr
          · right
            refine ⟨_, s', hshort, ?_⟩
            intro fuel
            rw [extensionLoop.eq_def]
            simp only [if_neg h0, if_neg h4, bind, Except.bind, e1, e2, e3, e4, if_neg hl,
              if_pos hx, if_neg h2, e6, e7, hs', e5]
          · left
            intro fuel
            rw [extensionLoop.eq_def]
            simp only [if_neg h0, if_neg h4, bind, Except.bind, e1, e2, e3, e4, if_neg hl,
              if_pos hx, if_neg h2, e6, e7, herr]
      · right
        refine ⟨_, s, hshort, ?_⟩
        intro fuel
        rw [extensionLoop.eq_def]
        simp only [if_neg h0, if_neg h4, bind, Except.bind, e1, e2, e3, e4, if_neg hl,
          if_neg hx, pure, Except.pure, e5]

/-- A budget of `len(data)` passes is enough: a larger one gives the same result. -/
theorem extensionLoop_fuel (fuel : Nat) :
    ∀ (data : List Byte) (s : Str) (extra : Nat), data.length ≤ fuel →
      extensionLoop (fuel + extra) data s = extensionLoop fuel data s := by
  induction fuel with
  | zero =>
    intro data s extra h
    have : data = [] := List.length_eq_zero.mp (by omega)
    subst this
    rw [extensionLoop_nil, extensionLoop_nil]
  | succ n ih =>
    intro data s extra h
    by_cases he : data = []
    · subst he
      rw [extensionLoop_nil, extensionLoop_nil]
    · have e : n + 1 + extra = (n + extra) + 1 := by omega
      rcases extensionLoop_step data s he with herr | ⟨data', s', hlen, hgo⟩
      · rw [e, herr, herr]
      · rw [e, hgo, hgo]
        exact ih data' s' extra (by omega)

/-- C22, counterexample: on a handshake message with an empty head the first
guard of `ExtractSNI` is taken and its log call evaluates `p.head[0]`: an
out-of-range index, where the claim has a return of `errInvaildClientHello`. -/
theorem C22_empty_head_counterexample :
    tlsMessage.ExtractSNI ⟨[], [], true, []⟩ = .error .panic := by
  rfl

/-- C22, as the code has it: for every message with a non-empty head (as all
messages made by `newMessage` have), whatever its data, `ExtractSNI` returns a
string and no error or returns `errInvaildClientHello`: it makes no
out-of-range index or slice (no panic) and its extension walk ends within its
budget of `len(data)` passes. Each pass of the walk over non-empty data
returns `errInvaildClientHello` or goes on with data at least four bytes
shorter, and a larger budget gives the same result. -/
theorem C22_extract_sni_total (p : tlsMessage) (hh : p.head ≠ []) :
    ((∃ s, p.ExtractSNI = .ok s) ∨ p.ExtractSNI = .error (.error .errInvaildClientHello))
    ∧ p.ExtractSNI ≠ .error .panic
    ∧ p.ExtractSNI ≠ .error .outOfFuel
    ∧ (∀ (data : List Byte) (s : Str), data ≠ [] →
        (∀ fuel, extensionLoop (fuel + 1) data s = .error (.error .errInvaildClientHello))
        ∨ ∃ data' s', data'.length + 4 ≤ data.length
            ∧ ∀ fuel, extensionLoop (fuel + 1) data s = extensionLoop fuel data' s')
    ∧ (∀ (data : List Byte) (s : Str) (extra : Nat),
        extensionLoop (data.length + extra) data s = extensionLoop data.length data s) := by
  have hc : (∃ s, p.ExtractSNI = .ok s)
      ∨ p.ExtractSNI = .error (.error .errInvaildClientHello) := ExtractSNI_clean p hh
  refine ⟨hc, ?_, ?_, fun data s hne => extensionLoop_step data s hne,
    fun data s extra => extensionLoop_fuel _ data s extra (Nat.le_refl _)⟩
  · rcases hc with ⟨s, hs⟩ | he
    · rw [hs]; intro h; cases h
    · rw [he]; intro h; cases h
  · rcases hc with ⟨s, hs⟩ | he
    · rw [hs]; intro h; cases h
    · rw [he]; intro h; cases h

theorem C22_extract_sni_total_witness :
    ([(2 : Byte), 0, 0, 0] ≠ [])
    ∧ tlsMessage.ExtractSNI ⟨[2, 0, 0, 0], [], true, []⟩ ≠ .error .panic
    ∧ ([(0 : Byte), 10, 0, 1, 7, 0, 11, 0, 0] ≠ [])
    ∧ ((∀ fuel, extensionLoop (fuel + 1) [0, 10, 0, 1, 7, 0, 11, 0, 0] []
          = .error (.error .errInvaildClientHello))
      ∨ ∃ data' s', data'.length + 4 ≤ [(0 : Byte), 10, 0, 1, 7, 0, 11, 0, 0].length
          ∧ ∀ fuel, extensionLoop (fuel + 1) [0, 10, 0, 1, 7, 0, 11, 0, 0] []
              = extensionLoop fuel data' s') :=
  ⟨by decide,
    (C22_extract_sni_total ⟨[2, 0, 0, 0], [], true, []⟩ (by decide)).2.1,
    by decide,
    (C22_extract_sni_total ⟨[2, 0, 0, 0], [], true, []⟩ (by decide)).2.2.2.1
      [0, 10, 0, 1, 7, 0, 11, 0, 0] [] (by decide)⟩

end Rproxy
